import Mathlib

/-!
# IngeScape / MASTIC model managers

A shallow embedding of the agent directory code of the IngeScape editor
applications:

* `MasticModelManager` (MASTIC-Editor/controller/masticmodelmanager.cpp),
* `IngeScapeModelManager` of IngeScape-Common
  (IngeScape-Common/controller/ingescapemodelmanager.cpp),
* `IngeScapeModelManager` of IngeScape-Editor
  (IngeScape-Editor/controller/ingescapemodelmanager.cpp).

Objects created with `new` live in heaps (lists of cells, a freed cell is
`none`); a pointer is the index of its cell and `nullptr` is `none`.
Dereferencing a pointer whose cell is missing or freed is undefined behaviour
in the source: the embedded operations return `none` there.  `Q_EMIT` appends
the signal to a log, together with the directory as it is when the signal
fires (what a directly connected slot observes).
-/

namespace Ingescape

/-! ## Heaps -/

/-- Cells of the objects of one class, indexed by address; `none` is a freed cell. -/
abbrev Heap (α : Type) := List (Option α)

/-- Read the object behind a pointer (`none`: no live object there). -/
def Heap.deref {α : Type} (h : Heap α) (p : Nat) : Option α := (h.get? p).join

/-- Address that the next `new` returns. -/
def Heap.fresh {α : Type} (h : Heap α) : Nat := h.length

/-- The heap after `new`: the object is placed in a cell of its own at `Heap.fresh`. -/
def Heap.alloc {α : Type} (h : Heap α) (a : α) : Heap α := h ++ [some a]

/-- Overwrite the object behind a pointer (a setter applied through the pointer). -/
def Heap.store {α : Type} (h : Heap α) (p : Nat) (a : α) : Heap α := h.set p (some a)

/-- The heap after `delete p`. -/
def Heap.free {α : Type} (h : Heap α) (p : Nat) : Heap α := h.set p none

/-- Number of live objects. -/
def Heap.count {α : Type} (h : Heap α) : Nat := (h.filter Option.isSome).length

/-! ## QHash -/

/-- A `QHash<K, V>`: one entry per key, `insert` replaces the entry of its key. -/
abbrev QHash (κ ν : Type) := List (κ × ν)

/-- The entry of a key, when there is one. -/
def QHash.find {κ ν : Type} [DecidableEq κ] (h : QHash κ ν) (k : κ) : Option ν :=
  match h with
  | [] => none
  | (k', v) :: rest => if k' = k then some v else QHash.find rest k

/-- `QHash::contains`. -/
def QHash.contains {κ ν : Type} [DecidableEq κ] (h : QHash κ ν) (k : κ) : Bool :=
  (QHash.find h k).isSome

/-- `QHash::remove`. -/
def QHash.remove {κ ν : Type} [DecidableEq κ] (h : QHash κ ν) (k : κ) : QHash κ ν :=
  h.filter (fun e => decide (e.1 ≠ k))

/-- `QHash::insert`: replaces the value when the key is already there. -/
def QHash.insert {κ ν : Type} [DecidableEq κ] (h : QHash κ ν) (k : κ) (v : ν) : QHash κ ν :=
  (k, v) :: QHash.remove h k

/-! ## Model classes shared by the applications

The classes `OutputM`, `DefinitionM`, `ElementMappingM`, `AgentMappingM` and
`AgentM` are declared outside the modelled sources; the records below carry
the properties that the model managers read and write. -/

/-- An output of a definition (`OutputM`): the manager reads its `id`. -/
structure OutputM where
  id : String
  name : String := ""
deriving DecidableEq, Repr

/-- An agent definition (`DefinitionM`).  `outputsList` may hold null entries
(the managers test each entry); `outputsIdsList` is the `QStringList` property
of the same name. -/
structure DefinitionM where
  name : String
  version : String := ""
  md5Hash : String := ""
  isVariant : Bool := false
  outputsList : List (Option OutputM) := []
  outputsIdsList : List String := []
deriving DecidableEq, Repr

/-- An element of a mapping (`ElementMappingM`): the manager reads its `id`. -/
structure ElementMappingM where
  id : String
  inputAgent : String := ""
  input : String := ""
  outputAgent : String := ""
  output : String := ""
deriving DecidableEq, Repr

/-- An agent mapping (`AgentMappingM`), built by `AgentMappingM(name, version, description)`
or by the JSON helper. -/
structure AgentMappingM where
  name : String
  version : String := ""
  description : String := ""
  mappingElements : List (Option ElementMappingM) := []
  namesOfMappingElements : List String := []
deriving DecidableEq, Repr

/-! ## MASTIC editor: `MasticModelManager` -/

namespace Mastic

/-- The enum `AgentStatus` (the source uses `AgentStatus::ON` and `AgentStatus::OFF`). -/
inductive AgentStatus where
  | ON
  | OFF
deriving DecidableEq, Repr

/-- The MASTIC `AgentM`, built by `AgentM(name, peerId, address, parent)` or `AgentM(name, parent)`. -/
structure AgentM where
  name : String
  peerId : String := ""
  address : String := ""
  hostname : String := ""
  executionPath : String := ""
  pid : Int := 0
  canBeFrozen : Bool := false
  status : AgentStatus := AgentStatus.OFF
  isMuted : Bool := false
  isFrozen : Bool := false
deriving DecidableEq, Repr

/-- Members of `MasticModelManager` and the objects they point to. -/
structure Dir where
  agents : Heap AgentM := []
  definitions : Heap DefinitionM := []
  mappings : Heap AgentMappingM := []
  mapFromPeerIdToAgentM : QHash String Nat := []
  mapFromNameToAgentModelsList : QHash String (List Nat) := []
  mapFromNameToAgentDefinitionsList : QHash String (List (Option Nat)) := []
  mapFromNameToAgentMappingsList : QHash String (List Nat) := []
deriving DecidableEq, Repr

/-- Signals of `MasticModelManager`. -/
inductive Signal where
  | agentModelCreated (agent : Nat)
  | agentDefinitionCreated (definition agent : Nat)
  | agentMappingCreated (agentMapping agent : Nat)
deriving DecidableEq, Repr

/-- The manager with the signals emitted so far. -/
structure State extends Dir where
  log : List (Signal × Dir) := []
deriving DecidableEq, Repr

/-- Perform `Q_EMIT`. -/
def emit (s : State) (sig : Signal) : State :=
  { s with log := s.log ++ [(sig, s.toDir)] }

/-- Translation of `MasticModelManager::getAgentModelFromPeerId` (`none` is `NULL`). -/
def getAgentModelFromPeerId (s : State) (peerId : String) : Option Nat :=
  if QHash.contains s.mapFromPeerIdToAgentM peerId then
    QHash.find s.mapFromPeerIdToAgentM peerId
  else
    none

/-- Translation of `MasticModelManager::getAgentModelsListFromName`. -/
def getAgentModelsListFromName (s : State) (name : String) : List Nat :=
  if QHash.contains s.mapFromNameToAgentModelsList name then
    (QHash.find s.mapFromNameToAgentModelsList name).getD []
  else
    []

/-- Translation of `MasticModelManager::addAgentModel`. -/
def addAgentModel (s : State) (agent : Option Nat) : Option State :=
  match agent with
  | none => some s
  | some p =>
    match Heap.deref s.agents p with
    | none => none
    | some a =>
      let agentModelsList := getAgentModelsListFromName s a.name ++ [p]
      some { s with mapFromNameToAgentModelsList :=
                      QHash.insert s.mapFromNameToAgentModelsList a.name agentModelsList }

/-- Translation of `MasticModelManager::onAgentEntered`. -/
def onAgentEntered (s : State) (peerId agentName agentAddress : String) (pid : Int)
    (hostname executionPath : String) (canBeFrozen : Bool) : Option State :=
  if peerId ≠ "" ∧ agentName ≠ "" ∧ agentAddress ≠ "" then
    match getAgentModelFromPeerId s peerId with
    | some agent =>
      -- An agent with this peer id already exist: update the status
      match Heap.deref s.agents agent with
      | none => none
      | some a => some { s with agents := Heap.store s.agents agent { a with status := AgentStatus.ON } }
    | none =>
      -- New peer id: create a new model of agent
      let agent := Heap.fresh s.agents
      let a : AgentM := { name := agentName, peerId := peerId, address := agentAddress }
      let a := { a with hostname := hostname, executionPath := executionPath, pid := pid,
                        canBeFrozen := canBeFrozen, status := AgentStatus.ON }
      let s1 : State := { s with agents := Heap.alloc s.agents a }
      let s2 : State := { s1 with mapFromPeerIdToAgentM := QHash.insert s1.mapFromPeerIdToAgentM peerId agent }
      match addAgentModel s2 (some agent) with
      | none => none
      | some s3 => some (emit s3 (Signal.agentModelCreated agent))
  else
    some s

/-- Translation of `MasticModelManager::onAgentExited`. -/
def onAgentExited (s : State) (peerId : String) (_agentName : String) : Option State :=
  match getAgentModelFromPeerId s peerId with
  | some agent =>
    match Heap.deref s.agents agent with
    | none => none
    | some a => some { s with agents := Heap.store s.agents agent { a with status := AgentStatus.OFF } }
  | none => some s

/-- Translation of `MasticModelManager::getAgentDefinitionsListFromName`. -/
def getAgentDefinitionsListFromName (s : State) (name : String) : List (Option Nat) :=
  if QHash.contains s.mapFromNameToAgentDefinitionsList name then
    (QHash.find s.mapFromNameToAgentDefinitionsList name).getD []
  else
    []

/-- Local variables of `_updateDefinitionVariants` during its first loop, with the
heap of definitions that the loop writes to. -/
structure VariantsScan where
  definitions : Heap DefinitionM
  mapFromVersionToDefinitionsList : QHash String (List Nat) := []
  versionsWithVariant : List String := []
deriving DecidableEq, Repr

/-- One iteration of the first `foreach` of `_updateDefinitionVariants`.
The lists kept per version only receive the non-null `iterator`, so they hold
addresses, and `first != NULL` holds for every `first`. -/
def scanDefinition (st : VariantsScan) (iterator : Option Nat) : Option VariantsScan :=
  match iterator with
  | none => some st
  | some p =>
    match Heap.deref st.definitions p with
    | none => none
    | some d =>
      if d.version = "" then some st
      else
        -- First, reset all
        let defs := Heap.store st.definitions p { d with isVariant := false }
        let version := d.version
        if QHash.contains st.mapFromVersionToDefinitionsList version then
          -- Other(s) definition(s) have the same version (and the same name)
          let definitionsListForVersion := (QHash.find st.mapFromVersionToDefinitionsList version).getD []
          if ¬ (version ∈ st.versionsWithVariant) then
            -- We compare I/O/P between current iterator and the first one
            match definitionsListForVersion.head? with
            | none => none
            | some first =>
              match Heap.deref defs first with
              | none => none
              | some f =>
                some { definitions := defs
                       mapFromVersionToDefinitionsList :=
                         QHash.insert st.mapFromVersionToDefinitionsList version (definitionsListForVersion ++ [p])
                       versionsWithVariant :=
                         if f.md5Hash ≠ d.md5Hash then st.versionsWithVariant ++ [version]
                         else st.versionsWithVariant }
          else
            some { st with definitions := defs
                           mapFromVersionToDefinitionsList :=
                             QHash.insert st.mapFromVersionToDefinitionsList version (definitionsListForVersion ++ [p]) }
        else
          some { st with definitions := defs
                         mapFromVersionToDefinitionsList :=
                           QHash.insert st.mapFromVersionToDefinitionsList version [p] }

/-- The inner `foreach` of the second loop: `setisVariant(true)` on each definition of a version. -/
def flagDefinitions (defs : Heap DefinitionM) (definitionsListForVersion : List Nat) :
    Option (Heap DefinitionM) :=
  definitionsListForVersion.foldlM
    (fun h p => (Heap.deref h p).map (fun d => Heap.store h p { d with isVariant := true })) defs

/-- The second `foreach` of `_updateDefinitionVariants`, over the versions that have variants. -/
def flagVersions (mapFromVersionToDefinitionsList : QHash String (List Nat))
    (defs : Heap DefinitionM) (versionsWithVariant : List String) : Option (Heap DefinitionM) :=
  versionsWithVariant.foldlM
    (fun h version => flagDefinitions h ((QHash.find mapFromVersionToDefinitionsList version).getD [])) defs

/-- Translation of `MasticModelManager::_updateDefinitionVariants`. -/
def _updateDefinitionVariants (s : State) (definitionName : String) : Option State :=
  let agentDefinitionsList := getAgentDefinitionsListFromName s definitionName
  match agentDefinitionsList.foldlM scanDefinition { definitions := s.definitions } with
  | none => none
  | some st =>
    match flagVersions st.mapFromVersionToDefinitionsList st.definitions st.versionsWithVariant with
    | none => none
    | some defs => some { s with definitions := defs }

/-- Translation of `MasticModelManager::addAgentDefinition`. -/
def addAgentDefinition (s : State) (definition : Option Nat) : Option State :=
  match definition with
  | none => some s
  | some p =>
    match Heap.deref s.definitions p with
    | none => none
    | some d =>
      let definitionName := d.name
      let agentDefinitionsList := getAgentDefinitionsListFromName s definitionName ++ [some p]
      _updateDefinitionVariants
        { s with mapFromNameToAgentDefinitionsList :=
                   QHash.insert s.mapFromNameToAgentDefinitionsList definitionName agentDefinitionsList }
        definitionName

end Mastic

/-! ## Specification vocabulary -/

namespace Mastic

/-- Version string of the definition behind a pointer. -/
def versionOf (h : Heap DefinitionM) (p : Nat) : String :=
  match Heap.deref h p with
  | some d => d.version
  | none => ""

/-- Hash of the definition behind a pointer. -/
def md5Of (h : Heap DefinitionM) (p : Nat) : String :=
  match Heap.deref h p with
  | some d => d.md5Hash
  | none => ""

/-- The definitions of a list that carry a given version, in list order. -/
def cohort (h : Heap DefinitionM) (l : List (Option Nat)) (version : String) : List Nat :=
  l.filterMap (fun o => o.bind (fun p => if versionOf h p = version then some p else none))

/-- A version has variants in a list: two listed definitions carry it with different hashes. -/
def HasVariants (h : Heap DefinitionM) (l : List (Option Nat)) (version : String) : Prop :=
  ∃ q r, some q ∈ l ∧ some r ∈ l ∧ versionOf h q = version ∧ versionOf h r = version ∧
    md5Of h q ≠ md5Of h r

end Mastic

end Ingescape

namespace Ingescape.Mastic

/-- A definition after the first loop went over the entries `pre`: the flag of every
entry with a non-empty version has been reset. -/
def resetIn (pre : List (Option Nat)) (p : Nat) (d : DefinitionM) : DefinitionM :=
  if some p ∈ pre ∧ d.version ≠ "" then { d with isVariant := false } else d

/-- Loop invariant of the first `foreach` of `_updateDefinitionVariants`, after the
entries `pre` of the list, starting from the heap `h0`. -/
structure ScanInv (h0 : Heap DefinitionM) (pre : List (Option Nat)) (st : VariantsScan) : Prop where
  len : st.definitions.length = h0.length
  defs : ∀ p, Heap.deref st.definitions p = (Heap.deref h0 p).map (resetIn pre p)
  map : ∀ v, QHash.find st.mapFromVersionToDefinitionsList v =
      if v = "" ∨ cohort h0 pre v = [] then none else some (cohort h0 pre v)
  vers : ∀ v, v ∈ st.versionsWithVariant ↔
      v ≠ "" ∧ ∃ q ∈ cohort h0 pre v, ∃ f ∈ (cohort h0 pre v).head?, md5Of h0 q ≠ md5Of h0 f

end Ingescape.Mastic

namespace Ingescape.Mastic

/-- Three definitions named "sensor": two of version "1.0" with different hashes, one of version "2.0". -/
def sampleDefinitions : Heap DefinitionM :=
  [some { name := "sensor", version := "1.0", md5Hash := "aa" },
   some { name := "sensor", version := "1.0", md5Hash := "bb" },
   some { name := "sensor", version := "2.0", md5Hash := "aa" }]

/-- A manager in which the three sample definitions are registered under their name. -/
def sampleState : State :=
  { definitions := sampleDefinitions
    mapFromNameToAgentDefinitionsList := [("sensor", [some 0, some 1, some 2])] }

/-- Two definitions named "sensor" without version and with different hashes. -/
def unversionedDefinitions : Heap DefinitionM :=
  [some { name := "sensor", version := "", md5Hash := "aa" },
   some { name := "sensor", version := "", md5Hash := "bb" }]

end Ingescape.Mastic

namespace Ingescape

/-! ## JSON values (`QJsonValue`, `QJsonObject`, `QJsonArray`) -/

/-- A `QJsonValue`; `undefined` is what `QJsonObject::value` returns for a missing key.
The payload of a number is not read by the modelled code. -/
inductive QJsonValue where
  | null
  | bool (b : Bool)
  | double (n : Int)
  | string (s : String)
  | array (a : List QJsonValue)
  | object (o : List (String × QJsonValue))
  | undefined

/-- A `QJsonObject`. -/
abbrev QJsonObject := List (String × QJsonValue)

/-- A `QJsonArray`. -/
abbrev QJsonArray := List QJsonValue

/-- `QJsonValue::isObject`. -/
def QJsonValue.isObject : QJsonValue → Bool
  | QJsonValue.object _ => true
  | _ => false

/-- `QJsonValue::isArray`. -/
def QJsonValue.isArray : QJsonValue → Bool
  | QJsonValue.array _ => true
  | _ => false

/-- `QJsonValue::isString`. -/
def QJsonValue.isString : QJsonValue → Bool
  | QJsonValue.string _ => true
  | _ => false

/-- `QJsonValue::isNull`. -/
def QJsonValue.isNull : QJsonValue → Bool
  | QJsonValue.null => true
  | _ => false

/-- `QJsonValue::toObject`: the empty object when the value is not an object. -/
def QJsonValue.toObject : QJsonValue → QJsonObject
  | QJsonValue.object o => o
  | _ => []

/-- `QJsonValue::toArray`: the empty array when the value is not an array. -/
def QJsonValue.toArray : QJsonValue → QJsonArray
  | QJsonValue.array a => a
  | _ => []

/-- `QJsonValue::toString`: the empty string when the value is not a string. -/
def QJsonValue.toQString : QJsonValue → String
  | QJsonValue.string s => s
  | _ => ""

/-- `QJsonObject::value`. -/
def QJsonObject.value (o : QJsonObject) (key : String) : QJsonValue :=
  match o with
  | [] => QJsonValue.undefined
  | (k, v) :: rest => if k = key then v else QJsonObject.value rest key

/-- `QJsonObject::insert`: replaces the value of the key; inserting `undefined` removes the key. -/
def QJsonObject.insert (o : QJsonObject) (key : String) (v : QJsonValue) : QJsonObject :=
  match v with
  | QJsonValue.undefined => o.filter (fun e => decide (e.1 ≠ key))
  | _ => (key, v) :: o.filter (fun e => decide (e.1 ≠ key))

/-- The model of agent (`AgentM`) of IngeScape-Common and IngeScape-Editor, built by
`AgentM(name, peerId, ipAddress, hostname, commandLine, isON, parent)`,
`AgentM(name, peerId, ipAddress, parent)` or `AgentM(name, parent)`.
`definition` and `mapping` are nullable pointers. -/
structure AgentM where
  name : String
  peerId : String := ""
  address : String := ""
  hostname : String := ""
  commandLine : String := ""
  isON : Bool := false
  canBeFrozen : Bool := false
  canBeRestarted : Bool := false
  loggerPort : String := ""
  definition : Option Nat := none
  mapping : Option Nat := none
deriving DecidableEq, Repr

/-- Modelled from the spec: the class `AgentsGroupedByNameVM` is not under src; it is the
group of the agent models that share one name ("agent name is ... many-to-one with peer id"). -/
structure AgentsGroupedByNameVM where
  name : String
  models : List Nat := []
deriving DecidableEq, Repr

/-- The JSON helper (`JsonHelper`, not under src): each function returns a new object or null. -/
structure JsonHelper where
  createModelOfAgentDefinitionFromJSON : QJsonObject → Option DefinitionM
  createModelOfAgentDefinitionFromBytes : String → Option DefinitionM
  createModelOfAgentMappingFromBytes : String → String → Option AgentMappingM

/-- `delete p`: the cell is freed; deleting a pointer without live object is undefined. -/
def Heap.delete {α : Type} (h : Heap α) (p : Nat) : Option (Heap α) :=
  match Heap.deref h p with
  | some _ => some (Heap.free h p)
  | none => none

end Ingescape

namespace Ingescape

/-! ## IngeScape-Common: `IngeScapeModelManager` -/

namespace Common

/-- Members of the Common `IngeScapeModelManager` and the objects they point to. -/
structure Dir where
  agents : Heap AgentM := []
  definitions : Heap DefinitionM := []
  mappings : Heap AgentMappingM := []
  groups : Heap AgentsGroupedByNameVM := []
  hashFromPeerIdToAgent : QHash String Nat := []
  hashFromNameToAgentsGrouped : QHash String Nat := []
  allAgentsGroupsByName : List Nat := []
deriving DecidableEq, Repr

/-- Signals emitted by the modelled functions of the Common manager. -/
inductive Signal where
  | agentModelHasBeenCreated (agent : Nat)
  | agentModelWillBeDeleted (agent : Nat)
  | agentsGroupedByNameHasBeenCreated (agentsGroupedByName : Nat)
  | agentsGroupedByNameWillBeDeleted (agentsGroupedByName : Nat)
deriving DecidableEq, Repr

/-- The manager with the signals emitted so far. -/
structure State extends Dir where
  log : List (Signal × Dir) := []
deriving DecidableEq, Repr

/-- What the manager is built with and the constants of headers that are not under src. -/
structure Env where
  jsonHelper : Option JsonHelper
  VERSION_JSON_PLATFORM : String
  defaultHostname : String

/-- Perform `Q_EMIT`. -/
def emit (s : State) (sig : Signal) : State :=
  { s with log := s.log ++ [(sig, s.toDir)] }

/-- Translation of `IngeScapeModelManager::getAgentModelFromPeerId` (`none` is `nullptr`). -/
def getAgentModelFromPeerId (s : State) (peerId : String) : Option Nat :=
  if QHash.contains s.hashFromPeerIdToAgent peerId then
    QHash.find s.hashFromPeerIdToAgent peerId
  else
    none

/-- Translation of `IngeScapeModelManager::getAgentsGroupedForName`. -/
def getAgentsGroupedForName (s : State) (name : String) : Option Nat :=
  if QHash.contains s.hashFromNameToAgentsGrouped name then
    QHash.find s.hashFromNameToAgentsGrouped name
  else
    none

/-- Modelled from the spec: `AgentsGroupedByNameVM::addNewAgentModel` is not under src;
the model of agent joins the models of the group. -/
def addNewAgentModel (s : State) (agentsGroupedByName : Nat) (model : Nat) : Option State :=
  match Heap.deref s.groups agentsGroupedByName with
  | none => none
  | some g =>
    some { s with groups := Heap.store s.groups agentsGroupedByName { g with models := g.models ++ [model] } }

/-- Modelled from the spec: `AgentsGroupedByNameVM::removeOldAgentModel` is not under src;
the model of agent leaves the models of the group. -/
def removeOldAgentModel (s : State) (agentsGroupedByName : Nat) (model : Nat) : Option State :=
  match Heap.deref s.groups agentsGroupedByName with
  | none => none
  | some g =>
    some { s with groups := Heap.store s.groups agentsGroupedByName { g with models := g.models.erase model } }

/-- Translation of `IngeScapeModelManager::_createAgentsGroupedByName`. -/
def _createAgentsGroupedByName (s : State) (model : Option Nat) : Option State :=
  match model with
  | none => some s
  | some m =>
    match Heap.deref s.agents m with
    | none => none
    | some a =>
      if a.name ≠ "" then
        -- Create a new view model of agents grouped by name
        let agentsGroupedByName := Heap.fresh s.groups
        let s1 : State := { s with groups := Heap.alloc s.groups { name := a.name } }
        let s2 : State := { s1 with hashFromNameToAgentsGrouped :=
                                      QHash.insert s1.hashFromNameToAgentsGrouped a.name agentsGroupedByName }
        let s3 : State := { s2 with allAgentsGroupsByName := s2.allAgentsGroupsByName ++ [agentsGroupedByName] }
        let s4 := emit s3 (Signal.agentsGroupedByNameHasBeenCreated agentsGroupedByName)
        -- Add the new model of agent
        addNewAgentModel s4 agentsGroupedByName m
      else
        some s

/-- Translation of `IngeScapeModelManager::createAgentModel`; the result is the state
and the returned pointer. -/
def createAgentModel (s : State) (agentName : String) (definition : Option Nat)
    (peerId ipAddress hostname commandLine : String) (isON : Bool) : Option (State × Option Nat) :=
  if agentName ≠ "" then
    -- Create a new model of agent
    let agent := Heap.fresh s.agents
    let a : AgentM := { name := agentName, peerId := peerId, address := ipAddress,
                        hostname := hostname, commandLine := commandLine, isON := isON }
    -- If defined, set the definition
    let a : AgentM := match definition with
      | some d => { a with definition := some d }
      | none => a
    let s1 : State := { s with agents := Heap.alloc s.agents a }
    let s2 : State :=
      if a.peerId ≠ "" then
        { s1 with hashFromPeerIdToAgent := QHash.insert s1.hashFromPeerIdToAgent a.peerId agent }
      else s1
    let s3 := emit s2 (Signal.agentModelHasBeenCreated agent)
    -- Get the (view model of) agents grouped for this name
    match getAgentsGroupedForName s3 a.name with
    | some agentsGroupedByName =>
      (addNewAgentModel s3 agentsGroupedByName agent).map (fun s4 => (s4, some agent))
    | none =>
      (_createAgentsGroupedByName s3 (some agent)).map (fun s4 => (s4, some agent))
  else
    some (s, none)

/-- Translation of `IngeScapeModelManager::deleteAgentModel`. -/
def deleteAgentModel (s : State) (agent : Option Nat) : Option State :=
  match agent with
  | none => some s
  | some p =>
    match Heap.deref s.agents p with
    | none => none
    | some a =>
      if a.name ≠ "" then
        let s1 := emit s (Signal.agentModelWillBeDeleted p)
        -- Reset the definition of the agent and free memory
        let r2 : Option State :=
          match a.definition with
          | some agentDefinition =>
            (Heap.delete s1.definitions agentDefinition).map (fun defs =>
              { s1 with agents := Heap.store s1.agents p { a with definition := none }
                        definitions := defs })
          | none => some s1
        match r2 with
        | none => none
        | some s2 =>
          -- Reset the mapping of the agent and free memory
          let r3 : Option State :=
            match a.mapping with
            | some agentMapping =>
              (Heap.delete s2.mappings agentMapping).map (fun maps =>
                { s2 with agents := Heap.store s2.agents p
                            { a with definition := none, mapping := none }
                          mappings := maps })
            | none => some s2
          match r3 with
          | none => none
          | some s3 =>
            let s4 : State :=
              if a.peerId ≠ "" then
                { s3 with hashFromPeerIdToAgent := QHash.remove s3.hashFromPeerIdToAgent a.peerId }
              else s3
            -- Get the (view model of) agents grouped for this name
            let r5 : Option State :=
              match getAgentsGroupedForName s4 a.name with
              | some agentsGroupedByName => removeOldAgentModel s4 agentsGroupedByName p
              | none => some s4
            match r5 with
            | none => none
            | some s5 =>
              -- Free memory
              (Heap.delete s5.agents p).map (fun ags => { s5 with agents := ags })
      else
        some s

/-- Translation of `IngeScapeModelManager::onAgentEntered`. -/
def onAgentEntered (s : State) (peerId agentName ipAddress hostname commandLine : String)
    (canBeFrozen : Bool) (loggerPort : String) : Option State :=
  if peerId ≠ "" ∧ agentName ≠ "" ∧ ipAddress ≠ "" then
    match getAgentModelFromPeerId s peerId with
    | some agent =>
      -- An agent with this peer id already exist
      match Heap.deref s.agents agent with
      | none => none
      | some a =>
        some { s with agents := Heap.store s.agents agent
                        { a with canBeFrozen := canBeFrozen, loggerPort := loggerPort, isON := true } }
    | none =>
      -- New peer id: create a new model of agent
      match createAgentModel s agentName none peerId ipAddress hostname commandLine true with
      | none => none
      | some (s1, none) => some s1
      | some (s1, some agent) =>
        match Heap.deref s1.agents agent with
        | none => none
        | some a =>
          some { s1 with agents := Heap.store s1.agents agent
                           { a with canBeFrozen := canBeFrozen, loggerPort := loggerPort } }
  else
    some s

/-- Translation of `IngeScapeModelManager::onAgentExited`. -/
def onAgentExited (s : State) (peerId : String) (_agentName : String) : Option State :=
  match getAgentModelFromPeerId s peerId with
  | some agent =>
    match Heap.deref s.agents agent with
    | none => none
    | some a => some { s with agents := Heap.store s.agents agent { a with isON := false } }
  | none => some s

/-- Translation of `IngeScapeModelManager::onDefinitionReceived`. -/
def onDefinitionReceived (env : Env) (s : State) (peerId : String) (_agentName : String)
    (definitionJSON : String) : Option State :=
  match getAgentModelFromPeerId s peerId, env.jsonHelper with
  | some agent, some jsonHelper =>
    if definitionJSON ≠ "" then
      match Heap.deref s.agents agent with
      | none => none
      | some a =>
        -- Save the previous agent definition
        let previousDefinition := a.definition
        -- Create the new model of agent definition from JSON
        match jsonHelper.createModelOfAgentDefinitionFromBytes definitionJSON with
        | none => some s
        | some d =>
          let newDefinition := Heap.fresh s.definitions
          let s1 : State := { s with definitions := Heap.alloc s.definitions d }
          -- Set this new definition to the agent
          let s2 : State := { s1 with agents := Heap.store s1.agents agent
                                        { a with definition := some newDefinition } }
          -- Free memory
          match previousDefinition with
          | some prev => (Heap.delete s2.definitions prev).map (fun defs => { s2 with definitions := defs })
          | none => some s2
    else
      some s
  | _, _ => some s

/-- Translation of `IngeScapeModelManager::onMappingReceived`. -/
def onMappingReceived (env : Env) (s : State) (peerId agentName mappingJSON : String) :
    Option State :=
  match getAgentModelFromPeerId s peerId, env.jsonHelper with
  | some agent, some jsonHelper =>
    match Heap.deref s.agents agent with
    | none => none
    | some a =>
      -- Save the previous agent mapping
      let previousMapping := a.mapping
      let newMapping : Option AgentMappingM :=
        if mappingJSON = "" then
          some { name := "EMPTY MAPPING of " ++ agentName, version := "", description := "" }
        else
          -- Create the new model of agent mapping from the JSON
          jsonHelper.createModelOfAgentMappingFromBytes agentName mappingJSON
      match newMapping with
      | none => some s
      | some m =>
        let newPtr := Heap.fresh s.mappings
        let s1 : State := { s with mappings := Heap.alloc s.mappings m }
        -- Set this new mapping to the agent
        let s2 : State := { s1 with agents := Heap.store s1.agents agent { a with mapping := some newPtr } }
        -- Free memory
        match previousMapping with
        | some prev => (Heap.delete s2.mappings prev).map (fun maps => { s2 with mappings := maps })
        | none => some s2
  | _, _ => some s

end Common

end Ingescape

namespace Ingescape

namespace Common

/-- Modelled from the spec: `DefinitionM::copy` is not under src; "`copy(def)` performs a full
deep clone": a new object with the same content.  The guard `agentDefinition != nullptr`
of the callers is part of this function. -/
def copyOfDefinition (s : State) (agentDefinition : Option Nat) : Option (State × Option Nat) :=
  match agentDefinition with
  | none => some (s, none)
  | some p =>
    match Heap.deref s.definitions p with
    | none => none
    | some d => some ({ s with definitions := Heap.alloc s.definitions d }, some (Heap.fresh s.definitions))

/-- Body of the loop over `arrayOfClones` in `importAgentsListFromJson`. -/
def importClone (s : State) (agentName : String) (agentDefinition : Option Nat)
    (jsonIteratorClone : QJsonValue) : Option State :=
  if jsonIteratorClone.isObject then
    let jsonClone := jsonIteratorClone.toObject
    let jsonHostname := QJsonObject.value jsonClone "hostname"
    let jsonCommandLine := QJsonObject.value jsonClone "commandLine"
    let jsonPeerId := QJsonObject.value jsonClone "peerId"
    let jsonAddress := QJsonObject.value jsonClone "address"
    if jsonHostname.isString ∧ jsonCommandLine.isString ∧ jsonPeerId.isString ∧ jsonAddress.isString then
      let hostname := jsonHostname.toQString
      let commandLine := jsonCommandLine.toQString
      let peerId := jsonPeerId.toQString
      let ipAddress := jsonAddress.toQString
      if hostname ≠ "" ∧ commandLine ≠ "" ∧ peerId ≠ "" ∧ ipAddress ≠ "" then
        -- Check that there is not yet an agent with this peer id
        match getAgentModelFromPeerId s peerId with
        | none =>
          -- Make a copy of the definition
          match copyOfDefinition s agentDefinition with
          | none => none
          | some (s1, copy) =>
            -- Create a new model of agent
            (createAgentModel s1 agentName copy peerId ipAddress hostname commandLine false).map
              (fun r => r.1)
        | some agent =>
          -- the warning reads `agent->name()`
          match Heap.deref s.agents agent with
          | none => none
          | some _ => some s
      else some s
    else some s
  else some s

/-- Body of the loop over `jsonArrayOfDefinitions` in `importAgentsListFromJson`. -/
def importDefinitionEntry (env : Env) (jsonHelper : JsonHelper) (s : State) (agentName : String)
    (jsonIteratorDefinition : QJsonValue) : Option State :=
  let jsonAgentsGroupedByDefinition := jsonIteratorDefinition.toObject
  let jsonDefinition := QJsonObject.value jsonAgentsGroupedByDefinition "definition"
  let jsonClones := QJsonObject.value jsonAgentsGroupedByDefinition "clones"
  -- Manage the definition
  let created : Option DefinitionM :=
    if jsonDefinition.isObject then
      jsonHelper.createModelOfAgentDefinitionFromJSON jsonDefinition.toObject
    else none
  let agentDefinition : Option Nat := created.map (fun _ => Heap.fresh s.definitions)
  let s1 : State :=
    match created with
    | some d => { s with definitions := Heap.alloc s.definitions d }
    | none => s
  -- Manage the list of clones
  let arrayOfClones := jsonClones.toArray
  let r : Option State :=
    if arrayOfClones.isEmpty then
      -- None clone have a defined hostname (the agent is only defined by a definition)
      match copyOfDefinition s1 agentDefinition with
      | none => none
      | some (s2, copy) =>
        (createAgentModel s2 agentName copy "" "" env.defaultHostname "" false).map (fun r => r.1)
    else
      -- There are some clones with a defined hostname
      arrayOfClones.foldlM (fun st jsonIteratorClone => importClone st agentName agentDefinition jsonIteratorClone) s1
  match r with
  | none => none
  | some s3 =>
    -- Free memory
    match agentDefinition with
    | some p => (Heap.delete s3.definitions p).map (fun defs => { s3 with definitions := defs })
    | none => some s3

/-- The array of definitions of one entry of the agents list: the array itself for the
current version of the JSON platform, else the conversion of the previous format. -/
def jsonArrayOfDefinitionsOf (env : Env) (jsonAgentsGroupedByName : QJsonObject)
    (versionJsonPlatform : String) : QJsonArray :=
  if versionJsonPlatform = env.VERSION_JSON_PLATFORM then
    -- The version is the current one, use directly the array of definitions
    let jsonDefinitions := QJsonObject.value jsonAgentsGroupedByName "definitions"
    if jsonDefinitions.isArray then jsonDefinitions.toArray else []
  else
    -- Convert the previous format of JSON into the new format of JSON
    let jsonDefinition := QJsonObject.value jsonAgentsGroupedByName "definition"
    let jsonClones := QJsonObject.value jsonAgentsGroupedByName "clones"
    if (jsonDefinition.isObject ∨ jsonDefinition.isNull) ∧ jsonClones.isArray then
      [QJsonValue.object
        (QJsonObject.insert (QJsonObject.insert [] "definition" jsonDefinition) "clones" jsonClones)]
    else []

/-- Body of the loop over `jsonArrayOfAgents` in `importAgentsListFromJson`; the Boolean is `success`. -/
def importAgentEntry (env : Env) (jsonHelper : JsonHelper) (versionJsonPlatform : String)
    (acc : State × Bool) (jsonIteratorAgent : QJsonValue) : Option (State × Bool) :=
  if jsonIteratorAgent.isObject then
    let jsonAgentsGroupedByName := jsonIteratorAgent.toObject
    let jsonName := QJsonObject.value jsonAgentsGroupedByName "agentName"
    let jsonArrayOfDefinitions := jsonArrayOfDefinitionsOf env jsonAgentsGroupedByName versionJsonPlatform
    if jsonName.isString ∧ ¬ jsonArrayOfDefinitions.isEmpty then
      let agentName := jsonName.toQString
      (jsonArrayOfDefinitions.foldlM
        (fun st jsonIteratorDefinition => importDefinitionEntry env jsonHelper st agentName jsonIteratorDefinition)
        acc.1).map (fun st => (st, acc.2))
    else
      some (acc.1, false)
  else
    some acc

/-- Translation of `IngeScapeModelManager::importAgentsListFromJson`; the result is the
state and the returned `success`. -/
def importAgentsListFromJson (env : Env) (s : State) (jsonArrayOfAgents : QJsonArray)
    (versionJsonPlatform : String) : Option (State × Bool) :=
  match env.jsonHelper with
  | some jsonHelper =>
    jsonArrayOfAgents.foldlM (importAgentEntry env jsonHelper versionJsonPlatform) (s, true)
  | none => some (s, true)

end Common

/-! ## IngeScape-Editor: `IngeScapeModelManager` -/

namespace Editor

/-- Members of the Editor `IngeScapeModelManager` and the objects they point to. -/
structure Dir where
  agents : Heap AgentM := []
  definitions : Heap DefinitionM := []
  mappings : Heap AgentMappingM := []
  groups : Heap AgentsGroupedByNameVM := []
  mapFromPeerIdToAgentM : QHash String Nat := []
  hashFromNameToAgentsGrouped : QHash String Nat := []
  allAgentsGroupedByName : List Nat := []
deriving DecidableEq, Repr

/-- Signals emitted by the modelled functions of the Editor manager.  Lists of `OutputM*`
and `ElementMappingM*` are carried as the objects pointed to. -/
inductive Signal where
  | agentModelCreated (agent : Nat)
  | agentsGroupedByNameHasBeenCreated (agentsGroupedByName : Nat)
  | addInputsToEditorForOutputs (agentName : String) (outputs : List (Option OutputM))
  | removeInputsToEditorForOutputs (agentName : String) (outputs : List (Option OutputM))
  | activeAgentDefined (agent : Nat)
  | activeAgentMappingDefined (agent : Nat)
  | mapped (mappingElement : ElementMappingM)
  | unmapped (mappingElement : ElementMappingM)
deriving DecidableEq, Repr

/-- The manager with the signals emitted so far. -/
structure State extends Dir where
  log : List (Signal × Dir) := []
deriving DecidableEq, Repr

/-- What the manager is built with, and the launcher manager singleton:
`getHostWithName name` tells whether `IngeScapeLauncherManager::getHostWithName` finds a host. -/
structure Env where
  jsonHelper : Option JsonHelper
  getHostWithName : String → Bool

/-- Perform `Q_EMIT`. -/
def emit (s : State) (sig : Signal) : State :=
  { s with log := s.log ++ [(sig, s.toDir)] }

/-- Translation of `IngeScapeModelManager::getAgentModelFromPeerId` (`none` is `NULL`). -/
def getAgentModelFromPeerId (s : State) (peerId : String) : Option Nat :=
  if QHash.contains s.mapFromPeerIdToAgentM peerId then
    QHash.find s.mapFromPeerIdToAgentM peerId
  else
    none

/-- Translation of `IngeScapeModelManager::getAgentsGroupedForName`. -/
def getAgentsGroupedForName (s : State) (name : String) : Option Nat :=
  if QHash.contains s.hashFromNameToAgentsGrouped name then
    QHash.find s.hashFromNameToAgentsGrouped name
  else
    none

/-- Translation of `IngeScapeModelManager::addAgentModel` (`_printAgents` only prints). -/
def addAgentModel (s : State) (agent : Option Nat) : Option State :=
  match agent with
  | none => some s
  | some p =>
    match Heap.deref s.agents p with
    | none => none
    | some a =>
      let s1 : State :=
        if a.peerId ≠ "" then
          { s with mapFromPeerIdToAgentM := QHash.insert s.mapFromPeerIdToAgentM a.peerId p }
        else s
      -- Emit the signal "Agent Model Created"
      some (emit s1 (Signal.agentModelCreated p))

/-- Translation of `IngeScapeModelManager::_saveNewAgentsGroupedByName`. -/
def _saveNewAgentsGroupedByName (s : State) (agentsGroupedByName : Option Nat) : Option State :=
  match agentsGroupedByName with
  | none => some s
  | some g =>
    match Heap.deref s.groups g with
    | none => none
    | some vm =>
      if vm.name ≠ "" then
        -- Add to the hash table
        let s1 : State := { s with hashFromNameToAgentsGrouped :=
                                     QHash.insert s.hashFromNameToAgentsGrouped vm.name g }
        -- Add to the sorted list
        let s2 : State := { s1 with allAgentsGroupedByName := s1.allAgentsGroupedByName ++ [g] }
        some (emit s2 (Signal.agentsGroupedByNameHasBeenCreated g))
      else
        some s

/-- Modelled from the spec: `AgentsGroupedByNameVM::manageNewModel` is not under src;
the model of agent joins the models of the group. -/
def manageNewModel (s : State) (agentsGroupedByName : Nat) (model : Nat) : Option State :=
  match Heap.deref s.groups agentsGroupedByName with
  | none => none
  | some g =>
    some { s with groups := Heap.store s.groups agentsGroupedByName { g with models := g.models ++ [model] } }

/-- Translation of `IngeScapeModelManager::onAgentEntered`. -/
def onAgentEntered (env : Env) (s : State) (peerId agentName ipAddress hostname commandLine : String)
    (canBeFrozen : Bool) (loggerPort : String) : Option State :=
  if peerId ≠ "" ∧ agentName ≠ "" ∧ ipAddress ≠ "" then
    match getAgentModelFromPeerId s peerId with
    | some agent =>
      -- An agent with this peer id already exist
      match Heap.deref s.agents agent with
      | none => none
      | some a =>
        let a1 : AgentM := { a with canBeFrozen := canBeFrozen, loggerPort := loggerPort, isON := true }
        let s1 : State := { s with agents := Heap.store s.agents agent a1 }
        match a.definition with
        | none => some s1
        | some definition =>
          match Heap.deref s1.definitions definition with
          | none => none
          | some d =>
            if ¬ d.outputsList.isEmpty then
              some (emit s1 (Signal.addInputsToEditorForOutputs agentName d.outputsList))
            else some s1
    | none =>
      -- New peer id: create a new model of agent
      let agent := Heap.fresh s.agents
      let a : AgentM := { name := agentName, peerId := peerId, address := ipAddress }
      let a : AgentM := { a with hostname := hostname, commandLine := commandLine }
      let a : AgentM :=
        if hostname ≠ "" ∧ commandLine ≠ "" ∧ env.getHostWithName hostname = true then
          { a with canBeRestarted := true }
        else a
      let a : AgentM := { a with canBeFrozen := canBeFrozen, loggerPort := loggerPort, isON := true }
      let s1 : State := { s with agents := Heap.alloc s.agents a }
      -- Add this new model of agent
      match addAgentModel s1 (some agent) with
      | none => none
      | some s2 =>
        -- Get the (view model of) agents grouped for this name
        match getAgentsGroupedForName s2 agentName with
        | none =>
          -- Create a new view model of agents grouped by name
          let agentsGroupedByName := Heap.fresh s2.groups
          let s3 : State := { s2 with groups := Heap.alloc s2.groups { name := agentName } }
          match _saveNewAgentsGroupedByName s3 (some agentsGroupedByName) with
          | none => none
          | some s4 => manageNewModel s4 agentsGroupedByName agent
        | some agentsGroupedByName => manageNewModel s2 agentsGroupedByName agent
  else
    some s

/-- Translation of `IngeScapeModelManager::onAgentExited`. -/
def onAgentExited (s : State) (peerId agentName : String) : Option State :=
  match getAgentModelFromPeerId s peerId with
  | none => some s
  | some agent =>
    match Heap.deref s.agents agent with
    | none => none
    | some a =>
      -- Update the state (flag "is ON")
      let s1 : State := { s with agents := Heap.store s.agents agent { a with isON := false } }
      match a.definition with
      | none => some s1
      | some definition =>
        match Heap.deref s1.definitions definition with
        | none => none
        | some d =>
          if ¬ d.outputsList.isEmpty then
            some (emit s1 (Signal.removeInputsToEditorForOutputs agentName d.outputsList))
          else some s1

end Editor

end Ingescape

namespace Ingescape

namespace Editor

/-- The test of the first loop of `onDefinitionReceived` and of its second loop, on an
output of one definition against the `outputsIdsList` of the other one:
`(output != nullptr) && !output->id().isEmpty() && !ids.contains(output->id())`. -/
def outputNotIn (ids : List String) (output : Option OutputM) : Bool :=
  match output with
  | none => false
  | some o => decide (o.id ≠ "" ∧ o.id ∉ ids)

/-- Translation of `IngeScapeModelManager::onDefinitionReceived`. -/
def onDefinitionReceived (env : Env) (s : State) (peerId agentName definitionJSON : String) :
    Option State :=
  match env.jsonHelper with
  | none => some s
  | some jsonHelper =>
    if definitionJSON ≠ "" then
      match getAgentModelFromPeerId s peerId with
      | none => some s
      | some agent =>
        -- Create a model of agent definition from JSON
        match jsonHelper.createModelOfAgentDefinitionFromBytes definitionJSON with
        | none => some s
        | some newDef =>
          let agentDefinition := Heap.fresh s.definitions
          let s1 : State := { s with definitions := Heap.alloc s.definitions newDef }
          match Heap.deref s1.agents agent with
          | none => none
          | some a =>
            match a.definition with
            | none =>
              -- Set this definition to the agent
              let s2 : State := { s1 with agents := Heap.store s1.agents agent { a with definition := some agentDefinition } }
              let s3 : State :=
                if ¬ newDef.outputsList.isEmpty then
                  emit s2 (Signal.addInputsToEditorForOutputs agentName newDef.outputsList)
                else s2
              -- Emit the signal "Active Agent Defined"
              some (emit s3 (Signal.activeAgentDefined agent))
            | some previousDefinition =>
              -- Update with the new definition
              match Heap.deref s1.definitions previousDefinition with
              | none => none
              | some prev =>
                -- Check if output(s) have been removed
                let removedOutputsList := prev.outputsList.filter (outputNotIn newDef.outputsIdsList)
                let s2 : State :=
                  if ¬ removedOutputsList.isEmpty then
                    emit s1 (Signal.removeInputsToEditorForOutputs agentName removedOutputsList)
                  else s1
                -- Set this definition to the agent
                let s3 : State := { s2 with agents := Heap.store s2.agents agent { a with definition := some agentDefinition } }
                -- Check if output(s) have been added
                let addedOutputsList := newDef.outputsList.filter (outputNotIn prev.outputsIdsList)
                let s4 : State :=
                  if ¬ addedOutputsList.isEmpty then
                    emit s3 (Signal.addInputsToEditorForOutputs agentName addedOutputsList)
                  else s3
                -- Delete the previous model of agent definition
                match Heap.delete s4.definitions previousDefinition with
                | none => none
                | some defs =>
                  let s5 : State := { s4 with definitions := defs }
                  -- Emit the signal "Active Agent Defined"
                  some (emit s5 (Signal.activeAgentDefined agent))
    else
      some s

/-- The mapping elements for which a loop of `onMappingReceived` emits its signal:
`(mappingElement != nullptr) && ids.contains(mappingElement->id())`. -/
def elementsWithIdIn (ids : List String) (mappingElements : List (Option ElementMappingM)) :
    List ElementMappingM :=
  mappingElements.filterMap
    (fun mappingElement =>
      match mappingElement with
      | none => none
      | some e => if e.id ∈ ids then some e else none)

/-- Emit one signal per element, in list order. -/
def emitAll (s : State) (mk : ElementMappingM → Signal) (elements : List ElementMappingM) : State :=
  elements.foldl (fun st e => emit st (mk e)) s

/-- Translation of `IngeScapeModelManager::onMappingReceived`. -/
def onMappingReceived (env : Env) (s : State) (peerId agentName mappingJSON : String) :
    Option State :=
  match getAgentModelFromPeerId s peerId, env.jsonHelper with
  | some agent, some jsonHelper =>
    let created : Option AgentMappingM :=
      if mappingJSON = "" then
        some { name := "EMPTY MAPPING of " ++ agentName, version := "", description := "" }
      else
        -- Create a model of agent mapping from the JSON
        jsonHelper.createModelOfAgentMappingFromBytes agentName mappingJSON
    match created with
    | none => some s
    | some newMap =>
      let agentMapping := Heap.fresh s.mappings
      let s1 : State := { s with mappings := Heap.alloc s.mappings newMap }
      match Heap.deref s1.agents agent with
      | none => none
      | some a =>
        match a.mapping with
        | none =>
          -- Set this mapping to the agent
          let s2 : State := { s1 with agents := Heap.store s1.agents agent { a with mapping := some agentMapping } }
          -- Emit the signal "Active Agent Mapping Defined"
          some (emit s2 (Signal.activeAgentMappingDefined agent))
        | some previousMapping =>
          -- There is already a mapping for this agent
          match Heap.deref s1.mappings previousMapping with
          | none => none
          | some prev =>
            let idsOfRemovedMappingElements :=
              prev.namesOfMappingElements.filter (fun idPreviousList => decide (idPreviousList ∉ newMap.namesOfMappingElements))
            let idsOfAddedMappingElements :=
              newMap.namesOfMappingElements.filter (fun idNewList => decide (idNewList ∉ prev.namesOfMappingElements))
            -- If there are some Removed mapping elements
            let s2 : State :=
              if ¬ idsOfRemovedMappingElements.isEmpty then
                emitAll s1 Signal.unmapped (elementsWithIdIn idsOfRemovedMappingElements prev.mappingElements)
              else s1
            -- If there are some Added mapping elements
            let s3 : State :=
              if ¬ idsOfAddedMappingElements.isEmpty then
                emitAll s2 Signal.mapped (elementsWithIdIn idsOfAddedMappingElements newMap.mappingElements)
              else s2
            -- Set this new mapping to the agent
            let s4 : State := { s3 with agents := Heap.store s3.agents agent { a with mapping := some agentMapping } }
            -- Delete the previous model of agent mapping
            (Heap.delete s4.mappings previousMapping).map (fun maps => { s4 with mappings := maps })
  | _, _ => some s

/-- Body of the loop over `arrayOfClones` in `importAgentsListFromJson`. -/
def importClone (env : Env) (s : State) (agentName : String) (agentDefinition : Option Nat)
    (jsonValue : QJsonValue) : Option State :=
  if jsonValue.isObject then
    let jsonClone := jsonValue.toObject
    let jsonHostname := QJsonObject.value jsonClone "hostname"
    let jsonCommandLine := QJsonObject.value jsonClone "commandLine"
    let jsonPeerId := QJsonObject.value jsonClone "peerId"
    let jsonAddress := QJsonObject.value jsonClone "address"
    if jsonHostname.isString ∧ jsonCommandLine.isString ∧ jsonPeerId.isString ∧ jsonAddress.isString then
      let hostname := jsonHostname.toQString
      let commandLine := jsonCommandLine.toQString
      let peerId := jsonPeerId.toQString
      let ipAddress := jsonAddress.toQString
      if hostname ≠ "" ∧ commandLine ≠ "" then
        -- Create a new model of agent with the name
        let agent := Heap.fresh s.agents
        let a : AgentM := { name := agentName, peerId := peerId, address := ipAddress }
        -- Update the hostname and the command line
        let a : AgentM := { a with hostname := hostname, commandLine := commandLine }
        -- Update corresponding host
        let a : AgentM := if env.getHostWithName hostname = true then { a with canBeRestarted := true } else a
        let s1 : State := { s with agents := Heap.alloc s.agents a }
        -- Add this new model of agent
        match addAgentModel s1 (some agent) with
        | none => none
        | some s2 =>
          match agentDefinition with
          | none => some s2
          | some p =>
            -- Make a copy of the definition
            match Heap.deref s2.definitions p with
            | none => none
            | some d =>
              let copyOfDefinition := Heap.fresh s2.definitions
              let s3 : State := { s2 with definitions := Heap.alloc s2.definitions d }
              -- Set its definition
              some { s3 with agents := Heap.store s3.agents agent { a with definition := some copyOfDefinition } }
      else some s
    else some s
  else some s

/-- Body of the loop over `jsonArrayOfAgents` in `importAgentsListFromJson`; the Boolean is `success`. -/
def importAgentEntry (env : Env) (jsonHelper : JsonHelper) (acc : State × Bool)
    (jsonValue : QJsonValue) : Option (State × Bool) :=
  if jsonValue.isObject then
    let jsonAgent := jsonValue.toObject
    -- Get values for keys "agentName", "definition" and "clones"
    let jsonName := QJsonObject.value jsonAgent "agentName"
    let jsonDefinition := QJsonObject.value jsonAgent "definition"
    let jsonClones := QJsonObject.value jsonAgent "clones"
    if jsonName.isString ∧ (jsonDefinition.isObject ∨ jsonDefinition.isNull) ∧ jsonClones.isArray then
      let s := acc.1
      let agentName := jsonName.toQString
      let arrayOfClones := jsonClones.toArray
      let created : Option DefinitionM :=
        if jsonDefinition.isObject then
          jsonHelper.createModelOfAgentDefinitionFromJSON jsonDefinition.toObject
        else none
      let agentDefinition : Option Nat := created.map (fun _ => Heap.fresh s.definitions)
      let s1 : State :=
        match created with
        | some d => { s with definitions := Heap.alloc s.definitions d }
        | none => s
      let r : Option State :=
        if arrayOfClones.isEmpty then
          -- None clones have a defined hostname (agent is only defined by a definition)
          let agent := Heap.fresh s1.agents
          let a : AgentM := { name := agentName }
          let s2 : State := { s1 with agents := Heap.alloc s1.agents a }
          -- Add this new model of agent
          match addAgentModel s2 (some agent) with
          | none => none
          | some s3 =>
            match agentDefinition with
            | some p =>
              -- Set its definition
              some { s3 with agents := Heap.store s3.agents agent { a with definition := some p } }
            | none => some s3
        else
          -- There are some clones with a defined hostname
          arrayOfClones.foldlM (fun st jv => importClone env st agentName agentDefinition jv) s1
      match r with
      | none => none
      | some s4 =>
        match agentDefinition with
        | some p =>
          -- Free memory
          (Heap.delete s4.definitions p).map (fun defs => ({ s4 with definitions := defs }, acc.2))
        | none => some (s4, acc.2)
    else
      some (acc.1, false)
  else
    some acc

/-- Translation of `IngeScapeModelManager::importAgentsListFromJson`; the result is the
state and the returned `success`. -/
def importAgentsListFromJson (env : Env) (s : State) (jsonArrayOfAgents : QJsonArray) :
    Option (State × Bool) :=
  match env.jsonHelper with
  | some jsonHelper => jsonArrayOfAgents.foldlM (importAgentEntry env jsonHelper) (s, true)
  | none => some (s, true)

end Editor

end Ingescape

namespace Ingescape

/-- No dangling pointer in the MASTIC directory: every registered agent is a live object. -/
def Mastic.Live (s : Mastic.State) : Prop :=
  ∀ p a, QHash.find s.mapFromPeerIdToAgentM p = some a → (Heap.deref s.agents a).isSome

/-- No dangling pointer in the Common directory: every registered agent and every
registered group is a live object. -/
def Common.Live (s : Common.State) : Prop :=
  (∀ p a, QHash.find s.hashFromPeerIdToAgent p = some a → (Heap.deref s.agents a).isSome) ∧
  (∀ n g, QHash.find s.hashFromNameToAgentsGrouped n = some g → (Heap.deref s.groups g).isSome)

/-- No dangling pointer behind the registrations of the Editor directory: every registered
agent is a live object whose definition, when it has one, is a live object, and every
registered group is a live object. -/
def Editor.Live (s : Editor.State) : Prop :=
  (∀ p a, QHash.find s.mapFromPeerIdToAgentM p = some a →
    ∃ ag, Heap.deref s.agents a = some ag ∧
      ∀ d, ag.definition = some d → (Heap.deref s.definitions d).isSome) ∧
  (∀ n g, QHash.find s.hashFromNameToAgentsGrouped n = some g → (Heap.deref s.groups g).isSome)

end Ingescape

namespace Ingescape

/-- A JSON helper that rejects every payload. -/
def rejectingHelper : JsonHelper :=
  { createModelOfAgentDefinitionFromJSON := fun _ => none
    createModelOfAgentDefinitionFromBytes := fun _ => none
    createModelOfAgentMappingFromBytes := fun _ _ => none }

/-- A Common directory with one registered camera that has a definition and a mapping. -/
def Common.cameraState : Common.State :=
  { agents := [some { name := "camera", peerId := "peer-1", address := "10.0.0.7", isON := true,
                      definition := some 0, mapping := some 0 }]
    definitions := [some { name := "camera", outputsList := [some { id := "image" }],
                           outputsIdsList := ["image"] }]
    mappings := [some { name := "camera" }]
    hashFromPeerIdToAgent := [("peer-1", 0)] }

/-- An Editor directory with one registered camera that has a definition and a mapping. -/
def Editor.cameraState : Editor.State :=
  { agents := [some { name := "camera", peerId := "peer-1", address := "10.0.0.7", isON := true,
                      definition := some 0, mapping := some 0 }]
    definitions := [some { name := "camera", outputsList := [some { id := "image" }],
                           outputsIdsList := ["image"] }]
    mappings := [some { name := "camera" }]
    mapFromPeerIdToAgentM := [("peer-1", 0)] }

end Ingescape

namespace Ingescape

/-- A JSON helper that answers every definition payload with a camera definition whose only
output is "depth", and every mapping payload with a mapping of one element "in2". -/
def depthHelper : JsonHelper :=
  { createModelOfAgentDefinitionFromJSON := fun _ => none
    createModelOfAgentDefinitionFromBytes := fun _ =>
      some { name := "camera", outputsList := [some { id := "depth" }], outputsIdsList := ["depth"] }
    createModelOfAgentMappingFromBytes := fun _ _ =>
      some { name := "camera", mappingElements := [some { id := "in2" }],
             namesOfMappingElements := ["in2"] } }

/-- The Editor environment with the helper `depthHelper`. -/
def Editor.depthEnv : Editor.Env :=
  { jsonHelper := some depthHelper, getHostWithName := fun _ => false }

end Ingescape

namespace Ingescape

/-- Modelled from the spec: the class `AgentMappingM` is not under src; its list
`namesOfMappingElements` holds the ids of its mapping elements. -/
def AgentMappingM.NamesCoverElements (m : AgentMappingM) : Prop :=
  ∀ e, some e ∈ m.mappingElements → e.id ∈ m.namesOfMappingElements

/-- The elements of a mapping (null entries left out) whose id is not in a list of names,
each turned into a signal, in the order of the mapping. -/
def Editor.signalsForElementsNotIn (mk : ElementMappingM → Editor.Signal) (names : List String)
    (mappingElements : List (Option ElementMappingM)) : List Editor.Signal :=
  mappingElements.filterMap
    (fun mappingElement =>
      match mappingElement with
      | none => none
      | some e => if e.id ∉ names then some (mk e) else none)

end Ingescape

namespace Ingescape

/-- A clone entry of an agents list. -/
def jsonClone (hostname commandLine peerId address : String) : QJsonValue :=
  QJsonValue.object
    [("hostname", QJsonValue.string hostname), ("commandLine", QJsonValue.string commandLine),
     ("peerId", QJsonValue.string peerId), ("address", QJsonValue.string address)]

/-- An agents list (format of the Editor, and previous format of Common) with one agent
"camera" without definition and two clones that carry the same peer id "peer-1". -/
def twoClonesOnePeerId : QJsonArray :=
  [QJsonValue.object
    [("agentName", QJsonValue.string "camera"), ("definition", QJsonValue.null),
     ("clones", QJsonValue.array
        [jsonClone "host-a" "cam --run" "peer-1" "10.0.0.7",
         jsonClone "host-b" "cam --run" "peer-1" "10.0.0.8"])]]

/-- The Editor environment with the helper that rejects every payload. -/
def Editor.rejectingEnv : Editor.Env :=
  { jsonHelper := some rejectingHelper, getHostWithName := fun _ => false }

/-- The Common environment with the helper that rejects every payload. -/
def Common.rejectingEnv : Common.Env :=
  { jsonHelper := some rejectingHelper, VERSION_JSON_PLATFORM := "1.0", defaultHostname := "" }

end Ingescape

namespace Ingescape

namespace Common

/-- The calls of the Common manager that claim C5 is about. -/
inductive Call where
  | onAgentEntered (peerId agentName ipAddress hostname commandLine : String) (canBeFrozen : Bool)
      (loggerPort : String)
  | onAgentExited (peerId agentName : String)
  | importAgentsListFromJson (jsonArrayOfAgents : QJsonArray) (versionJsonPlatform : String)
  | deleteAgentModel (agent : Option Nat)

/-- Perform one call. -/
def call (env : Env) (s : State) : Call → Option State
  | Call.onAgentEntered peerId agentName ipAddress hostname commandLine canBeFrozen loggerPort =>
    onAgentEntered s peerId agentName ipAddress hostname commandLine canBeFrozen loggerPort
  | Call.onAgentExited peerId agentName => onAgentExited s peerId agentName
  | Call.importAgentsListFromJson jsonArrayOfAgents versionJsonPlatform =>
    (importAgentsListFromJson env s jsonArrayOfAgents versionJsonPlatform).map (fun r => r.1)
  | Call.deleteAgentModel agent => deleteAgentModel s agent

/-- Perform a sequence of calls, first call first. -/
def run (env : Env) (s : State) (calls : List Call) : Option State :=
  calls.foldlM (call env) s

/-- A definition object is held by a live agent. -/
def Held (s : State) (d : Nat) : Prop :=
  ∃ a ag, Heap.deref s.agents a = some ag ∧ ag.definition = some d

/-- Invariant of the Common directory under the calls of `Call`: the hash of peer ids and the
live records with a non-empty peer id determine each other, and every pointer kept in the
directory is live and has one owner. -/
structure Inv (s : State) : Prop where
  noEmptyKey : QHash.find s.hashFromPeerIdToAgent "" = none
  registered : ∀ p a, QHash.find s.hashFromPeerIdToAgent p = some a →
    ∃ ag, Heap.deref s.agents a = some ag ∧ ag.peerId = p
  keyed : ∀ a ag, Heap.deref s.agents a = some ag → ag.peerId ≠ "" →
    QHash.find s.hashFromPeerIdToAgent ag.peerId = some a
  groupsLive : ∀ n g, QHash.find s.hashFromNameToAgentsGrouped n = some g →
    (Heap.deref s.groups g).isSome
  defsLive : ∀ a ag d, Heap.deref s.agents a = some ag → ag.definition = some d →
    (Heap.deref s.definitions d).isSome
  defsOwned : ∀ a1 a2 ag1 ag2 d, Heap.deref s.agents a1 = some ag1 →
    Heap.deref s.agents a2 = some ag2 → ag1.definition = some d → ag2.definition = some d → a1 = a2
  noMapping : ∀ a ag, Heap.deref s.agents a = some ag → ag.mapping = none

end Common

end Ingescape

namespace Ingescape

/-- The temporary definition parsed by `importAgentsListFromJson` for one entry, when there
is one, is a live object that no agent holds. -/
def Common.TempOk (s : Common.State) (agentDefinition : Option Nat) : Prop :=
  ∀ f, agentDefinition = some f → (Heap.deref s.definitions f).isSome ∧ ¬ Common.Held s f

end Ingescape

namespace Ingescape

/-- A sequence of calls on the Common manager: a camera enters, a file with two clones of one
peer id is imported, the camera exits, a second agent enters and the camera is deleted. -/
def Common.sampleCalls : List Common.Call :=
  [Common.Call.onAgentEntered "peer-0" "camera" "10.0.0.7" "host-a" "cam --run" false "",
   Common.Call.importAgentsListFromJson twoClonesOnePeerId "0.9",
   Common.Call.onAgentExited "peer-0" "camera",
   Common.Call.onAgentEntered "peer-2" "screen" "10.0.0.9" "host-c" "screen" false "",
   Common.Call.deleteAgentModel (some 0)]

end Ingescape

namespace Ingescape

/-! ## IngeScape-Common: license callback (`licensescontroller.cpp`) -/

/-- Modelled from the spec: the enum `igs_license_limit_t` is declared in `ingescape.h`, which
is not under src; its values are the three limits named by `onLicenseCallback` and any other
value of the enum type. -/
inductive igs_license_limit_t where
  | IGS_LICENSE_TIMEOUT
  | IGS_LICENSE_TOO_MANY_AGENTS
  | IGS_LICENSE_TOO_MANY_IOPS
  | other (value : Int)
deriving DecidableEq, Repr

/-- The properties of `LicensesController` that `onLicenseCallback` writes, with the other
properties initialised by the constructor. -/
structure LicensesController where
  licensesPath : String := ""
  errorMessageWhenLicenseFailed : String := ""
  isLicenseValid : Bool := false
  licenseId : String := ""
  licenseCustomer : String := ""
deriving DecidableEq, Repr

/-- Translation of `onLicenseCallback`; `myData` is the controller behind the pointer
(`none` is `nullptr`), the result is the controller after the call. -/
def onLicenseCallback (limit : igs_license_limit_t) (myData : Option LicensesController) :
    Option LicensesController :=
  match myData with
  | none => none
  | some licensesController =>
    let c1 : LicensesController :=
      match limit with
      | igs_license_limit_t.IGS_LICENSE_TIMEOUT =>
        { licensesController with errorMessageWhenLicenseFailed :=
            "IngeScape is stopped because demonstration mode timeout has been reached !" }
      | igs_license_limit_t.IGS_LICENSE_TOO_MANY_AGENTS =>
        { licensesController with errorMessageWhenLicenseFailed :=
            "IngeScape is stopped because too many agents are running on the platform compared to what the license allows !" }
      | igs_license_limit_t.IGS_LICENSE_TOO_MANY_IOPS =>
        { licensesController with errorMessageWhenLicenseFailed :=
            "IngeScape is stopped because too many IOPs have been created on the platform compared to what the license allows !" }
      | igs_license_limit_t.other _ => licensesController
    -- Update flags
    some { c1 with isLicenseValid := false }

end Ingescape

namespace Ingescape

/-! ## IngeScape-Common: unique identifiers of actions (`ingescapeutils.cpp`) -/

namespace IngeScapeUtils

/-- Largest value of the C++ type `int` (32 bits). -/
def INT_MAX : Int := 2147483647

/-- Smallest value of the C++ type `int` (32 bits). -/
def INT_MIN : Int := -2147483648

/-- Initial value of the static variable `BIGGEST_UID_OF_ACTION_MODEL`. -/
def BIGGEST_UID_OF_ACTION_MODEL : Int := -1

/-- Translation of `getUIDforNewActionM` on the value `biggest` of the static counter: the
new value of the counter and the returned uid.  Incrementing `INT_MAX` is a signed overflow
(undefined behaviour): `none`. -/
def getUIDforNewActionM (biggest : Int) : Option (Int × Int) :=
  if biggest < INT_MAX then some (biggest + 1, biggest + 1) else none

/-- Translation of `freeUIDofActionM`: the new value of the counter.  Decrementing `INT_MIN`
is a signed overflow (undefined behaviour): `none`. -/
def freeUIDofActionM (biggest : Int) (uid : Int) : Option Int :=
  -- Decrement only if the uid correspond to the biggest one
  if uid = biggest then
    if INT_MIN < biggest then some (biggest - 1) else none
  else some biggest

/-- Translation of `bookUIDforActionM`: the new value of the counter. -/
def bookUIDforActionM (biggest : Int) (uid : Int) : Int :=
  if uid > biggest then uid else biggest

/-- One call of the three functions. -/
inductive UidCall where
  | get
  | book (uid : Int)
  | free (uid : Int)
deriving DecidableEq, Repr

/-- The static counter, with the uids in use (returned by `getUIDforNewActionM` or booked, and
not freed since) as a specification variable. -/
structure UidState where
  biggest : Int
  inUse : List Int
deriving DecidableEq, Repr

/-- State of a starting program. -/
def UidState.initial : UidState := { biggest := BIGGEST_UID_OF_ACTION_MODEL, inUse := [] }

/-- Effect of one call on the counter and on the uids in use. -/
def step (s : UidState) : UidCall → Option UidState
  | UidCall.get =>
    match getUIDforNewActionM s.biggest with
    | some (biggest, uid) => some { biggest := biggest, inUse := uid :: s.inUse }
    | none => none
  | UidCall.book uid =>
    some { biggest := bookUIDforActionM s.biggest uid, inUse := uid :: s.inUse }
  | UidCall.free uid =>
    match freeUIDofActionM s.biggest uid with
    | some biggest => some { biggest := biggest, inUse := s.inUse.filter (fun u => u ≠ uid) }
    | none => none

/-- Effect of a sequence of calls. -/
def run (s : UidState) (calls : List UidCall) : Option UidState :=
  calls.foldlM step s

/-- Every `freeUIDofActionM` call of the sequence has a uid in use at the time of the call. -/
def wellUsed (s : UidState) : List UidCall → Bool
  | [] => true
  | c :: rest =>
    (match c with
      | UidCall.free uid => decide (uid ∈ s.inUse)
      | _ => true) &&
    (match step s c with
      | some s' => wellUsed s' rest
      | none => true)

/-- Every uid in use is at most the counter. -/
def UidInv (s : UidState) : Prop := ∀ u ∈ s.inUse, u ≤ s.biggest

/-- A booking call. -/
def UidCall.isBook : UidCall → Bool
  | UidCall.book _ => true
  | _ => false

/-- The uid of a booking call. -/
def UidCall.bookedUid : UidCall → Option Int
  | UidCall.book uid => some uid
  | _ => none

end IngeScapeUtils

end Ingescape

namespace Ingescape

/-! ## IngeScape-Common: history of the published values -/

/-- Modelled from the spec: the class `PublishedValueM` is not under src; a published value
carries the name of its agent, which `onValuePublished` reads. -/
structure PublishedValueM where
  agentName : String
  iopName : String := ""
  value : String := ""
deriving DecidableEq, Repr

namespace Common

/-- Threshold beyond which we consider that there are too many values. -/
def TOO_MANY_VALUES : Nat := 2000

/-- Value of `static_cast<int>(0.8 * TOO_MANY_VALUES)`: the product of the doubles 0.8 and
2000 rounds to the double 1600. -/
def numberOfKeptValues : Nat := 1600

/-- The rows of a list model after `removeRows(row, count)`. -/
def removeRows (l : List Nat) (row count : Nat) : List Nat :=
  l.take row ++ l.drop (row + count)

/-- The manager with the member `_publishedValues` and the objects it points to. -/
structure ValuesState where
  manager : State := {}
  values : Heap PublishedValueM := []
  publishedValues : List Nat := []
deriving DecidableEq, Repr

/-- Perform `qDeleteAll`. -/
def qDeleteAll (values : Heap PublishedValueM) (valuesToDelete : List Nat) :
    Option (Heap PublishedValueM) :=
  valuesToDelete.foldlM Heap.delete values

/-- Translation of the Common `IngeScapeModelManager::onValuePublished`.  The method
`AgentsGroupedByNameVM::updateCurrentValueOfIOP` is not under src: `updateCurrentValueOfIOP`
gives the group after the call. -/
def onValuePublished
    (updateCurrentValueOfIOP : AgentsGroupedByNameVM → PublishedValueM → AgentsGroupedByNameVM)
    (v : ValuesState) (publishedValue : Option Nat) : Option ValuesState :=
  match publishedValue with
  | none => some v
  | some p =>
    -- Add to the list at the first position
    let v1 : ValuesState := { v with publishedValues := p :: v.publishedValues }
    -- Check if there are too many values
    let pruned : Option ValuesState :=
      if v1.publishedValues.length > TOO_MANY_VALUES then
        -- Get values to delete
        let valuesToDelete := v1.publishedValues.drop numberOfKeptValues
        -- Remove all values from our list at once
        let rows := removeRows v1.publishedValues numberOfKeptValues valuesToDelete.length
        -- Delete values
        match qDeleteAll v1.values valuesToDelete with
        | none => none
        | some values => some { v1 with publishedValues := rows, values := values }
      else some v1
    match pruned with
    | none => none
    | some v2 =>
      match Heap.deref v2.values p with
      | none => none
      | some value =>
        -- Get the (view model of) agents grouped for the name
        match getAgentsGroupedForName v2.manager value.agentName with
        | none => some v2
        | some agentsGroupedByName =>
          match Heap.deref v2.manager.groups agentsGroupedByName with
          | none => none
          | some g =>
            let groups := Heap.store v2.manager.groups agentsGroupedByName (updateCurrentValueOfIOP g value)
            some { v2 with manager := { v2.manager with groups := groups } }

/-- Effect of a sequence of calls of `onValuePublished`. -/
def publishAll
    (updateCurrentValueOfIOP : AgentsGroupedByNameVM → PublishedValueM → AgentsGroupedByNameVM)
    (v : ValuesState) (calls : List (Option Nat)) : Option ValuesState :=
  calls.foldlM (onValuePublished updateCurrentValueOfIOP) v

/-- The group with the agent name of the value as its name: a stand-in for the method
`updateCurrentValueOfIOP` in examples. -/
def renameGroup (g : AgentsGroupedByNameVM) (value : PublishedValueM) : AgentsGroupedByNameVM :=
  { g with name := value.agentName }

/-- A state whose history is empty, with `n` values of agent `camera` ready for publication. -/
def valuesReady (n : Nat) : ValuesState :=
  { values := List.replicate n (some { agentName := "camera" }) }

end Common

end Ingescape

namespace Ingescape

namespace Common

/-- Consistency of the history: its entries are live objects, each listed once, at most
`TOO_MANY_VALUES` of them, and the registered groups are live objects. -/
structure HistoryInv (v : ValuesState) : Prop where
  live : ∀ p ∈ v.publishedValues, Heap.deref v.values p ≠ none
  nodup : v.publishedValues.Nodup
  bounded : v.publishedValues.length ≤ TOO_MANY_VALUES
  groupsLive : ∀ name g, QHash.find v.manager.hashFromNameToAgentsGrouped name = some g →
    Heap.deref v.manager.groups g ≠ none

/-- The history after a publication of `p` on the history `l`. -/
def historyAfter (l : List Nat) (p : Nat) : List Nat :=
  if (p :: l).length > TOO_MANY_VALUES then (p :: l).take numberOfKeptValues else p :: l

/-- The values that a publication of `p` on the history `l` deletes. -/
def deletedBy (l : List Nat) (p : Nat) : List Nat :=
  if (p :: l).length > TOO_MANY_VALUES then (p :: l).drop numberOfKeptValues else []

end Common

end Ingescape

namespace Ingescape

/-! ## Library: the mapping table (`ingescape_private.h`) -/

/-- The structure `mapping_element_t`; `id` is an `unsigned long` (64 bits), the hash key of
the table. -/
structure mapping_element_t where
  id : Nat
  input_name : String
  agent_name : String
  output_name : String
deriving DecidableEq, Repr

/-- The table `map_elements` of a `mapping_t`, in insertion order. -/
abbrev MappingTable := List mapping_element_t

/-- Modelled from the spec: the body of `mapping_createMappingElement` is not under src; "the
identifier is `hash(inputName, remoteAgentName, remoteOutputName)`", an `unsigned long`.  The
hash function is a parameter (`djb2_hash` is declared under src, without body). -/
def mapping_createMappingElement (hash : String → String → String → Nat)
    (input_name agent_name output_name : String) : mapping_element_t :=
  { id := hash input_name agent_name output_name % 2 ^ 64,
    input_name := input_name, agent_name := agent_name, output_name := output_name }

/-- The element of the table with the key `id` (`HASH_FIND`). -/
def MappingTable.findId (table : MappingTable) (id : Nat) : Option mapping_element_t :=
  table.find? (fun e => decide (e.id = id))

/-- Modelled from the spec: the function that adds a mapping element is not under src;
"re-adding an existing triple is a no-op returning the existing element", the element being
looked up by its identifier.  The result is the table and the returned element. -/
def addMappingElement (hash : String → String → String → Nat) (table : MappingTable)
    (input_name agent_name output_name : String) : MappingTable × mapping_element_t :=
  let element := mapping_createMappingElement hash input_name agent_name output_name
  match table.findId element.id with
  | some existing => (table, existing)
  | none => (table ++ [element], element)

/-- The table after a sequence of `addMappingElement` calls. -/
def addMappingElements (hash : String → String → String → Nat) (table : MappingTable)
    (triples : List (String × String × String)) : MappingTable :=
  triples.foldl (fun t x => (addMappingElement hash t x.1 x.2.1 x.2.2).1) table

end Ingescape

namespace Ingescape

/-- A JSON helper that answers every definition object with a camera definition whose only
output is "image". -/
def cameraHelper : JsonHelper :=
  { createModelOfAgentDefinitionFromJSON := fun _ =>
      some { name := "camera", outputsList := [some { id := "image" }], outputsIdsList := ["image"] }
    createModelOfAgentDefinitionFromBytes := fun _ => none
    createModelOfAgentMappingFromBytes := fun _ _ => none }

/-- The Editor environment with the helper `cameraHelper`. -/
def Editor.cameraEnv : Editor.Env :=
  { jsonHelper := some cameraHelper, getHostWithName := fun _ => false }

/-- The Common environment with the helper `cameraHelper`. -/
def Common.cameraEnv : Common.Env :=
  { jsonHelper := some cameraHelper, VERSION_JSON_PLATFORM := "1.0", defaultHostname := "" }

/-- An agents list (format of the Editor, and previous format of Common) with one agent
"camera" that has a definition and no clone. -/
def definitionWithoutClones : QJsonArray :=
  [QJsonValue.object
    [("agentName", QJsonValue.string "camera"),
     ("definition", QJsonValue.object [("name", QJsonValue.string "camera")]),
     ("clones", QJsonValue.array [])]]

/-- The same agent "camera" with its definition and one clone. -/
def definitionWithOneClone : QJsonArray :=
  [QJsonValue.object
    [("agentName", QJsonValue.string "camera"),
     ("definition", QJsonValue.object [("name", QJsonValue.string "camera")]),
     ("clones", QJsonValue.array [jsonClone "host-a" "cam --run" "peer-1" "10.0.0.7"])]]

end Ingescape

namespace Ingescape

/-- The ids of the outputs of a list (null entries have none). -/
def idsOfOutputs (outputs : List (Option OutputM)) : List String :=
  outputs.filterMap (fun output => output.map (fun o => o.id))

/-- Modelled from the spec: the class `DefinitionM` is not under src; its property
`outputsIdsList` holds the ids of its outputs. -/
def DefinitionM.IdsListOutputs (d : DefinitionM) : Prop :=
  ∀ id, id ∈ d.outputsIdsList ↔ id ∈ idsOfOutputs d.outputsList

/-- All outputs of the definition have a non-empty id. -/
def DefinitionM.OutputsHaveIds (d : DefinitionM) : Prop :=
  ∀ o, some o ∈ d.outputsList → o.id ≠ ""

end Ingescape

namespace Ingescape.Mastic

/-- The manager `sampleState` with the three definitions registered in another order. -/
def permutedState : State :=
  { definitions := sampleDefinitions
    mapFromNameToAgentDefinitionsList := [("sensor", [some 2, some 0, some 1])] }

end Ingescape.Mastic

namespace Ingescape.Mastic

/-- Translation of `MasticModelManager::deleteAgentDefinition`. -/
def deleteAgentDefinition (s : State) (definition : Option Nat) : Option State :=
  match definition with
  | none => some s
  | some p =>
    match Heap.deref s.definitions p with
    | none => none
    | some d =>
      let definitionName := d.name
      let agentDefinitionsList := (getAgentDefinitionsListFromName s definitionName).erase (some p)
      -- Update the list in the map
      let s1 : State :=
        { s with mapFromNameToAgentDefinitionsList :=
                   QHash.insert s.mapFromNameToAgentDefinitionsList definitionName agentDefinitionsList }
      -- Free memory
      match Heap.delete s1.definitions p with
      | none => none
      | some defs =>
        -- Update definition variants of a list of definitions with the same name
        _updateDefinitionVariants { s1 with definitions := defs } definitionName

/-- The manager `sampleState` after the variant detection: the two definitions of version
"1.0" are flagged. -/
def flaggedState : State :=
  { definitions :=
      [some { name := "sensor", version := "1.0", md5Hash := "aa", isVariant := true },
       some { name := "sensor", version := "1.0", md5Hash := "bb", isVariant := true },
       some { name := "sensor", version := "2.0", md5Hash := "aa" }]
    mapFromNameToAgentDefinitionsList := [("sensor", [some 0, some 1, some 2])] }

end Ingescape.Mastic

namespace Ingescape

namespace Common

/-- Translation of `IngeScapeModelManager::deleteAgentsGroupedByName`.  The method
`AgentsGroupedByNameVM::clearBeforeDeletion` is not under src (it emits signals that the
manager handles): `clearBeforeDeletion` gives the manager after the call. -/
def deleteAgentsGroupedByName (clearBeforeDeletion : State → Nat → Option State) (s : State)
    (agentsGroupedByName : Option Nat) : Option State :=
  match agentsGroupedByName with
  | none => some s
  | some g =>
    match Heap.deref s.groups g with
    | none => none
    | some vm =>
      if vm.name ≠ "" then
        -- Clear our agent just before its deletion
        match clearBeforeDeletion s g with
        | none => none
        | some s1 =>
          match Heap.deref s1.groups g with
          | none => none
          | some vm1 =>
            -- Remove from the hash table
            let s2 : State := { s1 with hashFromNameToAgentsGrouped := QHash.remove s1.hashFromNameToAgentsGrouped vm1.name }
            -- Remove from the sorted list
            let s3 : State := { s2 with allAgentsGroupsByName := s2.allAgentsGroupsByName.erase g }
            -- Emit the signal "Agents grouped by name will be deleted"
            let s4 := emit s3 (Signal.agentsGroupedByNameWillBeDeleted g)
            -- Free memory
            (Heap.delete s4.groups g).map (fun groups => { s4 with groups := groups })
      else
        some s

/-- Consistency of the groups: the hash of names and the list hold the same groups, which are
the live groups, each registered under its name and listed once. -/
structure GroupsInv (s : State) : Prop where
  hashed : ∀ n g, QHash.find s.hashFromNameToAgentsGrouped n = some g →
    g ∈ s.allAgentsGroupsByName ∧ ∃ vm, Heap.deref s.groups g = some vm ∧ vm.name = n
  listed : ∀ g, g ∈ s.allAgentsGroupsByName →
    ∃ vm, Heap.deref s.groups g = some vm ∧
      QHash.find s.hashFromNameToAgentsGrouped vm.name = some g
  nodup : s.allAgentsGroupsByName.Nodup
  liveListed : ∀ g, (Heap.deref s.groups g).isSome → g ∈ s.allAgentsGroupsByName

/-- What the absent method `clearBeforeDeletion` is assumed to keep on a call for the group
`g`: the call returns, the hash of names and the list of groups are the same, and every group
keeps its name. -/
def ClearsGroup (clearBeforeDeletion : State → Nat → Option State) (s : State) (g : Nat) : Prop :=
  ∃ s1, clearBeforeDeletion s g = some s1 ∧
    s1.hashFromNameToAgentsGrouped = s.hashFromNameToAgentsGrouped ∧
    s1.allAgentsGroupsByName = s.allAgentsGroupsByName ∧
    ∀ q, (Heap.deref s1.groups q).map (fun vm => vm.name) =
      (Heap.deref s.groups q).map (fun vm => vm.name)

/-- A stand-in for `clearBeforeDeletion` in examples: the group forgets its models. -/
def forgetModels (s : State) (g : Nat) : Option State :=
  match Heap.deref s.groups g with
  | none => none
  | some vm => some { s with groups := Heap.store s.groups g { vm with models := [] } }

end Common

end Ingescape

namespace Ingescape

namespace Common

/-- A state whose history holds the `n` values `n - 1`, ..., 0 of agent `camera` (the most
recent at the first position), with one more value ready for publication. -/
def historyOf (n : Nat) : ValuesState :=
  { values := List.replicate (n + 1) (some { agentName := "camera" })
    publishedValues := (List.range n).reverse }

end Common

end Ingescape

namespace Ingescape

namespace IngeScapeUtils

/-- Initial value of the static variable `BIGGEST_UID_OF_ACTION_IN_MAPPING_VIEW_MODEL`. -/
def BIGGEST_UID_OF_ACTION_IN_MAPPING_VIEW_MODEL : Int := -1

/-- Translation of `getUIDforNewActionInMappingVM` on the value `biggest` of its static
counter: the new value of the counter and the returned uid (`none`: signed overflow). -/
def getUIDforNewActionInMappingVM (biggest : Int) : Option (Int × Int) :=
  if biggest < INT_MAX then some (biggest + 1, biggest + 1) else none

/-- Translation of `freeUIDofActionInMappingVM`: the new value of the counter (`none`: signed
overflow). -/
def freeUIDofActionInMappingVM (biggest : Int) (uid : Int) : Option Int :=
  -- Decrement only if the uid correspond to the biggest one
  if uid = biggest then
    if INT_MIN < biggest then some (biggest - 1) else none
  else some biggest

/-- Translation of `bookUIDforActionInMappingVM`: the new value of the counter. -/
def bookUIDforActionInMappingVM (biggest : Int) (uid : Int) : Int :=
  if uid > biggest then uid else biggest

/-- The two static counters of `ingescapeutils.cpp`. -/
structure Statics where
  actionModel : Int := BIGGEST_UID_OF_ACTION_MODEL
  actionInMappingViewModel : Int := BIGGEST_UID_OF_ACTION_IN_MAPPING_VIEW_MODEL
deriving DecidableEq, Repr

/-- One call of the six functions on the static counters. -/
inductive StaticsCall where
  | getUIDforNewActionM
  | freeUIDofActionM (uid : Int)
  | bookUIDforActionM (uid : Int)
  | getUIDforNewActionInMappingVM
  | freeUIDofActionInMappingVM (uid : Int)
  | bookUIDforActionInMappingVM (uid : Int)
deriving DecidableEq, Repr

/-- A call of the three functions on the counter of the models of action. -/
def StaticsCall.onActionModel : StaticsCall → Bool
  | StaticsCall.getUIDforNewActionM => true
  | StaticsCall.freeUIDofActionM _ => true
  | StaticsCall.bookUIDforActionM _ => true
  | _ => false

/-- Effect of one call on the two static counters, with the returned uid when the function
returns one: each function reads and writes the variable that its body names. -/
def Statics.call (c : Statics) : StaticsCall → Option (Statics × Option Int)
  | StaticsCall.getUIDforNewActionM =>
    (getUIDforNewActionM c.actionModel).map
      (fun r => ({ c with actionModel := r.1 }, some r.2))
  | StaticsCall.freeUIDofActionM uid =>
    (freeUIDofActionM c.actionModel uid).map (fun b => ({ c with actionModel := b }, none))
  | StaticsCall.bookUIDforActionM uid =>
    some ({ c with actionModel := bookUIDforActionM c.actionModel uid }, none)
  | StaticsCall.getUIDforNewActionInMappingVM =>
    (getUIDforNewActionInMappingVM c.actionInMappingViewModel).map
      (fun r => ({ c with actionInMappingViewModel := r.1 }, some r.2))
  | StaticsCall.freeUIDofActionInMappingVM uid =>
    (freeUIDofActionInMappingVM c.actionInMappingViewModel uid).map
      (fun b => ({ c with actionInMappingViewModel := b }, none))
  | StaticsCall.bookUIDforActionInMappingVM uid =>
    some ({ c with actionInMappingViewModel :=
      bookUIDforActionInMappingVM c.actionInMappingViewModel uid }, none)

end IngeScapeUtils

end Ingescape

namespace Ingescape

/-! ## MASTIC-Editor: `ValuesHistoryController` -/

/-- The lists of agent names of the `ValuesHistoryController`, with the list of selected names
that `_updateFilters` gives to the filter `_filteredValues`. -/
structure ValuesHistoryController where
  allAgentNamesList : List String := []
  selectedAgentNamesList : List String := []
  filteredValuesSelectedAgentNamesList : List String := []
deriving DecidableEq, Repr

namespace ValuesHistoryController

/-- The list after `QStringList::sort(Qt::CaseInsensitive)`.  The comparison of Qt is the
parameter `le` (`le a b`: `a` is not after `b` when the case is ignored); names that are equal
for it keep their order. -/
def sort (le : String → String → Bool) (l : List String) : List String :=
  l.insertionSort (fun a b => le a b = true)

/-- A case-insensitive comparison for examples: the names are compared after their letters
`A` to `Z` are turned into small letters. -/
def asciiCaseInsensitiveLE (a b : String) : Bool :=
  decide (a.data.map Char.toLower ≤ b.data.map Char.toLower)

/-- Translation of `ValuesHistoryController::_updateFilters`. -/
def _updateFilters (c : ValuesHistoryController) : ValuesHistoryController :=
  -- Update the list of agent names of the filter
  { c with filteredValuesSelectedAgentNamesList := c.selectedAgentNamesList }

/-- Translation of `ValuesHistoryController::showValuesOfAgent`. -/
def showValuesOfAgent (le : String → String → Bool) (c : ValuesHistoryController)
    (agentName : String) : ValuesHistoryController :=
  let temp := sort le (c.selectedAgentNamesList ++ [agentName])
  _updateFilters { c with selectedAgentNamesList := temp }

/-- Translation of `ValuesHistoryController::hideValuesOfAgent`. -/
def hideValuesOfAgent (c : ValuesHistoryController) (agentName : String) :
    ValuesHistoryController :=
  let temp := c.selectedAgentNamesList.erase agentName
  -- No need to sort (list is already sorted)
  _updateFilters { c with selectedAgentNamesList := temp }

/-- Translation of `ValuesHistoryController::showValuesOfAllAgents`. -/
def showValuesOfAllAgents (c : ValuesHistoryController) : ValuesHistoryController :=
  _updateFilters { c with selectedAgentNamesList := c.allAgentNamesList }

/-- Translation of `ValuesHistoryController::hideValuesOfAllAgents`. -/
def hideValuesOfAllAgents (c : ValuesHistoryController) : ValuesHistoryController :=
  _updateFilters { c with selectedAgentNamesList := [] }

/-- Translation of `ValuesHistoryController::areShownValuesOfAgent`. -/
def areShownValuesOfAgent (c : ValuesHistoryController) (agentName : String) : Bool :=
  c.selectedAgentNamesList.contains agentName

/-- Translation of `ValuesHistoryController::onAgentInMappingAdded`. -/
def onAgentInMappingAdded (le : String → String → Bool) (c : ValuesHistoryController)
    (agentName : String) : ValuesHistoryController :=
  let temp1 := sort le (c.allAgentNamesList ++ [agentName])
  let c1 : ValuesHistoryController := { c with allAgentNamesList := temp1 }
  -- By default: the agent name is selected
  let temp2 := sort le (c1.selectedAgentNamesList ++ [agentName])
  _updateFilters { c1 with selectedAgentNamesList := temp2 }

/-- Translation of `ValuesHistoryController::onAgentInMappingRemoved`. -/
def onAgentInMappingRemoved (c : ValuesHistoryController) (agentName : String) :
    ValuesHistoryController :=
  let temp1 := c.allAgentNamesList.erase agentName
  -- No need to sort (list is already sorted)
  let c1 : ValuesHistoryController := { c with allAgentNamesList := temp1 }
  if c1.selectedAgentNamesList.contains agentName then
    let temp2 := c1.selectedAgentNamesList.erase agentName
    -- No need to sort (list is already sorted)
    _updateFilters { c1 with selectedAgentNamesList := temp2 }
  else c1

/-- Translation of `ValuesHistoryController::filterValuesToShowOnlyAgent`. -/
def filterValuesToShowOnlyAgent (le : String → String → Bool) (c : ValuesHistoryController)
    (agentName : String) : ValuesHistoryController :=
  -- Empty list and append only the agent name
  let temp := sort le ([] ++ [agentName])
  _updateFilters { c with selectedAgentNamesList := temp }

/-- One call of the functions of the controller that write the lists of agent names. -/
inductive Call where
  | showValuesOfAgent (agentName : String)
  | hideValuesOfAgent (agentName : String)
  | showValuesOfAllAgents
  | hideValuesOfAllAgents
  | onAgentInMappingAdded (agentName : String)
  | onAgentInMappingRemoved (agentName : String)
  | filterValuesToShowOnlyAgent (agentName : String)
deriving DecidableEq, Repr

/-- Effect of one call. -/
def call (le : String → String → Bool) (c : ValuesHistoryController) :
    Call → ValuesHistoryController
  | Call.showValuesOfAgent agentName => showValuesOfAgent le c agentName
  | Call.hideValuesOfAgent agentName => hideValuesOfAgent c agentName
  | Call.showValuesOfAllAgents => showValuesOfAllAgents c
  | Call.hideValuesOfAllAgents => hideValuesOfAllAgents c
  | Call.onAgentInMappingAdded agentName => onAgentInMappingAdded le c agentName
  | Call.onAgentInMappingRemoved agentName => onAgentInMappingRemoved c agentName
  | Call.filterValuesToShowOnlyAgent agentName => filterValuesToShowOnlyAgent le c agentName

/-- Effect of a sequence of calls. -/
def run (le : String → String → Bool) (c : ValuesHistoryController) (calls : List Call) :
    ValuesHistoryController :=
  calls.foldl (call le) c

end ValuesHistoryController

end Ingescape

namespace Ingescape

namespace Common

/-- The entry `{agentName, definitions: [{definition, clones}]}` of the current format for an
entry of the previous format: written from the words of the specification, to be compared with
the conversion that `importAgentsListFromJson` does. -/
def currentFormatOf (legacy : QJsonObject) : QJsonValue :=
  QJsonValue.object
    [("agentName", QJsonObject.value legacy "agentName"),
     ("definitions", QJsonValue.array
        [QJsonValue.object [("definition", QJsonObject.value legacy "definition"),
                            ("clones", QJsonObject.value legacy "clones")]])]

/-- An entry of the previous format with a string `agentName`, a `definition` that is an
object or null and a `clones` array. -/
def LegacyEntry (legacy : QJsonObject) : Prop :=
  (QJsonObject.value legacy "agentName").isString = true ∧
  ((QJsonObject.value legacy "definition").isObject = true ∨
    (QJsonObject.value legacy "definition").isNull = true) ∧
  (QJsonObject.value legacy "clones").isArray = true

/-- An entry of the previous format whose `clones` is not an array or whose `definition` is
neither an object nor null. -/
def BrokenLegacyEntry (legacy : QJsonObject) : Prop :=
  (QJsonObject.value legacy "clones").isArray = false ∨
  ((QJsonObject.value legacy "definition").isObject = false ∧
    (QJsonObject.value legacy "definition").isNull = false)

/-- An agents list of the previous format: the camera with its definition and one clone, and
an agent without definition and without clone. -/
def legacyAgentsList : List QJsonObject :=
  [[("agentName", QJsonValue.string "camera"),
    ("definition", QJsonValue.object [("name", QJsonValue.string "camera")]),
    ("clones", QJsonValue.array [jsonClone "host-a" "cam --run" "peer-1" "10.0.0.7"])],
   [("agentName", QJsonValue.string "lidar"), ("definition", QJsonValue.null),
    ("clones", QJsonValue.array [])]]

end Common

end Ingescape

namespace Ingescape.Mastic

/-- Translation of `MasticModelManager::deleteAgentModel`. -/
def deleteAgentModel (s : State) (agent : Option Nat) : Option State :=
  match agent with
  | none => some s
  | some p =>
    match Heap.deref s.agents p with
    | none => none
    | some a =>
      let agentModelsList := (getAgentModelsListFromName s a.name).erase p
      -- Update the list in the map
      let s1 : State :=
        { s with mapFromNameToAgentModelsList :=
                   QHash.insert s.mapFromNameToAgentModelsList a.name agentModelsList }
      -- Free memory
      (Heap.delete s1.agents p).map (fun agents => { s1 with agents := agents })

/-- The MASTIC directory after the camera with the peer id "peer-1" entered the network and its
model was deleted with `deleteAgentModel`. -/
def afterDeleteAgentModel : Option State :=
  (onAgentEntered {} "peer-1" "camera" "10.0.0.7" 4242 "host-a" "/opt/cam" false).bind
    (fun s => deleteAgentModel s (getAgentModelFromPeerId s "peer-1"))

end Ingescape.Mastic

namespace Ingescape.Common

/-- The Common directory after the camera with the peer id "peer-1" entered the network and its
model was deleted with `deleteAgentModel`. -/
def afterDeleteAgentModel : Option State :=
  (onAgentEntered {} "peer-1" "camera" "10.0.0.7" "host-a" "cam --run" false "").bind
    (fun s => deleteAgentModel s (getAgentModelFromPeerId s "peer-1"))

end Ingescape.Common

namespace Ingescape

namespace Common

/-- The Common environment of a manager built without JSON helper (`_jsonHelper` is null). -/
def noHelperEnv : Env :=
  { jsonHelper := none, VERSION_JSON_PLATFORM := "1.0", defaultHostname := "" }

/-- An entry of the previous format whose `clones` is a string. -/
def brokenLegacyEntry : QJsonObject :=
  [("agentName", QJsonValue.string "camera"), ("definition", QJsonValue.null),
   ("clones", QJsonValue.string "none")]

end Common

end Ingescape

/-! # Theorems -/

namespace Ingescape

/-! ## Facts about heaps and hashes -/

theorem Heap.deref_lt {α : Type} {h : Heap α} {p : Nat} {a : α} (hp : Heap.deref h p = some a) :
    p < h.length := by
  unfold Heap.deref at hp
  by_contra hlt
  rw [List.get?_eq_none.mpr (by omega)] at hp
  simp at hp

theorem Heap.deref_store {α : Type} (h : Heap α) (p q : Nat) (a : α) :
    Heap.deref (Heap.store h p a) q = if q = p ∧ p < h.length then some a else Heap.deref h q := by
  unfold Heap.deref Heap.store
  by_cases hq : q = p
  · subst hq
    by_cases hlt : q < h.length
    · simp [hlt, List.getElem?_set]
    · simp [hlt, List.getElem?_set]
      rw [List.getElem?_eq_none (by omega)]
      simp
  · simp [hq, List.getElem?_set, Ne.symm hq]

theorem Heap.deref_free {α : Type} (h : Heap α) (p q : Nat) :
    Heap.deref (Heap.free h p) q = if q = p then none else Heap.deref h q := by
  unfold Heap.deref Heap.free
  by_cases hq : q = p
  · subst hq
    by_cases hlt : q < h.length
    · simp [hlt, List.getElem?_set]
    · simp [List.getElem?_set]
  · simp [hq, List.getElem?_set, Ne.symm hq]

theorem Heap.deref_alloc {α : Type} (h : Heap α) (q : Nat) (a : α) :
    Heap.deref (Heap.alloc h a) q = if q = Heap.fresh h then some a else Heap.deref h q := by
  unfold Heap.deref Heap.alloc Heap.fresh
  by_cases hq : q = h.length
  · subst hq
    simp
  · simp only [hq, if_false, List.get?_eq_getElem?]
    by_cases hlt : q < h.length
    · rw [List.getElem?_append_left hlt]
    · rw [List.getElem?_eq_none (by simp; omega), List.getElem?_eq_none (by omega)]

theorem Heap.deref_fresh {α : Type} (h : Heap α) : Heap.deref h (Heap.fresh h) = none := by
  unfold Heap.deref Heap.fresh
  simp

@[simp] theorem Heap.length_store {α : Type} (h : Heap α) (p : Nat) (a : α) :
    (Heap.store h p a).length = h.length := by
  simp [Heap.store]

@[simp] theorem Heap.length_free {α : Type} (h : Heap α) (p : Nat) :
    (Heap.free h p).length = h.length := by
  simp [Heap.free]

/-- Two heaps with the same cells are equal. -/
theorem Heap.ext_deref {α : Type} {h h' : Heap α} (hlen : h.length = h'.length)
    (hd : ∀ p, Heap.deref h p = Heap.deref h' p) : h = h' := by
  apply List.ext_getElem hlen
  intro n h1 h2
  have := hd n
  unfold Heap.deref at this
  simpa [List.getElem?_eq_getElem h1, List.getElem?_eq_getElem h2] using this

theorem QHash.find_remove {κ ν : Type} [DecidableEq κ] (h : QHash κ ν) (k k' : κ) :
    QHash.find (QHash.remove h k) k' = if k' = k then none else QHash.find h k' := by
  induction h with
  | nil => simp [QHash.remove, QHash.find]
  | cons e rest ih =>
    obtain ⟨k0, v0⟩ := e
    unfold QHash.remove at ih ⊢
    by_cases h0 : k0 = k
    · subst h0
      simp only [List.filter_cons, ne_eq, not_true_eq_false, decide_False, Bool.false_eq_true,
        if_false, ih, QHash.find]
      by_cases h1 : k' = k0
      · simp [h1]
      · simp [h1, Ne.symm h1]
    · simp only [List.filter_cons, ne_eq, h0, not_false_eq_true, decide_True, if_true, QHash.find, ih]
      by_cases h1 : k0 = k'
      · subst h1; simp [h0]
      · simp [h1]

theorem QHash.find_insert {κ ν : Type} [DecidableEq κ] (h : QHash κ ν) (k k' : κ) (v : ν) :
    QHash.find (QHash.insert h k v) k' = if k' = k then some v else QHash.find h k' := by
  unfold QHash.insert
  simp only [QHash.find, QHash.find_remove]
  by_cases h1 : k = k'
  · subst h1; simp
  · simp [h1, Ne.symm h1]

end Ingescape

namespace Ingescape.Mastic

theorem mem_cohort {h : Heap DefinitionM} {l : List (Option Nat)} {v : String} {p : Nat} :
    p ∈ cohort h l v ↔ some p ∈ l ∧ versionOf h p = v := by
  unfold cohort
  simp only [List.mem_filterMap]
  constructor
  · rintro ⟨o, ho, hb⟩
    cases o with
    | none => simp at hb
    | some q =>
      simp only [Option.some_bind] at hb
      split_ifs at hb with hv
      simp only [Option.some.injEq] at hb
      subst hb
      exact ⟨ho, hv⟩
  · rintro ⟨hl, hv⟩
    exact ⟨some p, hl, by simp [hv]⟩

theorem cohort_append (h : Heap DefinitionM) (l1 l2 : List (Option Nat)) (v : String) :
    cohort h (l1 ++ l2) v = cohort h l1 v ++ cohort h l2 v := by
  simp [cohort, List.filterMap_append]

theorem cohort_single (h : Heap DefinitionM) (p : Nat) (v : String) :
    cohort h [some p] v = if versionOf h p = v then [p] else [] := by
  unfold cohort
  by_cases hv : versionOf h p = v <;> simp [hv]

theorem cohort_none (h : Heap DefinitionM) (v : String) : cohort h [none] v = [] := by
  simp [cohort]

@[simp] theorem resetIn_version (pre : List (Option Nat)) (p : Nat) (d : DefinitionM) :
    (resetIn pre p d).version = d.version := by
  unfold resetIn; split_ifs <;> rfl

@[simp] theorem resetIn_md5Hash (pre : List (Option Nat)) (p : Nat) (d : DefinitionM) :
    (resetIn pre p d).md5Hash = d.md5Hash := by
  unfold resetIn; split_ifs <;> rfl

theorem scanDefinition_none (st : VariantsScan) : scanDefinition st none = some st := rfl

/-- Closed form of one iteration on a live definition with a non-empty version. -/
theorem scanDefinition_some {st : VariantsScan} {p : Nat} {d : DefinitionM}
    (hd : Heap.deref st.definitions p = some d) (hv : d.version ≠ "")
    (hfirst : ∀ first, first ∈ ((QHash.find st.mapFromVersionToDefinitionsList d.version).getD []) →
      (Heap.deref st.definitions first).isSome)
    (hne : ∀ l, QHash.find st.mapFromVersionToDefinitionsList d.version = some l → l ≠ []) :
    scanDefinition st (some p) = some
      { definitions := Heap.store st.definitions p { d with isVariant := false }
        mapFromVersionToDefinitionsList :=
          QHash.insert st.mapFromVersionToDefinitionsList d.version
            ((QHash.find st.mapFromVersionToDefinitionsList d.version).getD [] ++ [p])
        versionsWithVariant :=
          if d.version ∉ st.versionsWithVariant ∧
              ∃ first ∈ ((QHash.find st.mapFromVersionToDefinitionsList d.version).getD []).head?,
                md5Of st.definitions first ≠ d.md5Hash
          then st.versionsWithVariant ++ [d.version] else st.versionsWithVariant } := by
  have hlt := Heap.deref_lt hd
  unfold scanDefinition
  simp only [hd, hv, if_false]
  cases hf : QHash.find st.mapFromVersionToDefinitionsList d.version with
  | none =>
    simp [QHash.contains, hf]
  | some l =>
    have hl := hne l hf
    simp only [QHash.contains, hf, Option.isSome_some, if_true, Option.getD_some]
    by_cases hin : d.version ∈ st.versionsWithVariant
    · simp [hin]
    · simp only [hin, not_false_eq_true, if_true, true_and]
      cases hh : l.head? with
      | none => simp [List.head?_eq_none_iff] at hh; exact absurd hh hl
      | some first =>
        have hmem : first ∈ l := List.mem_of_mem_head? hh
        have hlive := hfirst first (by simpa [hf] using hmem)
        obtain ⟨f, hfd⟩ := Option.isSome_iff_exists.mp hlive
        have hfd' : Heap.deref (Heap.store st.definitions p { d with isVariant := false }) first =
            some (if first = p then { d with isVariant := false } else f) := by
          rw [Heap.deref_store]
          by_cases hfp : first = p
          · simp [hfp, hlt]
          · simp [hfp, hfd]
        simp only [hfd', Option.mem_def, Option.some.injEq, exists_eq_left']
        have hmd : md5Of st.definitions first = (if first = p then { d with isVariant := false } else f).md5Hash := by
          unfold md5Of
          by_cases hfp : first = p
          · subst hfp; simp [hd]
          · simp [hfp, hfd]
        rw [hmd]

end Ingescape.Mastic

namespace Ingescape.Mastic

theorem ScanInv.md5Of_eq {h0 : Heap DefinitionM} {pre : List (Option Nat)} {st : VariantsScan}
    (inv : ScanInv h0 pre st) (q : Nat) : md5Of st.definitions q = md5Of h0 q := by
  unfold md5Of
  rw [inv.defs q]
  cases Heap.deref h0 q <;> simp

theorem ScanInv.find_getD {h0 : Heap DefinitionM} {pre : List (Option Nat)} {st : VariantsScan}
    (inv : ScanInv h0 pre st) {v : String} (hv : v ≠ "") :
    (QHash.find st.mapFromVersionToDefinitionsList v).getD [] = cohort h0 pre v := by
  rw [inv.map v]
  by_cases hc : cohort h0 pre v = []
  · simp [hc]
  · simp [hc, hv]

theorem versionOf_of_deref {h : Heap DefinitionM} {p : Nat} {d : DefinitionM}
    (hd : Heap.deref h p = some d) : versionOf h p = d.version := by
  simp [versionOf, hd]

theorem md5Of_of_deref {h : Heap DefinitionM} {p : Nat} {d : DefinitionM}
    (hd : Heap.deref h p = some d) : md5Of h p = d.md5Hash := by
  simp [md5Of, hd]

theorem scanDefinition_inv {h0 : Heap DefinitionM} {pre : List (Option Nat)} {st : VariantsScan}
    (o : Option Nat) (inv : ScanInv h0 pre st)
    (hpre : ∀ p, some p ∈ pre → (Heap.deref h0 p).isSome)
    (ho : ∀ p, o = some p → (Heap.deref h0 p).isSome) :
    ∃ st', scanDefinition st o = some st' ∧ ScanInv h0 (pre ++ [o]) st' := by
  cases o with
  | none =>
    refine ⟨st, rfl, inv.len, ?_, ?_, ?_⟩
    · intro p
      rw [inv.defs p]
      cases Heap.deref h0 p with
      | none => rfl
      | some dq => simp [resetIn]
    · intro v
      rw [cohort_append, cohort_none, List.append_nil]
      exact inv.map v
    · intro v
      rw [cohort_append, cohort_none, List.append_nil]
      exact inv.vers v
  | some p =>
    obtain ⟨d0, hd0⟩ := Option.isSome_iff_exists.mp (ho p rfl)
    have hd : Heap.deref st.definitions p = some (resetIn pre p d0) := by
      rw [inv.defs p, hd0]; rfl
    have hver0 : versionOf h0 p = d0.version := versionOf_of_deref hd0
    by_cases hv : d0.version = ""
    · refine ⟨st, ?_, inv.len, ?_, ?_, ?_⟩
      · unfold scanDefinition
        simp [hd, hv]
      · intro q
        rw [inv.defs q]
        cases hq : Heap.deref h0 q with
        | none => rfl
        | some dq =>
          simp only [Option.map_some', Option.some.injEq]
          unfold resetIn
          by_cases hqp : q = p
          · subst hqp
            rw [hd0] at hq
            simp only [Option.some.injEq] at hq
            subst hq
            simp [hv]
          · simp [hqp]
      · intro v
        rw [cohort_append, cohort_single, hver0]
        by_cases hv0 : v = ""
        · have := inv.map v
          simpa [hv0] using this
        · have : ¬ d0.version = v := by rw [hv]; exact fun h => hv0 h.symm
          simp only [this, if_false, List.append_nil]
          exact inv.map v
      · intro v
        rw [cohort_append, cohort_single, hver0]
        by_cases hv0 : v = ""
        · simp only [hv0, ne_eq, not_true_eq_false, false_and, iff_false]
          intro hmem
          exact ((inv.vers "").mp hmem).1 rfl
        · have : ¬ d0.version = v := by rw [hv]; exact fun h => hv0 h.symm
          simp only [this, if_false, List.append_nil]
          exact inv.vers v
    · have hvr : (resetIn pre p d0).version ≠ "" := by simpa using hv
      have hgetD := inv.find_getD hv
      have hstep := scanDefinition_some hd hvr
        (by
          intro first hfirst
          rw [resetIn_version, hgetD, mem_cohort] at hfirst
          rw [inv.defs first]
          have := hpre first hfirst.1
          cases hx : Heap.deref h0 first with
          | none => simp [hx] at this
          | some x => simp)
        (by
          intro l hl
          rw [resetIn_version, inv.map] at hl
          by_cases hc : cohort h0 pre d0.version = []
          · simp [hc] at hl
          · simp only [hv, hc, or_self, if_false, Option.some.injEq] at hl
            rw [← hl]; exact hc)
      refine ⟨_, hstep, ?_, ?_, ?_, ?_⟩
      · simp [inv.len]
      · intro q
        simp only [Heap.deref_store]
        by_cases hqp : q = p
        · subst hqp
          simp only [Heap.deref_lt hd, and_self, if_true, hd0, Option.map_some', Option.some.injEq]
          unfold resetIn
          by_cases hin : some q ∈ pre <;> simp [hin, hv]
        · simp only [hqp, false_and, if_false]
          rw [inv.defs q]
          cases hq : Heap.deref h0 q with
          | none => rfl
          | some dq =>
            simp only [Option.map_some', Option.some.injEq]
            unfold resetIn
            simp [hqp]
      · intro v
        simp only [resetIn_version, QHash.find_insert, hgetD]
        rw [cohort_append, cohort_single, hver0]
        by_cases hvv : v = d0.version
        · subst hvv
          simp [hv]
        · have hvv' : ¬ d0.version = v := fun h => hvv h.symm
          simp only [hvv, if_false, hvv', List.append_nil]
          exact inv.map v
      · intro v
        simp only [resetIn_version, resetIn_md5Hash, hgetD, inv.md5Of_eq]
        rw [cohort_append, cohort_single, hver0]
        have hmd : md5Of h0 p = d0.md5Hash := md5Of_of_deref hd0
        by_cases hvv : v = d0.version
        · subst hvv
          simp only [if_true, ne_eq, hv, not_false_eq_true, true_and]
          have hiv := inv.vers d0.version
          simp only [ne_eq, hv, not_false_eq_true, true_and] at hiv
          cases hc : cohort h0 pre d0.version with
          | nil =>
            rw [hc] at hiv
            simp only [List.not_mem_nil, false_and, exists_false, iff_false] at hiv
            simp [hiv]
          | cons first rest =>
            rw [hc] at hiv
            simp only [List.head?_cons, Option.mem_def, Option.some.injEq, exists_eq_left'] at hiv
            simp only [List.head?_cons, Option.mem_def, Option.some.injEq, exists_eq_left',
              List.cons_append, List.mem_cons, List.mem_append, List.mem_singleton]
            by_cases hin : d0.version ∈ st.versionsWithVariant
            · simp only [hin, not_true_eq_false, false_and, if_false, true_iff]
              obtain ⟨q, hq, hne⟩ := hiv.mp hin
              exact ⟨q, by
                rcases List.mem_cons.mp hq with h | h
                · exact Or.inl h
                · exact Or.inr (Or.inl h), hne⟩
            · simp only [hin, not_false_eq_true, true_and]
              have hno : ∀ q, q ∈ first :: rest → md5Of h0 q = md5Of h0 first := by
                intro q hq
                by_contra hne
                exact hin (hiv.mpr ⟨q, hq, hne⟩)
              by_cases hdiff : md5Of h0 first = d0.md5Hash
              · simp only [hdiff, not_true_eq_false, if_false, hin, false_iff, not_exists, not_and,
                  not_not]
                intro q hq
                rcases hq with h | h | h
                · subst h; exact hdiff
                · rw [hno q (List.mem_cons_of_mem _ h), hdiff]
                · rcases h with h | h
                  · subst h; exact hmd
                  · exact absurd h (List.not_mem_nil _)
              · simp only [hdiff, not_false_eq_true, if_true, List.mem_append, List.mem_singleton,
                  or_true, true_iff]
                exact ⟨p, Or.inr (Or.inr (Or.inl rfl)), by rw [hmd]; exact fun h => hdiff h.symm⟩
        · have hvv' : ¬ d0.version = v := fun h => hvv h.symm
          simp only [hvv', if_false, List.append_nil]
          rw [← inv.vers v]
          split_ifs with hcond
          · simp [hvv]
          · rfl

end Ingescape.Mastic

namespace Ingescape.Mastic

theorem scanInv_init (h0 : Heap DefinitionM) : ScanInv h0 [] { definitions := h0 } := by
  refine ⟨rfl, ?_, ?_, ?_⟩
  · intro p
    cases Heap.deref h0 p with
    | none => rfl
    | some d => simp [resetIn]
  · intro v
    simp [cohort, QHash.find]
  · intro v
    simp [cohort]

theorem scan_fold_inv {h0 : Heap DefinitionM} (rest : List (Option Nat)) :
    ∀ (pre : List (Option Nat)) (st : VariantsScan), ScanInv h0 pre st →
      (∀ p, some p ∈ pre ++ rest → (Heap.deref h0 p).isSome) →
      ∃ st', rest.foldlM scanDefinition st = some st' ∧ ScanInv h0 (pre ++ rest) st' := by
  induction rest with
  | nil =>
    intro pre st inv _
    exact ⟨st, rfl, by simpa using inv⟩
  | cons o rest ih =>
    intro pre st inv hlive
    obtain ⟨st1, h1, inv1⟩ := scanDefinition_inv o inv
      (fun p hp => hlive p (List.mem_append_left _ hp))
      (fun p hp => hlive p (by subst hp; simp))
    obtain ⟨st2, h2, inv2⟩ := ih (pre ++ [o]) st1 inv1 (by simpa using hlive)
    refine ⟨st2, ?_, by simpa using inv2⟩
    simp only [List.foldlM_cons, h1]
    exact h2

theorem flagDefinitions_spec (l : List Nat) :
    ∀ (h : Heap DefinitionM), (∀ p ∈ l, (Heap.deref h p).isSome) →
      ∃ h', flagDefinitions h l = some h' ∧ h'.length = h.length ∧
        ∀ q, (q ∈ l → Heap.deref h' q = (Heap.deref h q).map (fun d => { d with isVariant := true })) ∧
             (q ∉ l → Heap.deref h' q = Heap.deref h q) := by
  induction l with
  | nil =>
    intro h _
    exact ⟨h, rfl, rfl, fun q => ⟨fun hq => absurd hq (List.not_mem_nil _), fun _ => rfl⟩⟩
  | cons p rest ih =>
    intro h hlive
    obtain ⟨d, hd⟩ := Option.isSome_iff_exists.mp (hlive p (List.mem_cons_self _ _))
    have hlt := Heap.deref_lt hd
    have hlive1 : ∀ q ∈ rest, (Heap.deref (Heap.store h p { d with isVariant := true }) q).isSome := by
      intro q hq
      rw [Heap.deref_store]
      split_ifs
      · rfl
      · exact hlive q (List.mem_cons_of_mem _ hq)
    obtain ⟨h', hf, hlen, hspec⟩ := ih _ hlive1
    refine ⟨h', ?_, by simpa using hlen, ?_⟩
    · unfold flagDefinitions at hf ⊢
      simp only [List.foldlM_cons, hd, Option.map_some', Option.some_bind]
      exact hf
    · intro q
      have hq1 := (hspec q).1
      have hq2 := (hspec q).2
      rw [Heap.deref_store] at hq1 hq2
      by_cases hqp : q = p
      · subst hqp
        simp only [hlt, and_self, if_true, Option.map_some'] at hq1 hq2
        refine ⟨fun _ => ?_, fun hn => absurd (List.mem_cons_self _ _) hn⟩
        rw [hd]
        by_cases hr : q ∈ rest
        · exact hq1 hr
        · exact hq2 hr
      · simp only [hqp, false_and, if_false] at hq1 hq2
        constructor
        · intro hq
          rcases List.mem_cons.mp hq with h1 | h1
          · exact absurd h1 hqp
          · exact hq1 h1
        · intro hq
          exact hq2 (fun hr => hq (List.mem_cons_of_mem _ hr))

theorem flagVersions_spec (m : QHash String (List Nat)) (vs : List String) :
    ∀ (h : Heap DefinitionM),
      (∀ v ∈ vs, ∀ p ∈ (QHash.find m v).getD [], (Heap.deref h p).isSome) →
      ∃ h', flagVersions m h vs = some h' ∧ h'.length = h.length ∧
        ∀ q, ((∃ v ∈ vs, q ∈ (QHash.find m v).getD []) →
                Heap.deref h' q = (Heap.deref h q).map (fun d => { d with isVariant := true })) ∧
             ((¬ ∃ v ∈ vs, q ∈ (QHash.find m v).getD []) → Heap.deref h' q = Heap.deref h q) := by
  induction vs with
  | nil =>
    intro h _
    exact ⟨h, rfl, rfl, fun q => ⟨fun ⟨v, hv, _⟩ => absurd hv (List.not_mem_nil _), fun _ => rfl⟩⟩
  | cons v rest ih =>
    intro h hlive
    obtain ⟨h1, hf1, hlen1, hspec1⟩ := flagDefinitions_spec ((QHash.find m v).getD []) h
      (hlive v (List.mem_cons_self _ _))
    have hlive1 : ∀ w ∈ rest, ∀ p ∈ (QHash.find m w).getD [], (Heap.deref h1 p).isSome := by
      intro w hw p hp
      have := hlive w (List.mem_cons_of_mem _ hw) p hp
      by_cases hpv : p ∈ (QHash.find m v).getD []
      · rw [(hspec1 p).1 hpv]
        cases hx : Heap.deref h p with
        | none => simp [hx] at this
        | some x => simp
      · rw [(hspec1 p).2 hpv]; exact this
    obtain ⟨h2, hf2, hlen2, hspec2⟩ := ih h1 hlive1
    refine ⟨h2, ?_, by rw [hlen2, hlen1], ?_⟩
    · unfold flagVersions at hf2 ⊢
      simp only [List.foldlM_cons, hf1, Option.some_bind]
      exact hf2
    · intro q
      by_cases hr : ∃ w ∈ rest, q ∈ (QHash.find m w).getD []
      · have e2 := (hspec2 q).1 hr
        refine ⟨fun _ => ?_, fun hn => absurd (by
          obtain ⟨w, hw, hq⟩ := hr
          exact ⟨w, List.mem_cons_of_mem _ hw, hq⟩) hn⟩
        rw [e2]
        by_cases hpv : q ∈ (QHash.find m v).getD []
        · rw [(hspec1 q).1 hpv]
          cases Heap.deref h q <;> rfl
        · rw [(hspec1 q).2 hpv]
      · have e2 := (hspec2 q).2 hr
        by_cases hpv : q ∈ (QHash.find m v).getD []
        · refine ⟨fun _ => ?_, fun hn => absurd ⟨v, List.mem_cons_self _ _, hpv⟩ hn⟩
          rw [e2, (hspec1 q).1 hpv]
        · refine ⟨fun ⟨w, hw, hq⟩ => ?_, fun _ => ?_⟩
          · rcases List.mem_cons.mp hw with h1' | h1'
            · subst h1'; exact absurd hq hpv
            · exact absurd ⟨w, h1', hq⟩ hr
          · rw [e2, (hspec1 q).2 hpv]

end Ingescape.Mastic

namespace Ingescape.Mastic

/-- What `_updateDefinitionVariants` computes on a list of live definitions. -/
theorem updateDefinitionVariants_spec (s : State) (definitionName : String)
    (hlive : ∀ p, some p ∈ getAgentDefinitionsListFromName s definitionName →
      (Heap.deref s.definitions p).isSome) :
    ∃ defs, _updateDefinitionVariants s definitionName = some { s with definitions := defs } ∧
      defs.length = s.definitions.length ∧
      ∀ p, (Heap.deref s.definitions p = none → Heap.deref defs p = none) ∧
        ∀ d, Heap.deref s.definitions p = some d →
          ((some p ∈ getAgentDefinitionsListFromName s definitionName ∧ d.version ≠ "") →
            ∃ b, Heap.deref defs p = some { d with isVariant := b } ∧
              (b = true ↔ HasVariants s.definitions
                (getAgentDefinitionsListFromName s definitionName) d.version)) ∧
          (¬ (some p ∈ getAgentDefinitionsListFromName s definitionName ∧ d.version ≠ "") →
            Heap.deref defs p = some d) := by
  obtain ⟨st, hscan, inv⟩ := @scan_fold_inv s.definitions
    (getAgentDefinitionsListFromName s definitionName) [] { definitions := s.definitions }
    (scanInv_init _) (by simpa using hlive)
  simp only [List.nil_append] at inv
  set L := getAgentDefinitionsListFromName s definitionName with hL
  have hcoh : ∀ v, v ∈ st.versionsWithVariant →
      (QHash.find st.mapFromVersionToDefinitionsList v).getD [] = cohort s.definitions L v :=
    fun v hv => inv.find_getD ((inv.vers v).mp hv).1
  have hlive2 : ∀ v ∈ st.versionsWithVariant,
      ∀ p ∈ (QHash.find st.mapFromVersionToDefinitionsList v).getD [],
        (Heap.deref st.definitions p).isSome := by
    intro v hv p hp
    rw [hcoh v hv, mem_cohort] at hp
    rw [inv.defs p]
    have := hlive p hp.1
    cases hx : Heap.deref s.definitions p with
    | none => simp [hx] at this
    | some x => simp
  obtain ⟨defs, hflag, hlen, hspec⟩ := flagVersions_spec st.mapFromVersionToDefinitionsList
    st.versionsWithVariant st.definitions hlive2
  have hP : ∀ p d, Heap.deref s.definitions p = some d →
      ((∃ v ∈ st.versionsWithVariant, p ∈ (QHash.find st.mapFromVersionToDefinitionsList v).getD []) ↔
        (some p ∈ L ∧ d.version ≠ "") ∧ HasVariants s.definitions L d.version) := by
    intro p d hd
    constructor
    · rintro ⟨v, hv, hp⟩
      rw [hcoh v hv, mem_cohort] at hp
      obtain ⟨hv0, q, hq, f, hf, hne⟩ := (inv.vers v).mp hv
      have hvd : d.version = v := by rw [← hp.2, versionOf_of_deref hd]
      subst hvd
      refine ⟨⟨hp.1, hv0⟩, q, f, (mem_cohort.mp hq).1,
        (mem_cohort.mp (List.mem_of_mem_head? hf)).1, (mem_cohort.mp hq).2,
        (mem_cohort.mp (List.mem_of_mem_head? hf)).2, hne⟩
    · rintro ⟨⟨hp, hv0⟩, q, r, hq, hr, hvq, hvr, hne⟩
      have hpc : p ∈ cohort s.definitions L d.version :=
        mem_cohort.mpr ⟨hp, versionOf_of_deref hd⟩
      have hin : d.version ∈ st.versionsWithVariant := by
        rw [inv.vers]
        refine ⟨hv0, ?_⟩
        cases hc : cohort s.definitions L d.version with
        | nil => rw [hc] at hpc; exact absurd hpc (List.not_mem_nil _)
        | cons f rest =>
          have hqc : q ∈ f :: rest := hc ▸ mem_cohort.mpr ⟨hq, hvq⟩
          have hrc : r ∈ f :: rest := hc ▸ mem_cohort.mpr ⟨hr, hvr⟩
          by_cases hqf : md5Of s.definitions q = md5Of s.definitions f
          · exact ⟨r, hrc, f, rfl, fun h => hne (by rw [hqf, h])⟩
          · exact ⟨q, hqc, f, rfl, hqf⟩
      exact ⟨d.version, hin, by rw [hcoh _ hin]; exact hpc⟩
  refine ⟨defs, ?_, by rw [hlen, inv.len], ?_⟩
  · unfold _updateDefinitionVariants
    simp only [← hL, hscan, hflag]
  · intro p
    constructor
    · intro hnone
      have hnot : ¬ ∃ v ∈ st.versionsWithVariant,
          p ∈ (QHash.find st.mapFromVersionToDefinitionsList v).getD [] := by
        rintro ⟨v, hv, hp⟩
        rw [hcoh v hv, mem_cohort] at hp
        have := hlive p hp.1
        simp [hnone] at this
      rw [(hspec p).2 hnot, inv.defs p, hnone]; rfl
    · intro d hd
      constructor
      · intro hcond
        by_cases hvar : HasVariants s.definitions L d.version
        · refine ⟨true, ?_, by simp [hvar]⟩
          rw [(hspec p).1 ((hP p d hd).mpr ⟨hcond, hvar⟩), inv.defs p, hd]
          simp [resetIn, hcond]
        · refine ⟨false, ?_, by simp [hvar]⟩
          rw [(hspec p).2 (fun h => hvar ((hP p d hd).mp h).2), inv.defs p, hd]
          simp [resetIn, hcond]
      · intro hcond
        rw [(hspec p).2 (fun h => hcond ((hP p d hd).mp h).1), inv.defs p, hd]
        simp only [resetIn, Option.map_some', Option.some.injEq]
        rw [if_neg hcond]

end Ingescape.Mastic

namespace Ingescape.Mastic

theorem hasVariants_iff {h : Heap DefinitionM} {l : List (Option Nat)} {v : String}
    (hlive : ∀ p, some p ∈ l → (Heap.deref h p).isSome) :
    HasVariants h l v ↔
      ∃ q r dq dr, some q ∈ l ∧ some r ∈ l ∧ Heap.deref h q = some dq ∧ Heap.deref h r = some dr ∧
        dq.version = v ∧ dr.version = v ∧ dq.md5Hash ≠ dr.md5Hash := by
  constructor
  · rintro ⟨q, r, hq, hr, hvq, hvr, hne⟩
    obtain ⟨dq, hdq⟩ := Option.isSome_iff_exists.mp (hlive q hq)
    obtain ⟨dr, hdr⟩ := Option.isSome_iff_exists.mp (hlive r hr)
    refine ⟨q, r, dq, dr, hq, hr, hdq, hdr, ?_, ?_, ?_⟩
    · rw [← hvq, versionOf_of_deref hdq]
    · rw [← hvr, versionOf_of_deref hdr]
    · rw [← md5Of_of_deref hdq, ← md5Of_of_deref hdr]; exact hne
  · rintro ⟨q, r, dq, dr, hq, hr, hdq, hdr, hvq, hvr, hne⟩
    refine ⟨q, r, hq, hr, ?_, ?_, ?_⟩
    · rw [versionOf_of_deref hdq, hvq]
    · rw [versionOf_of_deref hdr, hvr]
    · rw [md5Of_of_deref hdq, md5Of_of_deref hdr]; exact hne

/-- C1: on a list of live definitions that all have a non-empty version,
`_updateDefinitionVariants` returns, keeps every listed definition apart from its flag, and
flags a listed definition `isVariant` if and only if two listed definitions carry its
version with different md5 hashes; so listed definitions of one version get the same flag. -/
theorem updateDefinitionVariants_flags (s : State) (definitionName : String)
    (hlist : ∀ p, some p ∈ getAgentDefinitionsListFromName s definitionName →
      ∃ d, Heap.deref s.definitions p = some d ∧ d.version ≠ "") :
    ∃ s', _updateDefinitionVariants s definitionName = some s' ∧
      (∀ p, some p ∈ getAgentDefinitionsListFromName s definitionName →
        ∃ d b, Heap.deref s.definitions p = some d ∧
          Heap.deref s'.definitions p = some { d with isVariant := b } ∧
          (b = true ↔
            ∃ q r dq dr, some q ∈ getAgentDefinitionsListFromName s definitionName ∧
              some r ∈ getAgentDefinitionsListFromName s definitionName ∧
              Heap.deref s.definitions q = some dq ∧ Heap.deref s.definitions r = some dr ∧
              dq.version = d.version ∧ dr.version = d.version ∧ dq.md5Hash ≠ dr.md5Hash)) ∧
      (∀ p q dp dq, some p ∈ getAgentDefinitionsListFromName s definitionName →
        some q ∈ getAgentDefinitionsListFromName s definitionName →
        Heap.deref s'.definitions p = some dp → Heap.deref s'.definitions q = some dq →
        dp.version = dq.version → dp.isVariant = dq.isVariant) := by
  have hlive : ∀ p, some p ∈ getAgentDefinitionsListFromName s definitionName →
      (Heap.deref s.definitions p).isSome := by
    intro p hp
    obtain ⟨d, hd, _⟩ := hlist p hp
    simp [hd]
  obtain ⟨defs, hrun, _, hspec⟩ := updateDefinitionVariants_spec s definitionName hlive
  have hflag : ∀ p, some p ∈ getAgentDefinitionsListFromName s definitionName →
      ∃ d b, Heap.deref s.definitions p = some d ∧
        Heap.deref defs p = some { d with isVariant := b } ∧
        (b = true ↔ HasVariants s.definitions
          (getAgentDefinitionsListFromName s definitionName) d.version) := by
    intro p hp
    obtain ⟨d, hd, hv⟩ := hlist p hp
    obtain ⟨b, hb, hiff⟩ := ((hspec p).2 d hd).1 ⟨hp, hv⟩
    exact ⟨d, b, hd, hb, hiff⟩
  refine ⟨_, hrun, ?_, ?_⟩
  · intro p hp
    obtain ⟨d, b, hd, hb, hiff⟩ := hflag p hp
    exact ⟨d, b, hd, hb, hiff.trans (hasVariants_iff hlive)⟩
  · intro p q dp dq hp hq hdp hdq hver
    obtain ⟨d1, b1, _, hb1, hiff1⟩ := hflag p hp
    obtain ⟨d2, b2, _, hb2, hiff2⟩ := hflag q hq
    have e1 : dp = { d1 with isVariant := b1 } := by
      have := hdp.symm.trans hb1
      simpa using this
    have e2 : dq = { d2 with isVariant := b2 } := by
      have := hdq.symm.trans hb2
      simpa using this
    subst e1 e2
    simp only at hver ⊢
    rw [hver] at hiff1
    exact Bool.eq_iff_iff.mpr (hiff1.trans hiff2.symm)

/-- Witness of C1 on the three sample definitions. -/
theorem updateDefinitionVariants_flags_witness :
    (∃ s', _updateDefinitionVariants sampleState "sensor" = some s' ∧
      s'.definitions =
        [some { name := "sensor", version := "1.0", md5Hash := "aa", isVariant := true },
         some { name := "sensor", version := "1.0", md5Hash := "bb", isVariant := true },
         some { name := "sensor", version := "2.0", md5Hash := "aa", isVariant := false }]) ∧
    ∃ s', _updateDefinitionVariants sampleState "sensor" = some s' ∧
      (∀ p, some p ∈ getAgentDefinitionsListFromName sampleState "sensor" →
        ∃ d b, Heap.deref sampleState.definitions p = some d ∧
          Heap.deref s'.definitions p = some { d with isVariant := b } ∧
          (b = true ↔
            ∃ q r dq dr, some q ∈ getAgentDefinitionsListFromName sampleState "sensor" ∧
              some r ∈ getAgentDefinitionsListFromName sampleState "sensor" ∧
              Heap.deref sampleState.definitions q = some dq ∧
              Heap.deref sampleState.definitions r = some dr ∧
              dq.version = d.version ∧ dr.version = d.version ∧ dq.md5Hash ≠ dr.md5Hash)) ∧
      (∀ p q dp dq, some p ∈ getAgentDefinitionsListFromName sampleState "sensor" →
        some q ∈ getAgentDefinitionsListFromName sampleState "sensor" →
        Heap.deref s'.definitions p = some dp → Heap.deref s'.definitions q = some dq →
        dp.version = dq.version → dp.isVariant = dq.isVariant) :=
  ⟨⟨_, rfl, by decide⟩,
   updateDefinitionVariants_flags sampleState "sensor" (by
    intro p hp
    have hl : getAgentDefinitionsListFromName sampleState "sensor" = [some 0, some 1, some 2] := by
      decide
    rw [hl] at hp
    simp only [List.mem_cons, Option.some.injEq, List.mem_singleton, List.not_mem_nil, or_false] at hp
    rcases hp with h | h | h <;> subst h
    · exact ⟨_, rfl, by decide⟩
    · exact ⟨_, rfl, by decide⟩
    · exact ⟨_, rfl, by decide⟩)⟩

end Ingescape.Mastic

namespace Ingescape.Mastic

theorem getAgentDefinitionsListFromName_eq (s : State) (name : String) :
    getAgentDefinitionsListFromName s name =
      (QHash.find s.mapFromNameToAgentDefinitionsList name).getD [] := by
  unfold getAgentDefinitionsListFromName QHash.contains
  cases QHash.find s.mapFromNameToAgentDefinitionsList name <;> rfl

/-- C2, amended: after `addAgentDefinition` registers a definition under a name whose
list holds live definitions, any two definitions D1 and D2 of that list with equal
non-empty version strings are both flagged `isVariant` when their md5 hashes differ, and
neither is flagged when their hashes are equal and no other definition of the list has
their version. -/
theorem addAgentDefinition_variants (s : State) (p : Nat) (d : DefinitionM)
    (hp : Heap.deref s.definitions p = some d)
    (hlive : ∀ q, some q ∈ getAgentDefinitionsListFromName s d.name →
      (Heap.deref s.definitions q).isSome) :
    ∃ s', addAgentDefinition s (some p) = some s' ∧
      getAgentDefinitionsListFromName s' d.name =
        getAgentDefinitionsListFromName s d.name ++ [some p] ∧
      ∀ p1 p2 d1 d2, some p1 ∈ getAgentDefinitionsListFromName s' d.name →
        some p2 ∈ getAgentDefinitionsListFromName s' d.name →
        Heap.deref s.definitions p1 = some d1 → Heap.deref s.definitions p2 = some d2 →
        d1.version = d2.version → d1.version ≠ "" →
        (d1.md5Hash ≠ d2.md5Hash →
          Heap.deref s'.definitions p1 = some { d1 with isVariant := true } ∧
          Heap.deref s'.definitions p2 = some { d2 with isVariant := true }) ∧
        (d1.md5Hash = d2.md5Hash →
          (∀ q dq, some q ∈ getAgentDefinitionsListFromName s' d.name →
            Heap.deref s.definitions q = some dq → dq.version = d1.version → q = p1 ∨ q = p2) →
          Heap.deref s'.definitions p1 = some { d1 with isVariant := false } ∧
          Heap.deref s'.definitions p2 = some { d2 with isVariant := false }) := by
  set s1 : State :=
    { s with mapFromNameToAgentDefinitionsList := QHash.insert s.mapFromNameToAgentDefinitionsList d.name (getAgentDefinitionsListFromName s d.name ++ [some p]) } with hs1
  have hlist1 : getAgentDefinitionsListFromName s1 d.name =
      getAgentDefinitionsListFromName s d.name ++ [some p] := by
    rw [getAgentDefinitionsListFromName_eq s1]
    simp [hs1, QHash.find_insert]
  have hlive1 : ∀ q, some q ∈ getAgentDefinitionsListFromName s1 d.name →
      (Heap.deref s1.definitions q).isSome := by
    intro q hq
    rw [hlist1] at hq
    rcases List.mem_append.mp hq with h | h
    · exact hlive q h
    · simp only [List.mem_singleton, Option.some.injEq] at h
      subst h
      simp [hs1, hp]
  obtain ⟨defs, hrun, _, hspec⟩ := updateDefinitionVariants_spec s1 d.name hlive1
  have hlist' : getAgentDefinitionsListFromName ({ s1 with definitions := defs } : State) d.name =
      getAgentDefinitionsListFromName s d.name ++ [some p] := by
    rw [← hlist1]; rfl
  refine ⟨{ s1 with definitions := defs }, ?_, hlist', ?_⟩
  · unfold addAgentDefinition
    simp only [hp]
    exact hrun
  · intro p1 p2 d1 d2 h1 h2 hd1 hd2 hver hne
    rw [hlist', ← hlist1] at h1 h2
    have hne2 : d2.version ≠ "" := hver ▸ hne
    obtain ⟨b1, hb1, hiff1⟩ := ((hspec p1).2 d1 hd1).1 ⟨h1, hne⟩
    obtain ⟨b2, hb2, hiff2⟩ := ((hspec p2).2 d2 hd2).1 ⟨h2, hne2⟩
    constructor
    · intro hmd
      have hv : HasVariants s1.definitions (getAgentDefinitionsListFromName s1 d.name) d1.version :=
        ⟨p1, p2, h1, h2, versionOf_of_deref hd1, (versionOf_of_deref hd2).trans hver.symm, by
          rw [md5Of_of_deref hd1, md5Of_of_deref hd2]; exact hmd⟩
      have e1 : b1 = true := hiff1.mpr hv
      have e2 : b2 = true := hiff2.mpr (hver ▸ hv)
      subst e1 e2
      exact ⟨hb1, hb2⟩
    · intro hmd honly
      have hnv : ¬ HasVariants s1.definitions (getAgentDefinitionsListFromName s1 d.name) d1.version := by
        rintro ⟨q, r, hq, hr, hvq, hvr, hdiff⟩
        obtain ⟨dq, hdq⟩ := Option.isSome_iff_exists.mp (hlive1 q hq)
        obtain ⟨dr, hdr⟩ := Option.isSome_iff_exists.mp (hlive1 r hr)
        have hmdq : md5Of s1.definitions q = d1.md5Hash := by
          rcases honly q dq (by rw [hlist', ← hlist1]; exact hq) hdq
            (by rw [← hvq]; exact (versionOf_of_deref hdq).symm) with h | h
          · subst h; exact md5Of_of_deref hd1
          · subst h; rw [hmd]; exact md5Of_of_deref hd2
        have hmdr : md5Of s1.definitions r = d1.md5Hash := by
          rcases honly r dr (by rw [hlist', ← hlist1]; exact hr) hdr
            (by rw [← hvr]; exact (versionOf_of_deref hdr).symm) with h | h
          · subst h; exact md5Of_of_deref hd1
          · subst h; rw [hmd]; exact md5Of_of_deref hd2
        exact hdiff (hmdq.trans hmdr.symm)
      have e1 : b1 = false := by
        cases b1
        · rfl
        · exact absurd (hiff1.mp rfl) hnv
      have e2 : b2 = false := by
        cases b2
        · rfl
        · exact absurd (hiff2.mp rfl) (hver ▸ hnv)
      subst e1 e2
      exact ⟨hb1, hb2⟩

/-- Witness of the amended C2: registering the second "1.0" sample definition after the
first flags both. -/
theorem addAgentDefinition_variants_witness :
    ∃ s', addAgentDefinition
        { definitions := sampleDefinitions, mapFromNameToAgentDefinitionsList := [("sensor", [some 0])] }
        (some 1) = some s' ∧
      Heap.deref s'.definitions 0 =
        some { name := "sensor", version := "1.0", md5Hash := "aa", isVariant := true } ∧
      Heap.deref s'.definitions 1 =
        some { name := "sensor", version := "1.0", md5Hash := "bb", isVariant := true } := by
  have hl : getAgentDefinitionsListFromName
      ({ definitions := sampleDefinitions,
         mapFromNameToAgentDefinitionsList := [("sensor", [some 0])] } : State) "sensor" =
      [some 0] := by decide
  obtain ⟨s', hrun, hlist, hall⟩ := addAgentDefinition_variants
    { definitions := sampleDefinitions, mapFromNameToAgentDefinitionsList := [("sensor", [some 0])] }
    1 { name := "sensor", version := "1.0", md5Hash := "bb" } rfl (by
      intro q hq
      rw [hl] at hq
      simp only [List.mem_singleton, Option.some.injEq] at hq
      subst hq
      rfl)
  rw [hl] at hlist
  exact ⟨s', hrun, (hall 0 1 { name := "sensor", version := "1.0", md5Hash := "aa" }
    { name := "sensor", version := "1.0", md5Hash := "bb" }
    (by rw [hlist]; decide) (by rw [hlist]; decide) rfl rfl rfl (by decide)).1 (by decide)⟩

/-- C2 as stated fails for the empty version: two definitions registered with
`addAgentDefinition` under one name, both without version and with different md5 hashes,
are not flagged. -/
theorem addAgentDefinition_unversioned_not_flagged :
    ∃ s1 s2, addAgentDefinition { definitions := unversionedDefinitions } (some 0) = some s1 ∧
      addAgentDefinition s1 (some 1) = some s2 ∧
      getAgentDefinitionsListFromName s2 "sensor" = [some 0, some 1] ∧
      Heap.deref s2.definitions 0 =
        some { name := "sensor", version := "", md5Hash := "aa", isVariant := false } ∧
      Heap.deref s2.definitions 1 =
        some { name := "sensor", version := "", md5Hash := "bb", isVariant := false } :=
  ⟨_, _, rfl, rfl, by decide, by decide, by decide⟩

end Ingescape.Mastic

namespace Ingescape

theorem Heap.count_alloc {α : Type} (h : Heap α) (a : α) :
    Heap.count (Heap.alloc h a) = Heap.count h + 1 := by
  simp [Heap.count, Heap.alloc, List.filter_append]

theorem Heap.count_set_some {α : Type} (h : Heap α) :
    ∀ (p : Nat) (a : α), (Heap.deref h p).isSome → Heap.count (Heap.store h p a) = Heap.count h := by
  induction h with
  | nil => intro p a hp; simp [Heap.deref] at hp
  | cons c rest ih =>
    intro p a hp
    cases p with
    | zero =>
      simp only [Heap.deref, List.get?_cons_zero, Option.join] at hp
      cases c with
      | none => simp at hp
      | some x => simp [Heap.count, Heap.store, List.filter_cons]
    | succ n =>
      have hn : (Heap.deref rest n).isSome := by simpa [Heap.deref] using hp
      have := ih n a hn
      simp only [Heap.count, Heap.store, List.set_cons_succ, List.filter_cons] at this ⊢
      split_ifs <;> simp [this]

theorem Heap.count_free {α : Type} (h : Heap α) :
    ∀ (p : Nat), (Heap.deref h p).isSome → Heap.count (Heap.free h p) + 1 = Heap.count h := by
  induction h with
  | nil => intro p hp; simp [Heap.deref] at hp
  | cons c rest ih =>
    intro p hp
    cases p with
    | zero =>
      simp only [Heap.deref, List.get?_cons_zero, Option.join] at hp
      cases c with
      | none => simp at hp
      | some x => simp [Heap.count, Heap.free, List.filter_cons]
    | succ n =>
      have hn : (Heap.deref rest n).isSome := by simpa [Heap.deref] using hp
      have := ih n hn
      simp only [Heap.count, Heap.free, List.set_cons_succ, List.filter_cons] at this ⊢
      split_ifs <;> simp [this]

theorem Heap.deref_store_self {α : Type} {h : Heap α} {p : Nat} (a : α)
    (hp : (Heap.deref h p).isSome) : Heap.deref (Heap.store h p a) p = some a := by
  obtain ⟨x, hx⟩ := Option.isSome_iff_exists.mp hp
  rw [Heap.deref_store]
  simp [Heap.deref_lt hx]

theorem Heap.deref_alloc_fresh {α : Type} (h : Heap α) (a : α) :
    Heap.deref (Heap.alloc h a) (Heap.fresh h) = some a := by
  rw [Heap.deref_alloc]; simp

theorem Heap.deref_alloc_of_some {α : Type} {h : Heap α} {p : Nat} {x : α} (a : α)
    (hp : Heap.deref h p = some x) : Heap.deref (Heap.alloc h a) p = some x := by
  rw [Heap.deref_alloc]
  have := Heap.deref_lt hp
  have hne : p ≠ Heap.fresh h := by unfold Heap.fresh; omega
  simp [hne, hp]

theorem QHash.contains_iff {κ ν : Type} [DecidableEq κ] (h : QHash κ ν) (k : κ) :
    QHash.contains h k = (QHash.find h k).isSome := rfl

theorem QHash.find_of_contains {κ ν : Type} [DecidableEq κ] (h : QHash κ ν) (k : κ) :
    (if QHash.contains h k then QHash.find h k else none) = QHash.find h k := by
  unfold QHash.contains
  cases QHash.find h k <;> rfl

theorem Mastic.mastic_getAgentModelFromPeerId_eq (s : Mastic.State) (peerId : String) :
    Mastic.getAgentModelFromPeerId s peerId = QHash.find s.mapFromPeerIdToAgentM peerId :=
  QHash.find_of_contains _ _

theorem Common.common_getAgentModelFromPeerId_eq (s : Common.State) (peerId : String) :
    Common.getAgentModelFromPeerId s peerId = QHash.find s.hashFromPeerIdToAgent peerId :=
  QHash.find_of_contains _ _

theorem Common.common_getAgentsGroupedForName_eq (s : Common.State) (name : String) :
    Common.getAgentsGroupedForName s name = QHash.find s.hashFromNameToAgentsGrouped name :=
  QHash.find_of_contains _ _

theorem Editor.editor_getAgentModelFromPeerId_eq (s : Editor.State) (peerId : String) :
    Editor.getAgentModelFromPeerId s peerId = QHash.find s.mapFromPeerIdToAgentM peerId :=
  QHash.find_of_contains _ _

theorem Editor.editor_getAgentsGroupedForName_eq (s : Editor.State) (name : String) :
    Editor.getAgentsGroupedForName s name = QHash.find s.hashFromNameToAgentsGrouped name :=
  QHash.find_of_contains _ _

end Ingescape

namespace Ingescape

theorem Mastic.mastic_onAgentEntered_spec (s : Mastic.State) (peerId agentName agentAddress : String)
    (pid : Int) (hostname executionPath : String) (canBeFrozen : Bool) (hs : Mastic.Live s) :
    ∃ s', Mastic.onAgentEntered s peerId agentName agentAddress pid hostname executionPath canBeFrozen
        = some s' ∧
      ((peerId = "" ∨ agentName = "" ∨ agentAddress = "") → s' = s) ∧
      (peerId ≠ "" ∧ agentName ≠ "" ∧ agentAddress ≠ "" →
        (∀ agent, Mastic.getAgentModelFromPeerId s peerId = some agent →
          ∃ a, Heap.deref s.agents agent = some a ∧
            s'.agents = Heap.store s.agents agent { a with status := Mastic.AgentStatus.ON } ∧
            Heap.count s'.agents = Heap.count s.agents ∧
            Mastic.getAgentModelFromPeerId s' peerId = some agent ∧
            Heap.deref s'.agents agent = some { a with status := Mastic.AgentStatus.ON }) ∧
        (Mastic.getAgentModelFromPeerId s peerId = none →
          s'.agents = s.agents ++
            [some { name := agentName, peerId := peerId, address := agentAddress,
                    hostname := hostname, executionPath := executionPath, pid := pid,
                    canBeFrozen := canBeFrozen, status := Mastic.AgentStatus.ON }] ∧
          Heap.count s'.agents = Heap.count s.agents + 1 ∧
          Mastic.getAgentModelFromPeerId s' peerId = some (Heap.fresh s.agents))) := by
  by_cases hne : peerId ≠ "" ∧ agentName ≠ "" ∧ agentAddress ≠ ""
  · have hno : ¬ (peerId = "" ∨ agentName = "" ∨ agentAddress = "") := by
      rintro (h | h | h)
      · exact hne.1 h
      · exact hne.2.1 h
      · exact hne.2.2 h
    cases hget : Mastic.getAgentModelFromPeerId s peerId with
    | some agent =>
      have hfind := hget
      rw [Mastic.mastic_getAgentModelFromPeerId_eq] at hfind
      obtain ⟨a, ha⟩ := Option.isSome_iff_exists.mp (hs peerId agent hfind)
      refine ⟨{ s with agents := Heap.store s.agents agent { a with status := Mastic.AgentStatus.ON } },
        ?_, fun h => absurd h hno, fun _ => ⟨?_, fun h => by simp at h⟩⟩
      · unfold Mastic.onAgentEntered
        rw [if_pos hne]
        simp only [hget, ha]
      · intro agent' hag
        simp only [Option.some.injEq] at hag
        subst hag
        refine ⟨a, ha, rfl, ?_, ?_, ?_⟩
        · exact Heap.count_set_some _ _ _ (by simp [ha])
        · exact hget
        · exact Heap.deref_store_self _ (by simp [ha])
    | none =>
      have hfind := hget
      rw [Mastic.mastic_getAgentModelFromPeerId_eq] at hfind
      unfold Mastic.onAgentEntered
      rw [if_pos hne]
      simp only [hget, Mastic.addAgentModel, Heap.deref_alloc_fresh]
      refine ⟨_, rfl, fun h => absurd h hno, fun _ => ⟨fun agent h => by simp at h, fun _ => ?_⟩⟩
      refine ⟨rfl, ?_, ?_⟩
      · exact Heap.count_alloc _ _
      · rw [Mastic.mastic_getAgentModelFromPeerId_eq]
        simp [Mastic.emit, QHash.find_insert]
  · refine ⟨s, ?_, fun _ => rfl, fun h => absurd h hne⟩
    unfold Mastic.onAgentEntered
    rw [if_neg hne]

end Ingescape

namespace Ingescape

theorem Heap.store_alloc_fresh {α : Type} (h : Heap α) (a b : α) :
    Heap.store (Heap.alloc h a) (Heap.fresh h) b = Heap.alloc h b := by
  apply Heap.ext_deref
  · simp [Heap.alloc]
  · intro p
    rw [Heap.deref_store, Heap.deref_alloc, Heap.deref_alloc]
    by_cases hp : p = Heap.fresh h
    · simp [hp, Heap.alloc, Heap.fresh]
    · simp [hp]

theorem Heap.isSome_store {α : Type} {h : Heap α} {p q : Nat} (a : α)
    (hq : (Heap.deref h q).isSome) : (Heap.deref (Heap.store h p a) q).isSome := by
  rw [Heap.deref_store]
  split_ifs
  · rfl
  · exact hq

theorem Heap.isSome_alloc {α : Type} {h : Heap α} {q : Nat} (a : α)
    (hq : (Heap.deref h q).isSome) : (Heap.deref (Heap.alloc h a) q).isSome := by
  rw [Heap.deref_alloc]
  split_ifs
  · rfl
  · exact hq

namespace Common

theorem addNewAgentModel_spec (s : State) (g model : Nat) (hg : (Heap.deref s.groups g).isSome) :
    ∃ vm, Heap.deref s.groups g = some vm ∧
      addNewAgentModel s g model =
        some { s with groups := Heap.store s.groups g { vm with models := vm.models ++ [model] } } := by
  obtain ⟨vm, hvm⟩ := Option.isSome_iff_exists.mp hg
  exact ⟨vm, hvm, by simp [addNewAgentModel, hvm]⟩

theorem createAgentsGroupedByName_spec (s : State) (m : Nat) (a : AgentM)
    (ha : Heap.deref s.agents m = some a) (hname : a.name ≠ "") :
    ∃ s', _createAgentsGroupedByName s (some m) = some s' ∧
      s'.agents = s.agents ∧ s'.definitions = s.definitions ∧ s'.mappings = s.mappings ∧
      s'.hashFromPeerIdToAgent = s.hashFromPeerIdToAgent ∧
      s'.groups = Heap.alloc s.groups { name := a.name, models := [m] } ∧
      s'.hashFromNameToAgentsGrouped =
        QHash.insert s.hashFromNameToAgentsGrouped a.name (Heap.fresh s.groups) ∧
      s'.allAgentsGroupsByName = s.allAgentsGroupsByName ++ [Heap.fresh s.groups] := by
  unfold _createAgentsGroupedByName
  simp only [ha]
  rw [if_pos hname]
  simp only [addNewAgentModel, emit, Heap.deref_alloc_fresh, Heap.store_alloc_fresh]
  exact ⟨_, rfl, rfl, rfl, rfl, rfl, rfl, rfl, rfl⟩

/-- What `createAgentModel` does for a non-empty name, when the registered groups are live. -/
theorem createAgentModel_spec (s : State) (agentName : String) (definition : Option Nat)
    (peerId ipAddress hostname commandLine : String) (isON : Bool) (hname : agentName ≠ "")
    (hg : ∀ n g, QHash.find s.hashFromNameToAgentsGrouped n = some g → (Heap.deref s.groups g).isSome) :
    ∃ s', createAgentModel s agentName definition peerId ipAddress hostname commandLine isON =
        some (s', some (Heap.fresh s.agents)) ∧
      s'.agents = Heap.alloc s.agents
        { name := agentName, peerId := peerId, address := ipAddress, hostname := hostname,
          commandLine := commandLine, isON := isON, definition := definition } ∧
      s'.definitions = s.definitions ∧ s'.mappings = s.mappings ∧
      s'.hashFromPeerIdToAgent =
        (if peerId ≠ "" then QHash.insert s.hashFromPeerIdToAgent peerId (Heap.fresh s.agents)
         else s.hashFromPeerIdToAgent) ∧
      (∀ n g, QHash.find s'.hashFromNameToAgentsGrouped n = some g → (Heap.deref s'.groups g).isSome) := by
  have hrec : (match definition with
      | some d => ({ name := agentName, peerId := peerId, address := ipAddress, hostname := hostname,
                     commandLine := commandLine, isON := isON, definition := some d } : AgentM)
      | none => { name := agentName, peerId := peerId, address := ipAddress, hostname := hostname,
                  commandLine := commandLine, isON := isON }) =
      { name := agentName, peerId := peerId, address := ipAddress, hostname := hostname,
        commandLine := commandLine, isON := isON, definition := definition } := by
    cases definition <;> rfl
  obtain ⟨s3, hs3, h3a, h3d, h3m, h3g, h3h, h3n⟩ : ∃ s3 : State,
      createAgentModel s agentName definition peerId ipAddress hostname commandLine isON =
        (match getAgentsGroupedForName s3 agentName with
          | some agentsGroupedByName =>
            (addNewAgentModel s3 agentsGroupedByName (Heap.fresh s.agents)).map
              (fun s4 => (s4, some (Heap.fresh s.agents)))
          | none =>
            (_createAgentsGroupedByName s3 (some (Heap.fresh s.agents))).map
              (fun s4 => (s4, some (Heap.fresh s.agents)))) ∧
      s3.agents = Heap.alloc s.agents
        { name := agentName, peerId := peerId, address := ipAddress, hostname := hostname,
          commandLine := commandLine, isON := isON, definition := definition } ∧
      s3.definitions = s.definitions ∧ s3.mappings = s.mappings ∧ s3.groups = s.groups ∧
      s3.hashFromPeerIdToAgent =
        (if peerId ≠ "" then QHash.insert s.hashFromPeerIdToAgent peerId (Heap.fresh s.agents)
         else s.hashFromPeerIdToAgent) ∧
      s3.hashFromNameToAgentsGrouped = s.hashFromNameToAgentsGrouped := by
    unfold createAgentModel
    rw [if_pos hname]
    simp only [hrec]
    refine ⟨_, rfl, ?_, ?_, ?_, ?_, ?_, ?_⟩ <;>
      by_cases hp : peerId = "" <;> simp [emit, hp]
  rw [hs3, common_getAgentsGroupedForName_eq, h3n]
  cases hgrp : QHash.find s.hashFromNameToAgentsGrouped agentName with
  | some g =>
    obtain ⟨vm, _, hadd⟩ := addNewAgentModel_spec s3 g (Heap.fresh s.agents)
      (by rw [h3g]; exact hg agentName g hgrp)
    simp only [hadd, Option.map_some']
    refine ⟨_, rfl, h3a, h3d, h3m, h3h, ?_⟩
    intro n g' hfind
    simp only at hfind ⊢
    rw [h3n] at hfind
    rw [h3g]
    exact Heap.isSome_store _ (hg n g' hfind)
  | none =>
    have ha3 : Heap.deref s3.agents (Heap.fresh s.agents) = some
        { name := agentName, peerId := peerId, address := ipAddress, hostname := hostname,
          commandLine := commandLine, isON := isON, definition := definition } := by
      rw [h3a, Heap.deref_alloc_fresh]
    obtain ⟨s4, hcr, h4a, h4d, h4m, h4h, h4g, h4n, _⟩ :=
      createAgentsGroupedByName_spec s3 (Heap.fresh s.agents) _ ha3 hname
    simp only [hcr, Option.map_some']
    refine ⟨_, rfl, h4a.trans h3a, h4d.trans h3d, h4m.trans h3m, h4h.trans h3h, ?_⟩
    intro n g' hfind
    rw [h4n, QHash.find_insert] at hfind
    rw [h4g]
    split_ifs at hfind with hn
    · simp only [Option.some.injEq] at hfind
      subst hfind
      rw [Heap.deref_alloc_fresh]; rfl
    · rw [h3n] at hfind
      rw [h3g]
      exact Heap.isSome_alloc _ (hg n g' hfind)

end Common

end Ingescape

namespace Ingescape

theorem Common.common_onAgentEntered_spec (s : Common.State)
    (peerId agentName ipAddress hostname commandLine : String) (canBeFrozen : Bool)
    (loggerPort : String) (hs : Common.Live s) :
    ∃ s', Common.onAgentEntered s peerId agentName ipAddress hostname commandLine canBeFrozen loggerPort
        = some s' ∧
      ((peerId = "" ∨ agentName = "" ∨ ipAddress = "") → s' = s) ∧
      (peerId ≠ "" ∧ agentName ≠ "" ∧ ipAddress ≠ "" →
        (∀ agent, Common.getAgentModelFromPeerId s peerId = some agent →
          ∃ a, Heap.deref s.agents agent = some a ∧
            s'.agents = Heap.store s.agents agent
              { a with canBeFrozen := canBeFrozen, loggerPort := loggerPort, isON := true } ∧
            Heap.count s'.agents = Heap.count s.agents ∧
            Common.getAgentModelFromPeerId s' peerId = some agent) ∧
        (Common.getAgentModelFromPeerId s peerId = none →
          s'.agents = s.agents ++
            [some { name := agentName, peerId := peerId, address := ipAddress,
                    hostname := hostname, commandLine := commandLine, isON := true,
                    canBeFrozen := canBeFrozen, loggerPort := loggerPort }] ∧
          Heap.count s'.agents = Heap.count s.agents + 1 ∧
          Common.getAgentModelFromPeerId s' peerId = some (Heap.fresh s.agents))) := by
  by_cases hne : peerId ≠ "" ∧ agentName ≠ "" ∧ ipAddress ≠ ""
  · have hno : ¬ (peerId = "" ∨ agentName = "" ∨ ipAddress = "") := by
      rintro (h | h | h)
      · exact hne.1 h
      · exact hne.2.1 h
      · exact hne.2.2 h
    cases hget : Common.getAgentModelFromPeerId s peerId with
    | some agent =>
      have hfind := hget
      rw [Common.common_getAgentModelFromPeerId_eq] at hfind
      obtain ⟨a, ha⟩ := Option.isSome_iff_exists.mp (hs.1 peerId agent hfind)
      refine ⟨{ s with agents := Heap.store s.agents agent { a with canBeFrozen := canBeFrozen, loggerPort := loggerPort, isON := true } },
        ?_, fun h => absurd h hno, fun _ => ⟨?_, fun h => by simp at h⟩⟩
      · unfold Common.onAgentEntered
        rw [if_pos hne]
        simp only [hget, ha]
      · intro agent' hag
        simp only [Option.some.injEq] at hag
        subst hag
        exact ⟨a, ha, rfl, Heap.count_set_some _ _ _ (by simp [ha]), hget⟩
    | none =>
      have hfind := hget
      rw [Common.common_getAgentModelFromPeerId_eq] at hfind
      obtain ⟨s1, hcr, h1a, _, _, h1h, _⟩ := Common.createAgentModel_spec s agentName none peerId
        ipAddress hostname commandLine true hne.2.1 hs.2
      unfold Common.onAgentEntered
      rw [if_pos hne]
      simp only [hget, hcr, h1a, Heap.deref_alloc_fresh, Heap.store_alloc_fresh]
      refine ⟨_, rfl, fun h => absurd h hno, fun _ => ⟨fun agent h => by simp at h, fun _ => ?_⟩⟩
      refine ⟨rfl, Heap.count_alloc _ _, ?_⟩
      rw [Common.common_getAgentModelFromPeerId_eq]
      simp only [h1h, hne.1, ne_eq, not_false_eq_true, if_true, QHash.find_insert]
  · refine ⟨s, ?_, fun _ => rfl, fun h => absurd h hne⟩
    unfold Common.onAgentEntered
    rw [if_neg hne]

namespace Editor

theorem addAgentModel_spec (s : State) (p : Nat) (a : AgentM) (ha : Heap.deref s.agents p = some a) :
    ∃ s', addAgentModel s (some p) = some s' ∧
      s'.agents = s.agents ∧ s'.definitions = s.definitions ∧ s'.mappings = s.mappings ∧
      s'.groups = s.groups ∧ s'.hashFromNameToAgentsGrouped = s.hashFromNameToAgentsGrouped ∧
      s'.allAgentsGroupedByName = s.allAgentsGroupedByName ∧
      s'.mapFromPeerIdToAgentM =
        (if a.peerId ≠ "" then QHash.insert s.mapFromPeerIdToAgentM a.peerId p
         else s.mapFromPeerIdToAgentM) := by
  unfold addAgentModel
  simp only [ha]
  refine ⟨_, rfl, ?_, ?_, ?_, ?_, ?_, ?_, ?_⟩ <;>
    by_cases hp : a.peerId = "" <;> simp [emit, hp]

theorem manageNewModel_spec (s : State) (g model : Nat) (hg : (Heap.deref s.groups g).isSome) :
    ∃ vm, Heap.deref s.groups g = some vm ∧
      manageNewModel s g model =
        some { s with groups := Heap.store s.groups g { vm with models := vm.models ++ [model] } } := by
  obtain ⟨vm, hvm⟩ := Option.isSome_iff_exists.mp hg
  exact ⟨vm, hvm, by simp [manageNewModel, hvm]⟩

theorem editor_onAgentEntered_spec (env : Env) (s : State)
    (peerId agentName ipAddress hostname commandLine : String) (canBeFrozen : Bool)
    (loggerPort : String) (hs : Live s) :
    ∃ s', onAgentEntered env s peerId agentName ipAddress hostname commandLine canBeFrozen loggerPort
        = some s' ∧
      ((peerId = "" ∨ agentName = "" ∨ ipAddress = "") → s' = s) ∧
      (peerId ≠ "" ∧ agentName ≠ "" ∧ ipAddress ≠ "" →
        (∀ agent, getAgentModelFromPeerId s peerId = some agent →
          ∃ a, Heap.deref s.agents agent = some a ∧
            s'.agents = Heap.store s.agents agent
              { a with canBeFrozen := canBeFrozen, loggerPort := loggerPort, isON := true } ∧
            Heap.count s'.agents = Heap.count s.agents ∧
            getAgentModelFromPeerId s' peerId = some agent) ∧
        (getAgentModelFromPeerId s peerId = none →
          s'.agents = s.agents ++
            [some { name := agentName, peerId := peerId, address := ipAddress,
                    hostname := hostname, commandLine := commandLine, isON := true,
                    canBeFrozen := canBeFrozen, loggerPort := loggerPort,
                    canBeRestarted :=
                      decide (hostname ≠ "" ∧ commandLine ≠ "" ∧ env.getHostWithName hostname = true) }] ∧
          Heap.count s'.agents = Heap.count s.agents + 1 ∧
          getAgentModelFromPeerId s' peerId = some (Heap.fresh s.agents))) := by
  by_cases hne : peerId ≠ "" ∧ agentName ≠ "" ∧ ipAddress ≠ ""
  · have hno : ¬ (peerId = "" ∨ agentName = "" ∨ ipAddress = "") := by
      rintro (h | h | h)
      · exact hne.1 h
      · exact hne.2.1 h
      · exact hne.2.2 h
    cases hget : getAgentModelFromPeerId s peerId with
    | some agent =>
      have hfind := hget
      rw [editor_getAgentModelFromPeerId_eq] at hfind
      obtain ⟨a, ha, hadef⟩ := hs.1 peerId agent hfind
      have hres : ∃ s', onAgentEntered env s peerId agentName ipAddress hostname commandLine
            canBeFrozen loggerPort = some s' ∧
          s'.agents = Heap.store s.agents agent
            { a with canBeFrozen := canBeFrozen, loggerPort := loggerPort, isON := true } ∧
          s'.mapFromPeerIdToAgentM = s.mapFromPeerIdToAgentM := by
        unfold onAgentEntered
        rw [if_pos hne]
        simp only [hget, ha]
        cases hdef : a.definition with
        | none => exact ⟨_, rfl, rfl, rfl⟩
        | some d =>
          obtain ⟨dd, hdd⟩ := Option.isSome_iff_exists.mp (hadef d hdef)
          simp only [hdd]
          split_ifs
          · exact ⟨_, rfl, rfl, rfl⟩
          · exact ⟨_, rfl, rfl, rfl⟩
      obtain ⟨s', hrun, hag, hmap⟩ := hres
      refine ⟨s', hrun, fun h => absurd h hno, fun _ => ⟨?_, fun h => by simp at h⟩⟩
      intro agent' hag'
      simp only [Option.some.injEq] at hag'
      subst hag'
      refine ⟨a, ha, hag, ?_, ?_⟩
      · rw [hag]; exact Heap.count_set_some _ _ _ (by simp [ha])
      · rw [editor_getAgentModelFromPeerId_eq, hmap]; exact hfind
    | none =>
      have hfind := hget
      rw [editor_getAgentModelFromPeerId_eq] at hfind
      obtain ⟨a, ha⟩ : ∃ a : AgentM, a =
          { name := agentName, peerId := peerId, address := ipAddress,
            hostname := hostname, commandLine := commandLine, isON := true,
            canBeFrozen := canBeFrozen, loggerPort := loggerPort,
            canBeRestarted :=
              decide (hostname ≠ "" ∧ commandLine ≠ "" ∧ env.getHostWithName hostname = true) } :=
        ⟨_, rfl⟩
      have hrec : ({ (if hostname ≠ "" ∧ commandLine ≠ "" ∧ env.getHostWithName hostname = true then
            ({ name := agentName, peerId := peerId, address := ipAddress, hostname := hostname,
               commandLine := commandLine, canBeRestarted := true } : AgentM)
          else { name := agentName, peerId := peerId, address := ipAddress, hostname := hostname,
                 commandLine := commandLine }) with
          canBeFrozen := canBeFrozen, loggerPort := loggerPort, isON := true } : AgentM) = a := by
        rw [ha]
        split_ifs with h
        · simp [h]
        · simp [h]
      obtain ⟨s2, hadd, h2a, _, _, h2g, h2n, _, h2h⟩ := addAgentModel_spec
        ({ s with agents := Heap.alloc s.agents a } : State) (Heap.fresh s.agents) a
        (Heap.deref_alloc_fresh _ _)
      have hpid : a.peerId = peerId := by rw [ha]
      rw [hpid, if_pos hne.1] at h2h
      have hfinal : ∃ s', onAgentEntered env s peerId agentName ipAddress hostname commandLine
            canBeFrozen loggerPort = some s' ∧ s'.agents = Heap.alloc s.agents a ∧
          s'.mapFromPeerIdToAgentM = QHash.insert s.mapFromPeerIdToAgentM peerId (Heap.fresh s.agents) := by
        unfold onAgentEntered
        rw [if_pos hne]
        simp only [hget, hrec, hadd, editor_getAgentsGroupedForName_eq, h2n]
        cases hgrp : QHash.find s.hashFromNameToAgentsGrouped agentName with
        | some g =>
          obtain ⟨vm, _, hm⟩ := manageNewModel_spec s2 g (Heap.fresh s.agents)
            (by rw [h2g]; exact hs.2 agentName g hgrp)
          simp only [hm]
          exact ⟨_, rfl, h2a, h2h⟩
        | none =>
          simp only [_saveNewAgentsGroupedByName, Heap.deref_alloc_fresh, hne.2.1, ne_eq,
            not_false_eq_true, if_true, manageNewModel, emit, Heap.deref_alloc_fresh]
          exact ⟨_, rfl, h2a, h2h⟩
      obtain ⟨s', hrun, hag, hmap⟩ := hfinal
      refine ⟨s', hrun, fun h => absurd h hno, fun _ => ⟨fun agent h => by simp at h, fun _ => ?_⟩⟩
      refine ⟨by rw [hag, ha]; rfl, by rw [hag]; exact Heap.count_alloc _ _, ?_⟩
      rw [editor_getAgentModelFromPeerId_eq, hmap, QHash.find_insert]
      simp
  · refine ⟨s, ?_, fun _ => rfl, fun h => absurd h hne⟩
    unfold onAgentEntered
    rw [if_neg hne]

end Editor

end Ingescape

namespace Ingescape

/-- What `onAgentEntered` does in the three model managers (Common, Editor, MASTIC) on a
directory whose registered pointers are live: it returns; with three non-empty strings, when an
agent is registered under `peerId` no record is created and that same record stays registered,
keeps its name and is marked ON, otherwise exactly one record with that peer id and name is
appended, marked ON and registered under `peerId`; with an empty string the state is
unchanged. -/
theorem onAgentEntered_creates_or_revives :
    (∀ (s : Common.State) (peerId agentName ipAddress hostname commandLine : String)
        (canBeFrozen : Bool) (loggerPort : String), Common.Live s →
      ∃ s', Common.onAgentEntered s peerId agentName ipAddress hostname commandLine canBeFrozen
          loggerPort = some s' ∧
        ((peerId = "" ∨ agentName = "" ∨ ipAddress = "") → s' = s) ∧
        (peerId ≠ "" ∧ agentName ≠ "" ∧ ipAddress ≠ "" →
          (∀ agent, Common.getAgentModelFromPeerId s peerId = some agent →
            ∃ a, Heap.deref s.agents agent = some a ∧
              s'.agents.length = s.agents.length ∧ Heap.count s'.agents = Heap.count s.agents ∧
              Common.getAgentModelFromPeerId s' peerId = some agent ∧
              Heap.deref s'.agents agent = some
                { a with canBeFrozen := canBeFrozen, loggerPort := loggerPort, isON := true }) ∧
          (Common.getAgentModelFromPeerId s peerId = none →
            s'.agents = s.agents ++
              [some { name := agentName, peerId := peerId, address := ipAddress,
                      hostname := hostname, commandLine := commandLine, isON := true,
                      canBeFrozen := canBeFrozen, loggerPort := loggerPort }] ∧
            Heap.count s'.agents = Heap.count s.agents + 1 ∧
            Common.getAgentModelFromPeerId s' peerId = some (Heap.fresh s.agents)))) ∧
    (∀ (env : Editor.Env) (s : Editor.State)
        (peerId agentName ipAddress hostname commandLine : String)
        (canBeFrozen : Bool) (loggerPort : String), Editor.Live s →
      ∃ s', Editor.onAgentEntered env s peerId agentName ipAddress hostname commandLine canBeFrozen
          loggerPort = some s' ∧
        ((peerId = "" ∨ agentName = "" ∨ ipAddress = "") → s' = s) ∧
        (peerId ≠ "" ∧ agentName ≠ "" ∧ ipAddress ≠ "" →
          (∀ agent, Editor.getAgentModelFromPeerId s peerId = some agent →
            ∃ a, Heap.deref s.agents agent = some a ∧
              s'.agents.length = s.agents.length ∧ Heap.count s'.agents = Heap.count s.agents ∧
              Editor.getAgentModelFromPeerId s' peerId = some agent ∧
              Heap.deref s'.agents agent = some
                { a with canBeFrozen := canBeFrozen, loggerPort := loggerPort, isON := true }) ∧
          (Editor.getAgentModelFromPeerId s peerId = none →
            s'.agents = s.agents ++
              [some { name := agentName, peerId := peerId, address := ipAddress,
                      hostname := hostname, commandLine := commandLine, isON := true,
                      canBeFrozen := canBeFrozen, loggerPort := loggerPort,
                      canBeRestarted :=
                        decide (hostname ≠ "" ∧ commandLine ≠ "" ∧ env.getHostWithName hostname = true) }] ∧
            Heap.count s'.agents = Heap.count s.agents + 1 ∧
            Editor.getAgentModelFromPeerId s' peerId = some (Heap.fresh s.agents)))) ∧
    (∀ (s : Mastic.State) (peerId agentName agentAddress : String) (pid : Int)
        (hostname executionPath : String) (canBeFrozen : Bool), Mastic.Live s →
      ∃ s', Mastic.onAgentEntered s peerId agentName agentAddress pid hostname executionPath
          canBeFrozen = some s' ∧
        ((peerId = "" ∨ agentName = "" ∨ agentAddress = "") → s' = s) ∧
        (peerId ≠ "" ∧ agentName ≠ "" ∧ agentAddress ≠ "" →
          (∀ agent, Mastic.getAgentModelFromPeerId s peerId = some agent →
            ∃ a, Heap.deref s.agents agent = some a ∧
              s'.agents.length = s.agents.length ∧ Heap.count s'.agents = Heap.count s.agents ∧
              Mastic.getAgentModelFromPeerId s' peerId = some agent ∧
              Heap.deref s'.agents agent = some { a with status := Mastic.AgentStatus.ON }) ∧
          (Mastic.getAgentModelFromPeerId s peerId = none →
            s'.agents = s.agents ++
              [some { name := agentName, peerId := peerId, address := agentAddress,
                      hostname := hostname, executionPath := executionPath, pid := pid,
                      canBeFrozen := canBeFrozen, status := Mastic.AgentStatus.ON }] ∧
            Heap.count s'.agents = Heap.count s.agents + 1 ∧
            Mastic.getAgentModelFromPeerId s' peerId = some (Heap.fresh s.agents)))) := by
  refine ⟨?_, ?_, ?_⟩
  · intro s peerId agentName ipAddress hostname commandLine canBeFrozen loggerPort hs
    obtain ⟨s', hrun, hempty, hfull⟩ := Common.common_onAgentEntered_spec s peerId agentName ipAddress
      hostname commandLine canBeFrozen loggerPort hs
    refine ⟨s', hrun, hempty, fun hne => ⟨?_, (hfull hne).2⟩⟩
    intro agent hag
    obtain ⟨a, ha, hst, hcount, hreg⟩ := (hfull hne).1 agent hag
    refine ⟨a, ha, by rw [hst]; simp, hcount, hreg, ?_⟩
    rw [hst]; exact Heap.deref_store_self _ (by simp [ha])
  · intro env s peerId agentName ipAddress hostname commandLine canBeFrozen loggerPort hs
    obtain ⟨s', hrun, hempty, hfull⟩ := Editor.editor_onAgentEntered_spec env s peerId agentName ipAddress
      hostname commandLine canBeFrozen loggerPort hs
    refine ⟨s', hrun, hempty, fun hne => ⟨?_, (hfull hne).2⟩⟩
    intro agent hag
    obtain ⟨a, ha, hst, hcount, hreg⟩ := (hfull hne).1 agent hag
    refine ⟨a, ha, by rw [hst]; simp, hcount, hreg, ?_⟩
    rw [hst]; exact Heap.deref_store_self _ (by simp [ha])
  · intro s peerId agentName agentAddress pid hostname executionPath canBeFrozen hs
    obtain ⟨s', hrun, hempty, hfull⟩ := Mastic.mastic_onAgentEntered_spec s peerId agentName agentAddress
      pid hostname executionPath canBeFrozen hs
    refine ⟨s', hrun, hempty, fun hne => ⟨?_, (hfull hne).2⟩⟩
    intro agent hag
    obtain ⟨a, ha, hst, hcount, hreg, hd⟩ := (hfull hne).1 agent hag
    exact ⟨a, ha, by rw [hst]; simp, hcount, hreg, hd⟩

/-- An instance: a camera enters an empty Common directory, and a registered camera enters
again. -/
theorem onAgentEntered_creates_or_revives_witness :
    (∃ s', Common.onAgentEntered {} "peer-1" "camera" "10.0.0.7" "host" "cam --run" false "" = some s' ∧
      s'.agents = [some { name := "camera", peerId := "peer-1", address := "10.0.0.7",
                          hostname := "host", commandLine := "cam --run", isON := true }] ∧
      Common.getAgentModelFromPeerId s' "peer-1" = some 0) ∧
    (∃ s', Common.onAgentEntered
        { agents := [some { name := "camera", peerId := "peer-1", address := "10.0.0.7" }]
          hashFromPeerIdToAgent := [("peer-1", 0)] }
        "peer-1" "camera" "10.0.0.7" "host" "cam --run" true "5670" = some s' ∧
      Heap.count s'.agents = 1 ∧
      Heap.deref s'.agents 0 = some { name := "camera", peerId := "peer-1", address := "10.0.0.7",
                                      isON := true, canBeFrozen := true, loggerPort := "5670" }) := by
  constructor
  · obtain ⟨s', hrun, _, hfull⟩ := onAgentEntered_creates_or_revives.1 {} "peer-1" "camera"
      "10.0.0.7" "host" "cam --run" false ""
      ⟨fun p a h => by simp [QHash.find] at h, fun n g h => by simp [QHash.find] at h⟩
    obtain ⟨hag, _, hreg⟩ := (hfull (by decide)).2 (by decide)
    exact ⟨s', hrun, hag, hreg⟩
  · obtain ⟨s', hrun, _, hfull⟩ := onAgentEntered_creates_or_revives.1
      { agents := [some { name := "camera", peerId := "peer-1", address := "10.0.0.7" }]
        hashFromPeerIdToAgent := [("peer-1", 0)] }
      "peer-1" "camera" "10.0.0.7" "host" "cam --run" true "5670"
      ⟨fun p a h => by
          simp only [QHash.find] at h
          split_ifs at h
          simp only [Option.some.injEq] at h
          subst h
          rfl,
        fun n g h => by simp [QHash.find] at h⟩
    obtain ⟨a, ha, _, hcount, _, hd⟩ := (hfull (by decide)).1 0 (by decide)
    have ha' : a = { name := "camera", peerId := "peer-1", address := "10.0.0.7" } := by
      have h0 : Heap.deref ([some { name := "camera", peerId := "peer-1", address := "10.0.0.7" }] :
          Heap AgentM) 0 = some { name := "camera", peerId := "peer-1", address := "10.0.0.7" } := rfl
      exact (Option.some.inj (ha.symm.trans h0))
    subst ha'
    exact ⟨s', hrun, by rw [hcount]; decide, hd⟩

end Ingescape

namespace Ingescape

/-- What `onAgentExited` does in the Common and MASTIC managers on a directory whose
registered pointers are live: it returns; for a registered peer id it only sets the ON flag of
that agent to false: the record is still the one returned by `getAgentModelFromPeerId`, its
definition and mapping pointers and all definition and mapping objects are unchanged, and the
number of records is unchanged; for an unregistered peer id the whole state is unchanged. -/
theorem onAgentExited_marks_off :
    (∀ (s : Common.State) (peerId agentName : String), Common.Live s →
      ∃ s', Common.onAgentExited s peerId agentName = some s' ∧
        (∀ agent, Common.getAgentModelFromPeerId s peerId = some agent →
          ∃ a, Heap.deref s.agents agent = some a ∧
            s' = { s with agents := Heap.store s.agents agent { a with isON := false } } ∧
            Heap.deref s'.agents agent = some { a with isON := false } ∧
            Common.getAgentModelFromPeerId s' peerId = some agent ∧
            s'.definitions = s.definitions ∧ s'.mappings = s.mappings ∧
            s'.agents.length = s.agents.length ∧ Heap.count s'.agents = Heap.count s.agents) ∧
        (Common.getAgentModelFromPeerId s peerId = none → s' = s)) ∧
    (∀ (s : Mastic.State) (peerId agentName : String), Mastic.Live s →
      ∃ s', Mastic.onAgentExited s peerId agentName = some s' ∧
        (∀ agent, Mastic.getAgentModelFromPeerId s peerId = some agent →
          ∃ a, Heap.deref s.agents agent = some a ∧
            s' = { s with agents := Heap.store s.agents agent { a with status := Mastic.AgentStatus.OFF } } ∧
            Heap.deref s'.agents agent = some { a with status := Mastic.AgentStatus.OFF } ∧
            Mastic.getAgentModelFromPeerId s' peerId = some agent ∧
            s'.definitions = s.definitions ∧ s'.mappings = s.mappings ∧
            s'.mapFromNameToAgentDefinitionsList = s.mapFromNameToAgentDefinitionsList ∧
            s'.mapFromNameToAgentMappingsList = s.mapFromNameToAgentMappingsList ∧
            s'.agents.length = s.agents.length ∧ Heap.count s'.agents = Heap.count s.agents) ∧
        (Mastic.getAgentModelFromPeerId s peerId = none → s' = s)) := by
  constructor
  · intro s peerId agentName hs
    cases hget : Common.getAgentModelFromPeerId s peerId with
    | none =>
      refine ⟨s, ?_, fun agent h => by simp at h, fun _ => rfl⟩
      simp [Common.onAgentExited, hget]
    | some agent =>
      have hfind := hget
      rw [Common.common_getAgentModelFromPeerId_eq] at hfind
      obtain ⟨a, ha⟩ := Option.isSome_iff_exists.mp (hs.1 peerId agent hfind)
      refine ⟨{ s with agents := Heap.store s.agents agent { a with isON := false } }, ?_, ?_, fun h => by simp at h⟩
      · simp only [Common.onAgentExited, hget, ha]
      · intro agent' hag
        simp only [Option.some.injEq] at hag
        subst hag
        exact ⟨a, ha, rfl, Heap.deref_store_self _ (by simp [ha]), hget, rfl, rfl,
          Heap.length_store _ _ _, Heap.count_set_some _ _ _ (by simp [ha])⟩
  · intro s peerId agentName hs
    cases hget : Mastic.getAgentModelFromPeerId s peerId with
    | none =>
      refine ⟨s, ?_, fun agent h => by simp at h, fun _ => rfl⟩
      simp [Mastic.onAgentExited, hget]
    | some agent =>
      have hfind := hget
      rw [Mastic.mastic_getAgentModelFromPeerId_eq] at hfind
      obtain ⟨a, ha⟩ := Option.isSome_iff_exists.mp (hs peerId agent hfind)
      refine ⟨{ s with agents := Heap.store s.agents agent { a with status := Mastic.AgentStatus.OFF } }, ?_, ?_, fun h => by simp at h⟩
      · simp only [Mastic.onAgentExited, hget, ha]
      · intro agent' hag
        simp only [Option.some.injEq] at hag
        subst hag
        exact ⟨a, ha, rfl, Heap.deref_store_self _ (by simp [ha]), hget, rfl, rfl, rfl, rfl,
          Heap.length_store _ _ _, Heap.count_set_some _ _ _ (by simp [ha])⟩

/-- An instance: a registered camera with a definition and a mapping exits. -/
theorem onAgentExited_marks_off_witness :
    ∃ s', Common.onAgentExited
        { agents := [some { name := "camera", peerId := "peer-1", address := "10.0.0.7",
                            isON := true, definition := some 0, mapping := some 0 }]
          definitions := [some { name := "camera" }]
          mappings := [some { name := "camera" }]
          hashFromPeerIdToAgent := [("peer-1", 0)] }
        "peer-1" "camera" = some s' ∧
      Heap.deref s'.agents 0 = some { name := "camera", peerId := "peer-1", address := "10.0.0.7",
                                      isON := false, definition := some 0, mapping := some 0 } ∧
      Common.getAgentModelFromPeerId s' "peer-1" = some 0 ∧ Heap.count s'.agents = 1 := by
  obtain ⟨s', hrun, hreg, _⟩ := onAgentExited_marks_off.1
    { agents := [some { name := "camera", peerId := "peer-1", address := "10.0.0.7",
                        isON := true, definition := some 0, mapping := some 0 }]
      definitions := [some { name := "camera" }]
      mappings := [some { name := "camera" }]
      hashFromPeerIdToAgent := [("peer-1", 0)] }
    "peer-1" "camera"
    ⟨fun p a h => by
        simp only [QHash.find] at h
        split_ifs at h
        simp only [Option.some.injEq] at h
        subst h
        rfl,
      fun n g h => by simp [QHash.find] at h⟩
  obtain ⟨a, ha, _, hd, hget, _, _, _, hcount⟩ := hreg 0 (by decide)
  have ha' : a = { name := "camera", peerId := "peer-1", address := "10.0.0.7",
                   isON := true, definition := some 0, mapping := some 0 } := by
    have h0 : Heap.deref ([some { name := "camera", peerId := "peer-1", address := "10.0.0.7", isON := true, definition := some 0, mapping := some 0 }] : Heap AgentM) 0 =
        some { name := "camera", peerId := "peer-1", address := "10.0.0.7", isON := true, definition := some 0, mapping := some 0 } := rfl
    exact (Option.some.inj (ha.symm.trans h0))
  subst ha'
  exact ⟨s', hrun, hd, hget, by rw [hcount]; decide⟩

end Ingescape

namespace Ingescape

theorem Common.cameraState_live : Common.Live Common.cameraState := by
  refine ⟨fun p a h => ?_, fun n g h => by simp [Common.cameraState, QHash.find] at h⟩
  simp only [Common.cameraState, QHash.find] at h
  split_ifs at h
  simp only [Option.some.injEq] at h
  subst h
  rfl

/-- C7: when the payload is empty, or the JSON helper returns null for it, the Common and
the Editor `onDefinitionReceived` return the state as it was: the definition of the agent is
unchanged and nothing is emitted; likewise `onMappingReceived` with a non-empty payload that
the helper rejects returns the state as it was: the mapping is unchanged and no `mapped` or
`unmapped` is emitted. -/
theorem rejected_payload_keeps_state :
    (∀ (env : Common.Env) (s : Common.State) (peerId agentName definitionJSON : String),
      Common.Live s →
      (definitionJSON = "" ∨
        ∀ h, env.jsonHelper = some h → h.createModelOfAgentDefinitionFromBytes definitionJSON = none) →
      Common.onDefinitionReceived env s peerId agentName definitionJSON = some s) ∧
    (∀ (env : Common.Env) (s : Common.State) (peerId agentName mappingJSON : String),
      Common.Live s → mappingJSON ≠ "" →
      (∀ h, env.jsonHelper = some h → h.createModelOfAgentMappingFromBytes agentName mappingJSON = none) →
      Common.onMappingReceived env s peerId agentName mappingJSON = some s) ∧
    (∀ (env : Editor.Env) (s : Editor.State) (peerId agentName definitionJSON : String),
      (definitionJSON = "" ∨
        ∀ h, env.jsonHelper = some h → h.createModelOfAgentDefinitionFromBytes definitionJSON = none) →
      Editor.onDefinitionReceived env s peerId agentName definitionJSON = some s) ∧
    (∀ (env : Editor.Env) (s : Editor.State) (peerId agentName mappingJSON : String),
      mappingJSON ≠ "" →
      (∀ h, env.jsonHelper = some h → h.createModelOfAgentMappingFromBytes agentName mappingJSON = none) →
      Editor.onMappingReceived env s peerId agentName mappingJSON = some s) := by
  refine ⟨?_, ?_, ?_, ?_⟩
  · intro env s peerId agentName definitionJSON hs hrej
    unfold Common.onDefinitionReceived
    cases hget : Common.getAgentModelFromPeerId s peerId with
    | none => rfl
    | some agent =>
      cases hh : env.jsonHelper with
      | none => rfl
      | some h =>
        simp only
        split_ifs with hj
        · rw [Common.common_getAgentModelFromPeerId_eq] at hget
          obtain ⟨a, ha⟩ := Option.isSome_iff_exists.mp (hs.1 peerId agent hget)
          rcases hrej with h0 | hnone
          · exact absurd h0 hj
          · simp only [ha, hnone h hh]
        · rfl
  · intro env s peerId agentName mappingJSON hs hj hrej
    unfold Common.onMappingReceived
    cases hget : Common.getAgentModelFromPeerId s peerId with
    | none => rfl
    | some agent =>
      cases hh : env.jsonHelper with
      | none => rfl
      | some h =>
        rw [Common.common_getAgentModelFromPeerId_eq] at hget
        obtain ⟨a, ha⟩ := Option.isSome_iff_exists.mp (hs.1 peerId agent hget)
        simp only [ha, if_neg hj, hrej h hh]
  · intro env s peerId agentName definitionJSON hrej
    unfold Editor.onDefinitionReceived
    cases hh : env.jsonHelper with
    | none => rfl
    | some h =>
      simp only
      split_ifs with hj
      · cases hget : Editor.getAgentModelFromPeerId s peerId with
        | none => rfl
        | some agent =>
          rcases hrej with h0 | hnone
          · exact absurd h0 hj
          · simp only [hnone h hh]
      · rfl
  · intro env s peerId agentName mappingJSON hj hrej
    unfold Editor.onMappingReceived
    cases hget : Editor.getAgentModelFromPeerId s peerId with
    | none => rfl
    | some agent =>
      cases hh : env.jsonHelper with
      | none => rfl
      | some h =>
        simp only [if_neg hj, hrej h hh]

/-- Witness of C7: the registered camera receives a definition that the helper rejects. -/
theorem rejected_payload_keeps_state_witness :
    Common.onDefinitionReceived
      { jsonHelper := some rejectingHelper, VERSION_JSON_PLATFORM := "1.0", defaultHostname := "" }
      Common.cameraState "peer-1" "camera" "not a definition" = some Common.cameraState ∧
    Editor.onMappingReceived { jsonHelper := some rejectingHelper, getHostWithName := fun _ => false }
      Editor.cameraState "peer-1" "camera" "not a mapping" = some Editor.cameraState :=
  ⟨rejected_payload_keeps_state.1
      { jsonHelper := some rejectingHelper, VERSION_JSON_PLATFORM := "1.0", defaultHostname := "" }
      Common.cameraState "peer-1" "camera" "not a definition" Common.cameraState_live
      (Or.inr (fun h hh => by
        simp only [Option.some.injEq] at hh
        subst hh
        rfl)),
   rejected_payload_keeps_state.2.2.2
      { jsonHelper := some rejectingHelper, getHostWithName := fun _ => false }
      Editor.cameraState "peer-1" "camera" "not a mapping" (by decide)
      (fun h hh => by
        simp only [Option.some.injEq] at hh
        subst hh
        rfl)⟩

end Ingescape

namespace Ingescape

namespace Editor

theorem outputNotIn_iff (ids : List String) (output : Option OutputM) :
    outputNotIn ids output = true ↔ ∃ o, output = some o ∧ o.id ≠ "" ∧ o.id ∉ ids := by
  cases output with
  | none => simp [outputNotIn]
  | some o => simp [outputNotIn]

theorem emit_log (s : State) (sig : Signal) : (emit s sig).log = s.log ++ [(sig, s.toDir)] := rfl

theorem emit_toDir (s : State) (sig : Signal) : (emit s sig).toDir = s.toDir := rfl

/-- Closed form of `onDefinitionReceived` when the agent has no definition yet. -/
theorem onDefinitionReceived_first (env : Env) (jsonHelper : JsonHelper) (s : State)
    (peerId agentName definitionJSON : String) (agent : Nat) (a : AgentM) (newDef : DefinitionM)
    (hh : env.jsonHelper = some jsonHelper) (hj : definitionJSON ≠ "")
    (hget : getAgentModelFromPeerId s peerId = some agent)
    (ha : Heap.deref s.agents agent = some a)
    (hparse : jsonHelper.createModelOfAgentDefinitionFromBytes definitionJSON = some newDef)
    (hnone : a.definition = none) :
    ∃ s', onDefinitionReceived env s peerId agentName definitionJSON = some s' ∧
      s'.toDir = { s.toDir with
        definitions := Heap.alloc s.definitions newDef
        agents := Heap.store s.agents agent { a with definition := some (Heap.fresh s.definitions) } } ∧
      s'.log = s.log ++
        (if newDef.outputsList.isEmpty then []
         else [(Signal.addInputsToEditorForOutputs agentName newDef.outputsList, s'.toDir)]) ++
        [(Signal.activeAgentDefined agent, s'.toDir)] := by
  unfold onDefinitionReceived
  simp only [hh, if_pos hj, hget, hparse, ha, hnone]
  by_cases hout : newDef.outputsList.isEmpty = true
  · simp only [hout, not_true_eq_false, if_false, if_true]
    exact ⟨_, rfl, rfl, by simp [emit]⟩
  · simp only [hout, Bool.false_eq_true, not_false_eq_true, if_true, if_false]
    exact ⟨_, rfl, rfl, by simp [emit]⟩

/-- Closed form of `onDefinitionReceived` when the agent already has a definition: the
signals with the directory that each of them observes. -/
theorem onDefinitionReceived_update (env : Env) (jsonHelper : JsonHelper) (s : State)
    (peerId agentName definitionJSON : String) (agent : Nat) (a : AgentM) (newDef : DefinitionM)
    (previousDefinition : Nat) (prev : DefinitionM)
    (hh : env.jsonHelper = some jsonHelper) (hj : definitionJSON ≠ "")
    (hget : getAgentModelFromPeerId s peerId = some agent)
    (ha : Heap.deref s.agents agent = some a)
    (hparse : jsonHelper.createModelOfAgentDefinitionFromBytes definitionJSON = some newDef)
    (hsome : a.definition = some previousDefinition)
    (hprev : Heap.deref s.definitions previousDefinition = some prev) :
    ∃ s', onDefinitionReceived env s peerId agentName definitionJSON = some s' ∧
      s'.toDir = { s.toDir with
        definitions := Heap.free (Heap.alloc s.definitions newDef) previousDefinition
        agents := Heap.store s.agents agent { a with definition := some (Heap.fresh s.definitions) } } ∧
      s'.log = s.log ++
        (if (prev.outputsList.filter (outputNotIn newDef.outputsIdsList)).isEmpty then []
         else [(Signal.removeInputsToEditorForOutputs agentName
                  (prev.outputsList.filter (outputNotIn newDef.outputsIdsList)),
                { s.toDir with definitions := Heap.alloc s.definitions newDef })]) ++
        (if (newDef.outputsList.filter (outputNotIn prev.outputsIdsList)).isEmpty then []
         else [(Signal.addInputsToEditorForOutputs agentName
                  (newDef.outputsList.filter (outputNotIn prev.outputsIdsList)),
                { s.toDir with
                  definitions := Heap.alloc s.definitions newDef
                  agents := Heap.store s.agents agent
                    { a with definition := some (Heap.fresh s.definitions) } })]) ++
        [(Signal.activeAgentDefined agent, s'.toDir)] := by
  have hprev1 := Heap.deref_alloc_of_some newDef hprev
  unfold onDefinitionReceived
  simp only [hh, if_pos hj, hget, hparse, ha, hsome, hprev1, Heap.delete]
  by_cases hrem : (prev.outputsList.filter (outputNotIn newDef.outputsIdsList)).isEmpty = true <;>
    by_cases hadd : (newDef.outputsList.filter (outputNotIn prev.outputsIdsList)).isEmpty = true <;>
    simp only [hrem, hadd, Bool.false_eq_true, not_true_eq_false, not_false_eq_true, if_false, if_true, emit, hprev1] <;>
    exact ⟨_, rfl, rfl, by simp⟩

end Editor

end Ingescape

namespace Ingescape

namespace Editor

/-- C8: in the Editor `onDefinitionReceived` with a payload that the helper parses, for a live
registered agent.  With a previous definition, the signals emitted are, in this order:
`removeInputsToEditorForOutputs` with the outputs of the previous definition that have a
non-empty id not in the `outputsIdsList` of the new one (in definition order), when there is
one; `addInputsToEditorForOutputs` with the outputs of the new definition that have a non-empty
id not in the `outputsIdsList` of the previous one, when there is one; `activeAgentDefined`.
When each definition lists the ids of the outputs of the other, neither notification is
emitted.  Without previous definition, all outputs of the new definition are reported added,
when there is at least one. -/
theorem onDefinitionReceived_reports_output_diff (env : Env) (jsonHelper : JsonHelper) (s : State)
    (peerId agentName definitionJSON : String) (agent : Nat) (a : AgentM) (newDef : DefinitionM)
    (hh : env.jsonHelper = some jsonHelper) (hj : definitionJSON ≠ "")
    (hget : getAgentModelFromPeerId s peerId = some agent)
    (ha : Heap.deref s.agents agent = some a)
    (hparse : jsonHelper.createModelOfAgentDefinitionFromBytes definitionJSON = some newDef) :
    (∀ ids output, outputNotIn ids output = true ↔ ∃ o, output = some o ∧ o.id ≠ "" ∧ o.id ∉ ids) ∧
    (∀ previousDefinition prev, a.definition = some previousDefinition →
      Heap.deref s.definitions previousDefinition = some prev →
      ∃ s', onDefinitionReceived env s peerId agentName definitionJSON = some s' ∧
        s'.log.map Prod.fst = s.log.map Prod.fst ++
          (if prev.outputsList.filter (outputNotIn newDef.outputsIdsList) = [] then []
           else [Signal.removeInputsToEditorForOutputs agentName
                  (prev.outputsList.filter (outputNotIn newDef.outputsIdsList))]) ++
          (if newDef.outputsList.filter (outputNotIn prev.outputsIdsList) = [] then []
           else [Signal.addInputsToEditorForOutputs agentName
                  (newDef.outputsList.filter (outputNotIn prev.outputsIdsList))]) ++
          [Signal.activeAgentDefined agent] ∧
        ((∀ o, some o ∈ prev.outputsList → o.id ∈ newDef.outputsIdsList) →
          (∀ o, some o ∈ newDef.outputsList → o.id ∈ prev.outputsIdsList) →
          s'.log.map Prod.fst = s.log.map Prod.fst ++ [Signal.activeAgentDefined agent])) ∧
    (a.definition = none →
      ∃ s', onDefinitionReceived env s peerId agentName definitionJSON = some s' ∧
        s'.log.map Prod.fst = s.log.map Prod.fst ++
          (if newDef.outputsList = [] then []
           else [Signal.addInputsToEditorForOutputs agentName newDef.outputsList]) ++
          [Signal.activeAgentDefined agent]) := by
  refine ⟨outputNotIn_iff, ?_, ?_⟩
  · intro previousDefinition prev hsome hprev
    obtain ⟨s', hrun, _, hlog⟩ := onDefinitionReceived_update env jsonHelper s peerId agentName
      definitionJSON agent a newDef previousDefinition prev hh hj hget ha hparse hsome hprev
    have hsig : s'.log.map Prod.fst = s.log.map Prod.fst ++
          (if prev.outputsList.filter (outputNotIn newDef.outputsIdsList) = [] then []
           else [Signal.removeInputsToEditorForOutputs agentName
                  (prev.outputsList.filter (outputNotIn newDef.outputsIdsList))]) ++
          (if newDef.outputsList.filter (outputNotIn prev.outputsIdsList) = [] then []
           else [Signal.addInputsToEditorForOutputs agentName
                  (newDef.outputsList.filter (outputNotIn prev.outputsIdsList))]) ++
          [Signal.activeAgentDefined agent] := by
      rw [hlog]
      simp only [List.isEmpty_iff, List.map_append, List.map_cons, List.map_nil]
      congr 2
      · congr 1
        split_ifs <;> rfl
      · split_ifs <;> rfl
    refine ⟨s', hrun, hsig, ?_⟩
    intro h1 h2
    have hrem : prev.outputsList.filter (outputNotIn newDef.outputsIdsList) = [] := by
      rw [List.filter_eq_nil_iff]
      intro o ho hnot
      obtain ⟨x, hx, _, hxn⟩ := (outputNotIn_iff _ _).mp hnot
      subst hx
      exact hxn (h1 x ho)
    have hadd : newDef.outputsList.filter (outputNotIn prev.outputsIdsList) = [] := by
      rw [List.filter_eq_nil_iff]
      intro o ho hnot
      obtain ⟨x, hx, _, hxn⟩ := (outputNotIn_iff _ _).mp hnot
      subst hx
      exact hxn (h2 x ho)
    rw [hsig, hrem, hadd]
    simp
  · intro hnone
    obtain ⟨s', hrun, _, hlog⟩ := onDefinitionReceived_first env jsonHelper s peerId agentName
      definitionJSON agent a newDef hh hj hget ha hparse hnone
    refine ⟨s', hrun, ?_⟩
    rw [hlog]
    simp only [List.isEmpty_iff, List.map_append, List.map_cons, List.map_nil]
    congr 2
    split_ifs <;> rfl

/-- Witness of C8: the camera whose definition has the output "image" receives a definition
whose only output is "depth". -/
theorem onDefinitionReceived_reports_output_diff_witness :
    ∃ s', onDefinitionReceived depthEnv cameraState "peer-1" "camera" "{depth}" = some s' ∧
      s'.log.map Prod.fst =
        [Signal.removeInputsToEditorForOutputs "camera" [some { id := "image" }],
         Signal.addInputsToEditorForOutputs "camera" [some { id := "depth" }],
         Signal.activeAgentDefined 0] := by
  obtain ⟨s', hrun, hsig, _⟩ := (onDefinitionReceived_reports_output_diff depthEnv depthHelper
    cameraState "peer-1" "camera" "{depth}" 0
    { name := "camera", peerId := "peer-1", address := "10.0.0.7", isON := true,
      definition := some 0, mapping := some 0 }
    { name := "camera", outputsList := [some { id := "depth" }], outputsIdsList := ["depth"] }
    rfl (by decide) (by decide) rfl rfl).2.1 0
    { name := "camera", outputsList := [some { id := "image" }], outputsIdsList := ["image"] }
    rfl rfl
  exact ⟨s', hrun, hsig.trans (by decide)⟩

end Editor

end Ingescape

namespace Ingescape

namespace Editor

theorem emitAll_toDir (mk : ElementMappingM → Signal) (elements : List ElementMappingM) :
    ∀ s : State, (emitAll s mk elements).toDir = s.toDir := by
  induction elements with
  | nil => intro s; rfl
  | cons e rest ih =>
    intro s
    simp only [emitAll, List.foldl_cons] at ih ⊢
    rw [ih]; rfl

theorem emitAll_log (mk : ElementMappingM → Signal) (elements : List ElementMappingM) :
    ∀ s : State, (emitAll s mk elements).log = s.log ++ elements.map (fun e => (mk e, s.toDir)) := by
  induction elements with
  | nil => intro s; simp [emitAll]
  | cons e rest ih =>
    intro s
    simp only [emitAll, List.foldl_cons] at ih ⊢
    rw [ih]
    simp [emit]

theorem elementsWithIdIn_nil (mappingElements : List (Option ElementMappingM)) :
    elementsWithIdIn [] mappingElements = [] := by
  unfold elementsWithIdIn
  rw [List.filterMap_eq_nil_iff]
  intro e _
  cases e <;> simp

/-- Closed form of `onMappingReceived` when the agent already has a mapping: the signals
with the directory that each of them observes, and the final directory. -/
theorem onMappingReceived_update (env : Env) (jsonHelper : JsonHelper) (s : State)
    (peerId agentName mappingJSON : String) (agent : Nat) (a : AgentM) (newMap : AgentMappingM)
    (previousMapping : Nat) (prev : AgentMappingM)
    (hh : env.jsonHelper = some jsonHelper)
    (hget : getAgentModelFromPeerId s peerId = some agent)
    (ha : Heap.deref s.agents agent = some a)
    (hcreated : (if mappingJSON = "" then
        some { name := "EMPTY MAPPING of " ++ agentName, version := "", description := "" }
      else jsonHelper.createModelOfAgentMappingFromBytes agentName mappingJSON) = some newMap)
    (hsome : a.mapping = some previousMapping)
    (hprev : Heap.deref s.mappings previousMapping = some prev) :
    ∃ s', onMappingReceived env s peerId agentName mappingJSON = some s' ∧
      s'.toDir = { s.toDir with
        mappings := Heap.free (Heap.alloc s.mappings newMap) previousMapping
        agents := Heap.store s.agents agent { a with mapping := some (Heap.fresh s.mappings) } } ∧
      s'.log = s.log ++
        (elementsWithIdIn
          (prev.namesOfMappingElements.filter (fun n => decide (n ∉ newMap.namesOfMappingElements)))
          prev.mappingElements).map
          (fun e => (Signal.unmapped e, { s.toDir with mappings := Heap.alloc s.mappings newMap })) ++
        (elementsWithIdIn
          (newMap.namesOfMappingElements.filter (fun n => decide (n ∉ prev.namesOfMappingElements)))
          newMap.mappingElements).map
          (fun e => (Signal.mapped e, { s.toDir with mappings := Heap.alloc s.mappings newMap })) := by
  have hprev1 := Heap.deref_alloc_of_some newMap hprev
  have hif : ∀ (st : State) (mk : ElementMappingM → Signal) (ids : List String)
      (els : List (Option ElementMappingM)),
      (if ¬ ids.isEmpty = true then emitAll st mk (elementsWithIdIn ids els) else st) =
        emitAll st mk (elementsWithIdIn ids els) := by
    intro st mk ids els
    by_cases h : ids.isEmpty = true
    · have : ids = [] := by simpa [List.isEmpty_iff] using h
      subst this
      rw [elementsWithIdIn_nil]
      simp [emitAll]
    · rw [if_pos h]
  unfold onMappingReceived
  simp only [hh, hget, hcreated, ha, hsome, hprev1, hif, emitAll_toDir, Heap.delete,
    Option.map_some']
  refine ⟨_, rfl, ?_, ?_⟩
  · simp only [emitAll_toDir]
  · simp only [emitAll_log, emitAll_toDir, List.append_assoc]

end Editor

end Ingescape

namespace Ingescape

namespace Editor

theorem map_elementsWithIdIn (mk : ElementMappingM → Signal) (own other : List String)
    (mappingElements : List (Option ElementMappingM))
    (hcover : ∀ e, some e ∈ mappingElements → e.id ∈ own) :
    (elementsWithIdIn (own.filter (fun n => decide (n ∉ other))) mappingElements).map mk =
      signalsForElementsNotIn mk other mappingElements := by
  unfold elementsWithIdIn signalsForElementsNotIn
  rw [List.map_filterMap]
  apply List.filterMap_congr
  intro x hx
  cases x with
  | none => rfl
  | some e =>
    have hin := hcover e hx
    by_cases ho : e.id ∈ other
    · simp [ho]
    · simp [ho, hin]

/-- C9: in the Editor `onMappingReceived` for a live registered agent that already has a
mapping, with a payload that yields a new mapping (the empty payload yields the empty
mapping): the new mapping replaces the old one, which is deleted; when each mapping lists
the ids of its elements in `namesOfMappingElements`, the signals emitted are one `unmapped`
for each element of the previous mapping whose id is not among the names of the new mapping,
followed by one `mapped` for each element of the new mapping whose id is not among the names
of the previous mapping; with the same names nothing is emitted. -/
theorem onMappingReceived_reports_element_diff (env : Env) (jsonHelper : JsonHelper) (s : State)
    (peerId agentName mappingJSON : String) (agent : Nat) (a : AgentM) (newMap : AgentMappingM)
    (previousMapping : Nat) (prev : AgentMappingM)
    (hh : env.jsonHelper = some jsonHelper)
    (hget : getAgentModelFromPeerId s peerId = some agent)
    (ha : Heap.deref s.agents agent = some a)
    (hcreated : (if mappingJSON = "" then
        some { name := "EMPTY MAPPING of " ++ agentName, version := "", description := "" }
      else jsonHelper.createModelOfAgentMappingFromBytes agentName mappingJSON) = some newMap)
    (hsome : a.mapping = some previousMapping)
    (hprev : Heap.deref s.mappings previousMapping = some prev) :
    ∃ s', onMappingReceived env s peerId agentName mappingJSON = some s' ∧
      Heap.deref s'.agents agent = some { a with mapping := some (Heap.fresh s.mappings) } ∧
      Heap.deref s'.mappings (Heap.fresh s.mappings) = some newMap ∧
      Heap.deref s'.mappings previousMapping = none ∧
      (prev.NamesCoverElements → newMap.NamesCoverElements →
        s'.log.map Prod.fst = s.log.map Prod.fst ++
          signalsForElementsNotIn Signal.unmapped newMap.namesOfMappingElements prev.mappingElements ++
          signalsForElementsNotIn Signal.mapped prev.namesOfMappingElements newMap.mappingElements) ∧
      ((∀ n, n ∈ prev.namesOfMappingElements ↔ n ∈ newMap.namesOfMappingElements) →
        s'.log = s.log) := by
  obtain ⟨s', hrun, hdir, hlog⟩ := onMappingReceived_update env jsonHelper s peerId agentName
    mappingJSON agent a newMap previousMapping prev hh hget ha hcreated hsome hprev
  have hag : s'.agents = Heap.store s.agents agent { a with mapping := some (Heap.fresh s.mappings) } :=
    congrArg Dir.agents hdir
  have hmp : s'.mappings = Heap.free (Heap.alloc s.mappings newMap) previousMapping :=
    congrArg Dir.mappings hdir
  have hne : Heap.fresh s.mappings ≠ previousMapping := by
    have := Heap.deref_lt hprev
    unfold Heap.fresh
    omega
  refine ⟨s', hrun, ?_, ?_, ?_, ?_, ?_⟩
  · rw [hag]; exact Heap.deref_store_self _ (by simp [ha])
  · rw [hmp, Heap.deref_free, if_neg hne, Heap.deref_alloc_fresh]
  · rw [hmp, Heap.deref_free, if_pos rfl]
  · intro hc1 hc2
    rw [hlog]
    simp only [List.map_append, List.map_map]
    have e1 := map_elementsWithIdIn Signal.unmapped prev.namesOfMappingElements
      newMap.namesOfMappingElements prev.mappingElements hc1
    have e2 := map_elementsWithIdIn Signal.mapped newMap.namesOfMappingElements
      prev.namesOfMappingElements newMap.mappingElements hc2
    rw [← e1, ← e2]
    rfl
  · intro hsame
    have h1 : prev.namesOfMappingElements.filter (fun n => decide (n ∉ newMap.namesOfMappingElements)) = [] := by
      rw [List.filter_eq_nil_iff]
      intro n hn
      simp [(hsame n).mp hn]
    have h2 : newMap.namesOfMappingElements.filter (fun n => decide (n ∉ prev.namesOfMappingElements)) = [] := by
      rw [List.filter_eq_nil_iff]
      intro n hn
      simp [(hsame n).mpr hn]
    rw [hlog, h1, h2, elementsWithIdIn_nil, elementsWithIdIn_nil]
    simp

/-- Witness of C9: the camera whose mapping has the element "in1" receives a mapping whose
only element is "in2". -/
theorem onMappingReceived_reports_element_diff_witness :
    ∃ s', onMappingReceived depthEnv
        { agents := [some { name := "camera", peerId := "peer-1", mapping := some 0 }]
          mappings := [some { name := "camera", mappingElements := [some { id := "in1" }],
                              namesOfMappingElements := ["in1"] }]
          mapFromPeerIdToAgentM := [("peer-1", 0)] }
        "peer-1" "camera" "{in2}" = some s' ∧
      Heap.deref s'.agents 0 = some { name := "camera", peerId := "peer-1", mapping := some 1 } ∧
      s'.log.map Prod.fst = [Signal.unmapped { id := "in1" }, Signal.mapped { id := "in2" }] := by
  obtain ⟨s', hrun, hag, _, _, hsig, _⟩ := onMappingReceived_reports_element_diff depthEnv depthHelper
    { agents := [some { name := "camera", peerId := "peer-1", mapping := some 0 }]
      mappings := [some { name := "camera", mappingElements := [some { id := "in1" }],
                          namesOfMappingElements := ["in1"] }]
      mapFromPeerIdToAgentM := [("peer-1", 0)] }
    "peer-1" "camera" "{in2}" 0 { name := "camera", peerId := "peer-1", mapping := some 0 }
    { name := "camera", mappingElements := [some { id := "in2" }], namesOfMappingElements := ["in2"] }
    0 { name := "camera", mappingElements := [some { id := "in1" }], namesOfMappingElements := ["in1"] }
    rfl (by decide) rfl (by decide) rfl rfl
  refine ⟨s', hrun, hag, (hsig ?_ ?_).trans (by decide)⟩
  · intro e he
    simp only [List.mem_singleton, Option.some.injEq] at he
    subst he
    decide
  · intro e he
    simp only [List.mem_singleton, Option.some.injEq] at he
    subst he
    decide

end Editor

end Ingescape

namespace Ingescape

namespace Editor

/-- C10: in the Editor `onAgentExited` for a live registered agent.  When its definition has
at least one output, exactly one signal is emitted, `removeInputsToEditorForOutputs` with all
outputs of the definition; in the directory that the signal observes, and afterwards, the
agent is still registered under its peer id and its record is live (marked OFF).  When the
agent has no definition, or its definition has no output, nothing is emitted. -/
theorem onAgentExited_notifies_before_purge (s : State) (peerId agentName : String) (agent : Nat)
    (a : AgentM) (hget : getAgentModelFromPeerId s peerId = some agent)
    (ha : Heap.deref s.agents agent = some a) :
    (∀ definition d, a.definition = some definition →
      Heap.deref s.definitions definition = some d → d.outputsList ≠ [] →
      ∃ s' snapshot, onAgentExited s peerId agentName = some s' ∧
        s'.log = s.log ++ [(Signal.removeInputsToEditorForOutputs agentName d.outputsList, snapshot)] ∧
        QHash.find snapshot.mapFromPeerIdToAgentM peerId = some agent ∧
        Heap.deref snapshot.agents agent = some { a with isON := false } ∧
        getAgentModelFromPeerId s' peerId = some agent ∧
        Heap.deref s'.agents agent = some { a with isON := false } ∧
        Heap.count s'.agents = Heap.count s.agents) ∧
    ((a.definition = none ∨
        ∃ definition d, a.definition = some definition ∧
          Heap.deref s.definitions definition = some d ∧ d.outputsList = []) →
      ∃ s', onAgentExited s peerId agentName = some s' ∧ s'.log = s.log ∧
        getAgentModelFromPeerId s' peerId = some agent ∧
        Heap.deref s'.agents agent = some { a with isON := false }) := by
  have hfind := hget
  rw [editor_getAgentModelFromPeerId_eq] at hfind
  have hst : Heap.deref (Heap.store s.agents agent { a with isON := false }) agent =
      some { a with isON := false } := Heap.deref_store_self _ (by simp [ha])
  obtain ⟨s1, hs1⟩ : ∃ s1 : State,
      s1 = { s with agents := Heap.store s.agents agent { a with isON := false } } := ⟨_, rfl⟩
  have hs1a : Heap.deref s1.agents agent = some { a with isON := false } := by rw [hs1]; exact hst
  have hs1m : QHash.find s1.mapFromPeerIdToAgentM peerId = some agent := by rw [hs1]; exact hfind
  have hs1g : getAgentModelFromPeerId s1 peerId = some agent := by
    rw [editor_getAgentModelFromPeerId_eq]; exact hs1m
  have hs1l : s1.log = s.log := by rw [hs1]
  constructor
  · intro definition d hdef hd hout
    have hne : ¬ d.outputsList.isEmpty = true := by simpa [List.isEmpty_iff] using hout
    refine ⟨emit s1 (Signal.removeInputsToEditorForOutputs agentName d.outputsList), s1.toDir,
      ?_, by rw [emit_log, hs1l], hs1m, hs1a, hs1g, hs1a, ?_⟩
    · unfold onAgentExited
      simp only [hget, ha, hdef, hd, hne, Bool.false_eq_true, not_false_eq_true, if_true, hs1]
    · rw [emit_toDir, hs1]
      exact Heap.count_set_some _ _ _ (by simp [ha])
  · rintro (hnone | ⟨definition, d, hdef, hd, hout⟩)
    · refine ⟨s1, ?_, hs1l, hs1g, hs1a⟩
      unfold onAgentExited
      simp only [hget, ha, hnone, hs1]
    · have he : d.outputsList.isEmpty = true := by simpa [List.isEmpty_iff] using hout
      refine ⟨s1, ?_, hs1l, hs1g, hs1a⟩
      unfold onAgentExited
      simp only [hget, ha, hdef, hd, he, not_true_eq_false, if_false, hs1]

/-- Witness of C10: the registered camera, whose definition has the output "image", exits. -/
theorem onAgentExited_notifies_before_purge_witness :
    ∃ s' snapshot, onAgentExited cameraState "peer-1" "camera" = some s' ∧
      s'.log = [(Signal.removeInputsToEditorForOutputs "camera" [some { id := "image" }], snapshot)] ∧
      QHash.find snapshot.mapFromPeerIdToAgentM "peer-1" = some 0 ∧
      getAgentModelFromPeerId s' "peer-1" = some 0 := by
  obtain ⟨s', snapshot, hrun, hlog, hsnap, _, hreg, _⟩ :=
    (onAgentExited_notifies_before_purge cameraState "peer-1" "camera" 0
      { name := "camera", peerId := "peer-1", address := "10.0.0.7", isON := true,
        definition := some 0, mapping := some 0 } (by decide) rfl).1 0
      { name := "camera", outputsList := [some { id := "image" }], outputsIdsList := ["image"] }
      rfl rfl (by decide)
  exact ⟨s', snapshot, hrun, hlog, hsnap, hreg⟩

end Editor

end Ingescape

namespace Ingescape

/-- C6 fails on the code: the Editor `importAgentsListFromJson` applied to the empty directory
and a file whose two clones carry the peer id "peer-1" leaves two live agent records with
that peer id; only the second one is registered under it. -/
theorem Editor.importAgentsListFromJson_duplicates_peer_id :
    ∃ s', Editor.importAgentsListFromJson Editor.rejectingEnv {} twoClonesOnePeerId = some (s', true) ∧
      s'.agents =
        [some { name := "camera", peerId := "peer-1", address := "10.0.0.7",
                hostname := "host-a", commandLine := "cam --run" },
         some { name := "camera", peerId := "peer-1", address := "10.0.0.8",
                hostname := "host-b", commandLine := "cam --run" }] ∧
      Editor.getAgentModelFromPeerId s' "peer-1" = some 1 :=
  ⟨_, rfl, by decide, by decide⟩

/-- The sibling function: the Common `importAgentsListFromJson` on the same file (read in the
previous format) skips the second clone. -/
theorem Common.importAgentsListFromJson_skips_registered_peer_id :
    ∃ s', Common.importAgentsListFromJson Common.rejectingEnv {} twoClonesOnePeerId "0.9" =
        some (s', true) ∧
      s'.agents =
        [some { name := "camera", peerId := "peer-1", address := "10.0.0.7",
                hostname := "host-a", commandLine := "cam --run" }] ∧
      Common.getAgentModelFromPeerId s' "peer-1" = some 0 :=
  ⟨_, rfl, by decide, by decide⟩

end Ingescape

namespace Ingescape

theorem Heap.deref_alloc_cases {α : Type} {h : Heap α} {x y : α} {q : Nat}
    (hq : Heap.deref (Heap.alloc h x) q = some y) :
    (q = Heap.fresh h ∧ y = x) ∨ (q ≠ Heap.fresh h ∧ Heap.deref h q = some y) := by
  rw [Heap.deref_alloc] at hq
  split_ifs at hq with h1
  · left; exact ⟨h1, (Option.some.inj hq).symm⟩
  · right; exact ⟨h1, hq⟩

theorem Heap.deref_store_cases {α : Type} {h : Heap α} {x y : α} {p q : Nat}
    (hq : Heap.deref (Heap.store h p x) q = some y) :
    (q = p ∧ y = x) ∨ (q ≠ p ∧ Heap.deref h q = some y) := by
  rw [Heap.deref_store] at hq
  split_ifs at hq with h1
  · left; exact ⟨h1.1, (Option.some.inj hq).symm⟩
  · by_cases hqp : q = p
    · subst hqp
      have := Heap.deref_lt hq
      exact absurd ⟨rfl, this⟩ h1
    · right; exact ⟨hqp, hq⟩

theorem Heap.deref_free_cases {α : Type} {h : Heap α} {y : α} {p q : Nat}
    (hq : Heap.deref (Heap.free h p) q = some y) : q ≠ p ∧ Heap.deref h q = some y := by
  rw [Heap.deref_free] at hq
  split_ifs at hq with h1
  exact ⟨h1, hq⟩

theorem Heap.fresh_not_live {α : Type} {h : Heap α} {p : Nat} (hp : (Heap.deref h p).isSome) :
    p ≠ Heap.fresh h := by
  obtain ⟨x, hx⟩ := Option.isSome_iff_exists.mp hp
  have := Heap.deref_lt hx
  unfold Heap.fresh
  omega

namespace Common

theorem inv_empty : Inv {} := by
  refine ⟨rfl, ?_, ?_, ?_, ?_, ?_, ?_⟩
  · intro p a h; simp [QHash.find] at h
  · intro a ag h; simp [Heap.deref] at h
  · intro n g h; simp [QHash.find] at h
  · intro a ag d h; simp [Heap.deref] at h
  · intro a1 a2 ag1 ag2 d h; simp [Heap.deref] at h
  · intro a ag h; simp [Heap.deref] at h

/-- A setter that keeps peer id, definition and mapping of a live record keeps the invariant. -/
theorem inv_store {s : State} (hinv : Inv s) {p : Nat} {a a' : AgentM}
    (ha : Heap.deref s.agents p = some a) (hpeer : a'.peerId = a.peerId)
    (hdef : a'.definition = a.definition) (hmap : a'.mapping = a.mapping) :
    Inv { s with agents := Heap.store s.agents p a' } := by
  have hold : ∀ q y, Heap.deref (Heap.store s.agents p a') q = some y →
      ∃ y0, Heap.deref s.agents q = some y0 ∧ y.peerId = y0.peerId ∧
        y.definition = y0.definition ∧ y.mapping = y0.mapping := by
    intro q y hq
    rcases Heap.deref_store_cases hq with ⟨h1, h2⟩ | ⟨_, h2⟩
    · subst h1 h2
      exact ⟨a, ha, hpeer, hdef, hmap⟩
    · exact ⟨y, h2, rfl, rfl, rfl⟩
  refine ⟨hinv.noEmptyKey, ?_, ?_, hinv.groupsLive, ?_, ?_, ?_⟩
  · intro q b hfind
    obtain ⟨ag, hag, hp⟩ := hinv.registered q b hfind
    by_cases hb : b = p
    · subst hb
      refine ⟨a', Heap.deref_store_self _ (by simp [ha]), ?_⟩
      rw [hpeer, ← hp]
      exact congrArg AgentM.peerId (Option.some.inj (ha.symm.trans hag))
    · refine ⟨ag, ?_, hp⟩
      show Heap.deref (Heap.store s.agents p a') b = some ag
      rw [Heap.deref_store]
      simp [hb, hag]
  · intro q y hq hne
    obtain ⟨y0, hy0, h1, _, _⟩ := hold q y hq
    rw [h1] at hne ⊢
    exact hinv.keyed q y0 hy0 hne
  · intro q y d hq hd
    obtain ⟨y0, hy0, _, h2, _⟩ := hold q y hq
    exact hinv.defsLive q y0 d hy0 (h2 ▸ hd)
  · intro q1 q2 y1 y2 d h1 h2 hd1 hd2
    obtain ⟨z1, hz1, _, e1, _⟩ := hold q1 y1 h1
    obtain ⟨z2, hz2, _, e2, _⟩ := hold q2 y2 h2
    exact hinv.defsOwned q1 q2 z1 z2 d hz1 hz2 (e1 ▸ hd1) (e2 ▸ hd2)
  · intro q y hq
    obtain ⟨y0, hy0, _, _, h3⟩ := hold q y hq
    rw [h3]
    exact hinv.noMapping q y0 hy0

end Common

end Ingescape

namespace Ingescape

namespace Common

/-- `createAgentModel` keeps the invariant when the peer id is new and the definition given
to the agent is a live object without owner. -/
theorem createAgentModel_inv (s : State) (agentName : String) (definition : Option Nat)
    (peerId ipAddress hostname commandLine : String) (isON : Bool) (hinv : Inv s)
    (hpeer : peerId = "" ∨ QHash.find s.hashFromPeerIdToAgent peerId = none)
    (hdef : ∀ c, definition = some c → (Heap.deref s.definitions c).isSome ∧ ¬ Held s c) :
    ∃ s' r, createAgentModel s agentName definition peerId ipAddress hostname commandLine isON =
        some (s', r) ∧ Inv s' ∧ s'.definitions = s.definitions ∧
      (∀ d, Held s' d → Held s d ∨ definition = some d) := by
  by_cases hname : agentName = ""
  · refine ⟨s, none, ?_, hinv, rfl, fun d h => Or.inl h⟩
    unfold createAgentModel
    rw [if_neg (by simpa using hname)]
  · obtain ⟨s', hrun, hag, hdefs, hmaps, hhash, hgroups⟩ := createAgentModel_spec s agentName
      definition peerId ipAddress hostname commandLine isON hname hinv.groupsLive
    obtain ⟨rec, hrec⟩ : ∃ rec : AgentM, rec = { name := agentName, peerId := peerId, address := ipAddress, hostname := hostname, commandLine := commandLine, isON := isON, definition := definition } := ⟨_, rfl⟩
    rw [← hrec] at hag
    have hrp : rec.peerId = peerId := by rw [hrec]
    have hrd : rec.definition = definition := by rw [hrec]
    have hrm : rec.mapping = none := by rw [hrec]
    have hcases : ∀ q y, Heap.deref s'.agents q = some y →
        (q = Heap.fresh s.agents ∧ y = rec) ∨
        (q ≠ Heap.fresh s.agents ∧ Heap.deref s.agents q = some y) := by
      intro q y hq
      rw [hag] at hq
      exact Heap.deref_alloc_cases hq
    have hfindne : ∀ p, p ≠ peerId ∨ peerId = "" →
        QHash.find s'.hashFromPeerIdToAgent p = QHash.find s.hashFromPeerIdToAgent p := by
      intro p hp
      rw [hhash]
      by_cases hpe : peerId = ""
      · rw [if_neg (by simpa using hpe)]
      · rw [if_pos hpe, QHash.find_insert]
        rcases hp with h | h
        · rw [if_neg h]
        · exact absurd h hpe
    refine ⟨s', _, hrun, ⟨?_, ?_, ?_, hgroups, ?_, ?_, ?_⟩, hdefs, ?_⟩
    · by_cases hpe : peerId = ""
      · rw [hfindne "" (Or.inr hpe)]; exact hinv.noEmptyKey
      · rw [hfindne "" (Or.inl (fun h => hpe h.symm))]; exact hinv.noEmptyKey
    · intro p a hfind
      by_cases hp : p = peerId ∧ peerId ≠ ""
      · obtain ⟨hp1, hp2⟩ := hp
        subst hp1
        rw [hhash, if_pos hp2, QHash.find_insert, if_pos rfl] at hfind
        simp only [Option.some.injEq] at hfind
        subst hfind
        exact ⟨rec, by rw [hag]; exact Heap.deref_alloc_fresh _ _, hrp⟩
      · have hp' : p ≠ peerId ∨ peerId = "" := by
          by_contra hcon
          push_neg at hcon
          exact hp ⟨hcon.1, hcon.2⟩
        rw [hfindne p hp'] at hfind
        obtain ⟨ag, hag0, hpid⟩ := hinv.registered p a hfind
        exact ⟨ag, by rw [hag]; exact Heap.deref_alloc_of_some _ hag0, hpid⟩
    · intro q y hq hne
      rcases hcases q y hq with ⟨h1, h2⟩ | ⟨_, h2⟩
      · subst h1 h2
        rw [hrp] at hne ⊢
        rw [hhash, if_pos hne, QHash.find_insert, if_pos rfl]
      · have hold := hinv.keyed q y h2 hne
        have hnp : y.peerId ≠ peerId ∨ peerId = "" := by
          rcases hpeer with h | h
          · exact Or.inr h
          · left
            intro heq
            rw [heq, h] at hold
            exact Option.noConfusion hold
        rw [hfindne _ hnp]
        exact hold
    · intro q y d hq hd
      rw [hdefs]
      rcases hcases q y hq with ⟨h1, h2⟩ | ⟨_, h2⟩
      · subst h2
        exact (hdef d (hrd ▸ hd)).1
      · exact hinv.defsLive q y d h2 hd
    · intro q1 q2 y1 y2 d h1 h2 hd1 hd2
      rcases hcases q1 y1 h1 with ⟨e1, f1⟩ | ⟨_, f1⟩ <;> rcases hcases q2 y2 h2 with ⟨e2, f2⟩ | ⟨_, f2⟩
      · rw [e1, e2]
      · subst f1
        exact absurd ⟨q2, y2, f2, hd2⟩ (hdef d (hrd ▸ hd1)).2
      · subst f2
        exact absurd ⟨q1, y1, f1, hd1⟩ (hdef d (hrd ▸ hd2)).2
      · exact hinv.defsOwned q1 q2 y1 y2 d f1 f2 hd1 hd2
    · intro q y hq
      rcases hcases q y hq with ⟨_, h2⟩ | ⟨_, h2⟩
      · subst h2; exact hrm
      · exact hinv.noMapping q y h2
    · rintro d ⟨q, y, hq, hd⟩
      rcases hcases q y hq with ⟨_, h2⟩ | ⟨_, h2⟩
      · subst h2
        exact Or.inr (hrd ▸ hd)
      · exact Or.inl ⟨q, y, h2, hd⟩

end Common

end Ingescape

namespace Ingescape

namespace Common

theorem onAgentEntered_inv (s : State) (peerId agentName ipAddress hostname commandLine : String)
    (canBeFrozen : Bool) (loggerPort : String) (hinv : Inv s) :
    ∃ s', onAgentEntered s peerId agentName ipAddress hostname commandLine canBeFrozen loggerPort =
        some s' ∧ Inv s' := by
  by_cases hne : peerId ≠ "" ∧ agentName ≠ "" ∧ ipAddress ≠ ""
  · cases hget : getAgentModelFromPeerId s peerId with
    | some agent =>
      have hfind := hget
      rw [common_getAgentModelFromPeerId_eq] at hfind
      obtain ⟨a, ha, _⟩ := hinv.registered peerId agent hfind
      refine ⟨{ s with agents := Heap.store s.agents agent { a with canBeFrozen := canBeFrozen, loggerPort := loggerPort, isON := true } }, ?_, inv_store hinv ha rfl rfl rfl⟩
      unfold onAgentEntered
      rw [if_pos hne]
      simp only [hget, ha]
    | none =>
      have hfind := hget
      rw [common_getAgentModelFromPeerId_eq] at hfind
      obtain ⟨s1, hcr, h1a, _, _, _, _⟩ := createAgentModel_spec s agentName none peerId
        ipAddress hostname commandLine true hne.2.1 hinv.groupsLive
      obtain ⟨s1', r, hcr', hinv1, _, _⟩ := createAgentModel_inv s agentName none peerId
        ipAddress hostname commandLine true hinv (Or.inr hfind) (fun c h => by simp at h)
      have hs1 : s1' = s1 := by
        have := hcr'.symm.trans hcr
        simp only [Option.some.injEq, Prod.mk.injEq] at this
        exact this.1
      subst hs1
      have hd : Heap.deref s1'.agents (Heap.fresh s.agents) = some
          { name := agentName, peerId := peerId, address := ipAddress, hostname := hostname,
            commandLine := commandLine, isON := true, definition := none } := by
        rw [h1a]; exact Heap.deref_alloc_fresh _ _
      obtain ⟨b, hb⟩ : ∃ b : AgentM, b = { name := agentName, peerId := peerId, address := ipAddress, hostname := hostname, commandLine := commandLine, isON := true, canBeFrozen := canBeFrozen, loggerPort := loggerPort } := ⟨_, rfl⟩
      refine ⟨{ s1' with agents := Heap.store s1'.agents (Heap.fresh s.agents) b }, ?_,
        inv_store hinv1 hd (by rw [hb]) (by rw [hb]) (by rw [hb])⟩
      unfold onAgentEntered
      rw [if_pos hne]
      simp only [hget, hcr, hd, hb]
  · refine ⟨s, ?_, hinv⟩
    unfold onAgentEntered
    rw [if_neg hne]

theorem onAgentExited_inv (s : State) (peerId agentName : String) (hinv : Inv s) :
    ∃ s', onAgentExited s peerId agentName = some s' ∧ Inv s' := by
  cases hget : getAgentModelFromPeerId s peerId with
  | none => exact ⟨s, by simp [onAgentExited, hget], hinv⟩
  | some agent =>
    have hfind := hget
    rw [common_getAgentModelFromPeerId_eq] at hfind
    obtain ⟨a, ha, _⟩ := hinv.registered peerId agent hfind
    refine ⟨{ s with agents := Heap.store s.agents agent { a with isON := false } }, ?_,
      inv_store hinv ha rfl rfl rfl⟩
    simp only [onAgentExited, hget, ha]

end Common

end Ingescape

namespace Ingescape

theorem Heap.delete_of_some {α : Type} {h : Heap α} {p : Nat} (hp : (Heap.deref h p).isSome) :
    Heap.delete h p = some (Heap.free h p) := by
  obtain ⟨x, hx⟩ := Option.isSome_iff_exists.mp hp
  simp [Heap.delete, hx]

theorem Heap.deref_free_store {α : Type} (h : Heap α) (p q : Nat) (x : α) :
    Heap.deref (Heap.free (Heap.store h p x) p) q = if q = p then none else Heap.deref h q := by
  rw [Heap.deref_free]
  split_ifs with h1
  · rfl
  · rw [Heap.deref_store]
    simp [h1]

namespace Common

theorem removeOldAgentModel_spec (s : State) (g model : Nat) (hg : (Heap.deref s.groups g).isSome) :
    ∃ vm, Heap.deref s.groups g = some vm ∧
      removeOldAgentModel s g model =
        some { s with groups := Heap.store s.groups g { vm with models := vm.models.erase model } } := by
  obtain ⟨vm, hvm⟩ := Option.isSome_iff_exists.mp hg
  exact ⟨vm, hvm, by simp [removeOldAgentModel, hvm]⟩

/-- What `deleteAgentModel` does on a live record, under the invariant. -/
theorem deleteAgentModel_spec (s : State) (p : Nat) (a : AgentM) (hinv : Inv s)
    (ha : Heap.deref s.agents p = some a) (hname : a.name ≠ "") :
    ∃ s', deleteAgentModel s (some p) = some s' ∧
      (∀ q, Heap.deref s'.agents q = if q = p then none else Heap.deref s.agents q) ∧
      s'.definitions = (match a.definition with
        | some d => Heap.free s.definitions d
        | none => s.definitions) ∧
      s'.hashFromPeerIdToAgent =
        (if a.peerId ≠ "" then QHash.remove s.hashFromPeerIdToAgent a.peerId
         else s.hashFromPeerIdToAgent) ∧
      s'.hashFromNameToAgentsGrouped = s.hashFromNameToAgentsGrouped ∧
      (∀ g, (Heap.deref s.groups g).isSome → (Heap.deref s'.groups g).isSome) := by
  have hmap := hinv.noMapping p a ha
  have hlive : (Heap.deref s.agents p).isSome := by simp [ha]
  -- the state after the definition and the mapping have been reset
  obtain ⟨s3, hs3, h3a, h3d, h3h, h3n, h3g, h3l⟩ : ∃ s3 : State,
      deleteAgentModel s (some p) =
        (match (match getAgentsGroupedForName
              (if a.peerId ≠ "" then
                { s3 with hashFromPeerIdToAgent := QHash.remove s3.hashFromPeerIdToAgent a.peerId }
              else s3) a.name with
            | some agentsGroupedByName =>
              removeOldAgentModel
                (if a.peerId ≠ "" then
                  { s3 with hashFromPeerIdToAgent := QHash.remove s3.hashFromPeerIdToAgent a.peerId }
                else s3) agentsGroupedByName p
            | none => some
                (if a.peerId ≠ "" then
                  { s3 with hashFromPeerIdToAgent := QHash.remove s3.hashFromPeerIdToAgent a.peerId }
                else s3)) with
          | none => none
          | some s5 => (Heap.delete s5.agents p).map (fun ags => { s5 with agents := ags })) ∧
      (∀ q, Heap.deref (Heap.free s3.agents p) q = if q = p then none else Heap.deref s.agents q) ∧
      s3.definitions = (match a.definition with
        | some d => Heap.free s.definitions d
        | none => s.definitions) ∧
      s3.hashFromPeerIdToAgent = s.hashFromPeerIdToAgent ∧
      s3.hashFromNameToAgentsGrouped = s.hashFromNameToAgentsGrouped ∧
      s3.groups = s.groups ∧ (Heap.deref s3.agents p).isSome := by
    unfold deleteAgentModel
    simp only [ha, hmap]
    rw [if_pos hname]
    cases hdef : a.definition with
    | none =>
      simp only
      refine ⟨_, rfl, ?_, rfl, rfl, rfl, rfl, hlive⟩
      intro q
      simp only [emit]
      rw [Heap.deref_free]
    | some d =>
      have hd := hinv.defsLive p a d ha hdef
      simp only [emit, Heap.delete_of_some hd, Option.map_some']
      refine ⟨_, rfl, ?_, rfl, rfl, rfl, rfl, Heap.isSome_store _ hlive⟩
      intro q
      exact Heap.deref_free_store _ _ _ _
  rw [hs3]
  obtain ⟨s4, hs4, h4a, h4d, h4h, h4n, h4g⟩ : ∃ s4 : State,
      s4 = (if a.peerId ≠ "" then
          { s3 with hashFromPeerIdToAgent := QHash.remove s3.hashFromPeerIdToAgent a.peerId }
        else s3) ∧
      s4.agents = s3.agents ∧ s4.definitions = s3.definitions ∧
      s4.hashFromPeerIdToAgent =
        (if a.peerId ≠ "" then QHash.remove s.hashFromPeerIdToAgent a.peerId
         else s.hashFromPeerIdToAgent) ∧
      s4.hashFromNameToAgentsGrouped = s.hashFromNameToAgentsGrouped ∧ s4.groups = s.groups := by
    refine ⟨_, rfl, ?_, ?_, ?_, ?_, ?_⟩ <;> by_cases hp : a.peerId = "" <;> simp [hp, h3h, h3n, h3g]
  rw [← hs4, common_getAgentsGroupedForName_eq, h4n]
  cases hgrp : QHash.find s.hashFromNameToAgentsGrouped a.name with
  | none =>
    simp only
    rw [Heap.delete_of_some (by rw [h4a]; exact h3l)]
    refine ⟨_, rfl, ?_, ?_, h4h, h4n, ?_⟩
    · intro q
      simp only [h4a]
      exact h3a q
    · exact h4d.trans h3d
    · intro g hg
      simp only [h4g]
      exact hg
  | some g =>
    obtain ⟨vm, _, hrem⟩ := removeOldAgentModel_spec s4 g p
      (by rw [h4g]; exact hinv.groupsLive a.name g hgrp)
    simp only [hrem]
    rw [Heap.delete_of_some (by simp only [h4a]; exact h3l)]
    refine ⟨_, rfl, ?_, ?_, h4h, h4n, ?_⟩
    · intro q
      simp only [Option.map_some', h4a]
      exact h3a q
    · exact h4d.trans h3d
    · intro g' hg
      simp only [Option.map_some', h4g]
      exact Heap.isSome_store _ hg

end Common

end Ingescape

namespace Ingescape

namespace Common

theorem deleteAgentModel_inv (s : State) (agent : Option Nat) (hinv : Inv s)
    (hlive : ∀ p, agent = some p → (Heap.deref s.agents p).isSome) :
    ∃ s', deleteAgentModel s agent = some s' ∧ Inv s' := by
  cases agent with
  | none => exact ⟨s, rfl, hinv⟩
  | some p =>
    obtain ⟨a, ha⟩ := Option.isSome_iff_exists.mp (hlive p rfl)
    by_cases hname : a.name = ""
    · refine ⟨s, ?_, hinv⟩
      unfold deleteAgentModel
      simp only [ha]
      rw [if_neg (by simpa using hname)]
    · obtain ⟨s', hrun, hag, hdefs, hhash, hgh, hgl⟩ := deleteAgentModel_spec s p a hinv ha hname
      have hold : ∀ q y, Heap.deref s'.agents q = some y → q ≠ p ∧ Heap.deref s.agents q = some y := by
        intro q y hq
        rw [hag q] at hq
        split_ifs at hq with h1
        exact ⟨h1, hq⟩
      have hfind : ∀ k b, QHash.find s'.hashFromPeerIdToAgent k = some b →
          QHash.find s.hashFromPeerIdToAgent k = some b ∧ (a.peerId = "" ∨ k ≠ a.peerId) := by
        intro k b hk
        rw [hhash] at hk
        by_cases hp : a.peerId = ""
        · rw [if_neg (by simpa using hp)] at hk
          exact ⟨hk, Or.inl hp⟩
        · rw [if_pos hp, QHash.find_remove] at hk
          split_ifs at hk with h1
          exact ⟨hk, Or.inr h1⟩
      refine ⟨s', hrun, ?_, ?_, ?_, ?_, ?_, ?_, ?_⟩
      · cases hk : QHash.find s'.hashFromPeerIdToAgent "" with
        | none => rfl
        | some b =>
          have := (hfind "" b hk).1
          rw [hinv.noEmptyKey] at this
          exact Option.noConfusion this
      · intro k b hk
        obtain ⟨hk0, hcase⟩ := hfind k b hk
        obtain ⟨ag, hag0, hpid⟩ := hinv.registered k b hk0
        have hbp : b ≠ p := by
          intro hbp
          subst hbp
          have hea : ag = a := Option.some.inj (hag0.symm.trans ha)
          subst hea
          rcases hcase with h | h
          · rw [← hpid, h, hinv.noEmptyKey] at hk0
            exact Option.noConfusion hk0
          · exact h hpid.symm
        exact ⟨ag, by rw [hag b, if_neg hbp]; exact hag0, hpid⟩
      · intro q y hq hne
        obtain ⟨hqp, hq0⟩ := hold q y hq
        have hk0 := hinv.keyed q y hq0 hne
        rw [hhash]
        by_cases hp : a.peerId = ""
        · rw [if_neg (by simpa using hp)]; exact hk0
        · rw [if_pos hp, QHash.find_remove]
          have hyp : y.peerId ≠ a.peerId := by
            intro heq
            have hkp := hinv.keyed p a ha hp
            rw [heq, hkp] at hk0
            exact hqp (Option.some.inj hk0).symm
          rw [if_neg hyp]; exact hk0
      · intro n g hg
        rw [hgh] at hg
        exact hgl g (hinv.groupsLive n g hg)
      · intro q y d hq hd
        obtain ⟨hqp, hq0⟩ := hold q y hq
        have hd0 := hinv.defsLive q y d hq0 hd
        rw [hdefs]
        cases hdef : a.definition with
        | none => exact hd0
        | some d0 =>
          simp only
          rw [Heap.deref_free]
          have hdd : d ≠ d0 := by
            intro heq
            subst heq
            exact hqp (hinv.defsOwned q p y a d hq0 ha hd hdef)
          rw [if_neg hdd]; exact hd0
      · intro q1 q2 y1 y2 d h1 h2 hd1 hd2
        exact hinv.defsOwned q1 q2 y1 y2 d (hold q1 y1 h1).2 (hold q2 y2 h2).2 hd1 hd2
      · intro q y hq
        exact hinv.noMapping q y (hold q y hq).2

end Common

end Ingescape

namespace Ingescape

/-- A loop whose body returns and keeps a property returns and keeps the property. -/
theorem foldlM_option_invariant {σ β : Type} (P : σ → Prop) (step : σ → β → Option σ)
    (hstep : ∀ s x, P s → ∃ s', step s x = some s' ∧ P s') (l : List β) :
    ∀ s, P s → ∃ s', l.foldlM step s = some s' ∧ P s' := by
  induction l with
  | nil => intro s hs; exact ⟨s, rfl, hs⟩
  | cons x rest ih =>
    intro s hs
    obtain ⟨s1, h1, hP1⟩ := hstep s x hs
    obtain ⟨s2, h2, hP2⟩ := ih s1 hP1
    exact ⟨s2, by simp only [List.foldlM_cons, h1]; exact h2, hP2⟩

namespace Common

theorem held_congr {s s' : State} (h : s'.agents = s.agents) (d : Nat) : Held s' d ↔ Held s d := by
  unfold Held
  rw [h]

/-- Allocating a definition keeps the invariant. -/
theorem inv_alloc_definition {s : State} (hinv : Inv s) (d : DefinitionM) :
    Inv { s with definitions := Heap.alloc s.definitions d } :=
  ⟨hinv.noEmptyKey, hinv.registered, hinv.keyed, hinv.groupsLive,
    fun a ag x ha hx => Heap.isSome_alloc _ (hinv.defsLive a ag x ha hx),
    hinv.defsOwned, hinv.noMapping⟩

/-- Deleting a definition that no agent holds keeps the invariant. -/
theorem inv_free_definition {s : State} (hinv : Inv s) (f : Nat) (hf : ¬ Held s f) :
    Inv { s with definitions := Heap.free s.definitions f } := by
  refine ⟨hinv.noEmptyKey, hinv.registered, hinv.keyed, hinv.groupsLive, ?_,
    hinv.defsOwned, hinv.noMapping⟩
  intro a ag x ha hx
  show (Heap.deref (Heap.free s.definitions f) x).isSome
  rw [Heap.deref_free]
  have hxf : x ≠ f := by
    intro heq
    subst heq
    exact hf ⟨a, ag, ha, hx⟩
  rw [if_neg hxf]
  exact hinv.defsLive a ag x ha hx

theorem copyOfDefinition_inv (s : State) (agentDefinition : Option Nat) (hinv : Inv s)
    (htemp : TempOk s agentDefinition) :
    ∃ s1 c, copyOfDefinition s agentDefinition = some (s1, c) ∧ Inv s1 ∧ s1.agents = s.agents ∧
      s1.hashFromPeerIdToAgent = s.hashFromPeerIdToAgent ∧ TempOk s1 agentDefinition ∧
      (∀ x, c = some x → (Heap.deref s1.definitions x).isSome ∧ ¬ Held s1 x ∧
        agentDefinition ≠ some x) := by
  cases agentDefinition with
  | none =>
    exact ⟨s, none, rfl, hinv, rfl, rfl, htemp, fun x h => by simp at h⟩
  | some f =>
    obtain ⟨hlive, hheld⟩ := htemp f rfl
    obtain ⟨d, hd⟩ := Option.isSome_iff_exists.mp hlive
    refine ⟨{ s with definitions := Heap.alloc s.definitions d }, some (Heap.fresh s.definitions),
      by simp [copyOfDefinition, hd], inv_alloc_definition hinv d, rfl, rfl, ?_, ?_⟩
    · intro f' hf'
      simp only [Option.some.injEq] at hf'
      subst hf'
      exact ⟨Heap.isSome_alloc _ hlive, hheld⟩
    · intro x hx
      simp only [Option.some.injEq] at hx
      subst hx
      refine ⟨by simp [Heap.deref_alloc_fresh], ?_, ?_⟩
      · rintro ⟨a, ag, ha, hx⟩
        exact Heap.fresh_not_live (hinv.defsLive a ag _ ha hx) rfl
      · intro heq
        simp only [Option.some.injEq] at heq
        exact Heap.fresh_not_live hlive heq

/-- Copy the temporary definition, then create an agent with the copy: the invariant is kept
and the temporary definition stays without owner. -/
theorem copy_create_inv (s : State) (agentName : String) (agentDefinition : Option Nat)
    (peerId ipAddress hostname commandLine : String) (hinv : Inv s)
    (htemp : TempOk s agentDefinition)
    (hpeer : peerId = "" ∨ QHash.find s.hashFromPeerIdToAgent peerId = none) :
    ∃ s', (match copyOfDefinition s agentDefinition with
        | none => none
        | some (s1, copy) =>
          (createAgentModel s1 agentName copy peerId ipAddress hostname commandLine false).map
            (fun r => r.1)) = some s' ∧ Inv s' ∧ TempOk s' agentDefinition := by
  obtain ⟨s1, c, hcopy, hinv1, h1a, h1h, htemp1, hc⟩ := copyOfDefinition_inv s agentDefinition hinv htemp
  obtain ⟨s2, r, hcr, hinv2, h2d, hheld2⟩ := createAgentModel_inv s1 agentName c peerId ipAddress
    hostname commandLine false hinv1 (by rw [h1h]; exact hpeer)
    (fun x hx => ⟨(hc x hx).1, (hc x hx).2.1⟩)
  refine ⟨s2, by simp only [hcopy, hcr, Option.map_some'], hinv2, ?_⟩
  intro f hf
  obtain ⟨hlive1, hheld1⟩ := htemp1 f hf
  refine ⟨by rw [h2d]; exact hlive1, ?_⟩
  intro hh
  rcases hheld2 f hh with h | h
  · exact hheld1 h
  · exact (hc f h).2.2 hf

theorem importClone_inv (s : State) (agentName : String) (agentDefinition : Option Nat)
    (jsonIteratorClone : QJsonValue) (h : Inv s ∧ TempOk s agentDefinition) :
    ∃ s', importClone s agentName agentDefinition jsonIteratorClone = some s' ∧
      (Inv s' ∧ TempOk s' agentDefinition) := by
  obtain ⟨hinv, htemp⟩ := h
  unfold importClone
  by_cases h1 : jsonIteratorClone.isObject = true
  · rw [if_pos h1]
    simp only
    by_cases h2 : (QJsonObject.value jsonIteratorClone.toObject "hostname").isString = true ∧
        (QJsonObject.value jsonIteratorClone.toObject "commandLine").isString = true ∧
        (QJsonObject.value jsonIteratorClone.toObject "peerId").isString = true ∧
        (QJsonObject.value jsonIteratorClone.toObject "address").isString = true
    · rw [if_pos h2]
      by_cases h3 : (QJsonObject.value jsonIteratorClone.toObject "hostname").toQString ≠ "" ∧
          (QJsonObject.value jsonIteratorClone.toObject "commandLine").toQString ≠ "" ∧
          (QJsonObject.value jsonIteratorClone.toObject "peerId").toQString ≠ "" ∧
          (QJsonObject.value jsonIteratorClone.toObject "address").toQString ≠ ""
      · rw [if_pos h3]
        cases hget : getAgentModelFromPeerId s
            (QJsonObject.value jsonIteratorClone.toObject "peerId").toQString with
        | none =>
          have hfind := hget
          rw [common_getAgentModelFromPeerId_eq] at hfind
          exact copy_create_inv s agentName agentDefinition _ _ _ _ hinv htemp (Or.inr hfind)
        | some agent =>
          have hfind := hget
          rw [common_getAgentModelFromPeerId_eq] at hfind
          obtain ⟨ag, hag, _⟩ := hinv.registered _ agent hfind
          simp only [hag]
          exact ⟨s, rfl, hinv, htemp⟩
      · rw [if_neg h3]
        exact ⟨s, rfl, hinv, htemp⟩
    · rw [if_neg h2]
      exact ⟨s, rfl, hinv, htemp⟩
  · rw [if_neg h1]
    exact ⟨s, rfl, hinv, htemp⟩

end Common

end Ingescape

namespace Ingescape

namespace Common

theorem importDefinitionEntry_inv (env : Env) (jsonHelper : JsonHelper) (agentName : String)
    (s : State) (jsonIteratorDefinition : QJsonValue) (hinv : Inv s) :
    ∃ s', importDefinitionEntry env jsonHelper s agentName jsonIteratorDefinition = some s' ∧
      Inv s' := by
  -- the state and the pointer after the definition has been parsed
  obtain ⟨s1, t, hs1, hinv1, htemp1⟩ : ∃ (s1 : State) (t : Option Nat),
      importDefinitionEntry env jsonHelper s agentName jsonIteratorDefinition =
        (match (if (QJsonObject.value jsonIteratorDefinition.toObject "clones").toArray.isEmpty then
              (match copyOfDefinition s1 t with
                | none => none
                | some (s2, copy) =>
                  (createAgentModel s2 agentName copy "" "" env.defaultHostname "" false).map
                    (fun r => r.1))
            else
              (QJsonObject.value jsonIteratorDefinition.toObject "clones").toArray.foldlM
                (fun st jsonIteratorClone => importClone st agentName t jsonIteratorClone) s1) with
          | none => none
          | some s3 =>
            match t with
            | some p => (Heap.delete s3.definitions p).map (fun defs => { s3 with definitions := defs })
            | none => some s3) ∧
      Inv s1 ∧ TempOk s1 t := by
    unfold importDefinitionEntry
    cases hcr : (if (QJsonObject.value jsonIteratorDefinition.toObject "definition").isObject then
        jsonHelper.createModelOfAgentDefinitionFromJSON
          (QJsonObject.value jsonIteratorDefinition.toObject "definition").toObject
      else none) with
    | none =>
      exact ⟨s, none, by simp only [hcr, Option.map_none'], hinv, fun f h => by simp at h⟩
    | some d =>
      refine ⟨{ s with definitions := Heap.alloc s.definitions d }, some (Heap.fresh s.definitions),
        by simp only [hcr, Option.map_some'], inv_alloc_definition hinv d, ?_⟩
      intro f hf
      simp only [Option.some.injEq] at hf
      subst hf
      refine ⟨by simp [Heap.deref_alloc_fresh], ?_⟩
      rintro ⟨a, ag, ha, hx⟩
      exact Heap.fresh_not_live (hinv.defsLive a ag _ ha hx) rfl
  rw [hs1]
  obtain ⟨s3, h3, hinv3, htemp3⟩ : ∃ s3,
      (if (QJsonObject.value jsonIteratorDefinition.toObject "clones").toArray.isEmpty then
          (match copyOfDefinition s1 t with
            | none => none
            | some (s2, copy) =>
              (createAgentModel s2 agentName copy "" "" env.defaultHostname "" false).map
                (fun r => r.1))
        else
          (QJsonObject.value jsonIteratorDefinition.toObject "clones").toArray.foldlM
            (fun st jsonIteratorClone => importClone st agentName t jsonIteratorClone) s1) = some s3 ∧
      Inv s3 ∧ TempOk s3 t := by
    split_ifs
    · exact copy_create_inv s1 agentName t "" "" env.defaultHostname "" hinv1 htemp1 (Or.inl rfl)
    · exact foldlM_option_invariant (fun st => Inv st ∧ TempOk st t)
        (fun st jsonIteratorClone => importClone st agentName t jsonIteratorClone)
        (fun st x hst => importClone_inv st agentName t x hst) _ s1 ⟨hinv1, htemp1⟩
  rw [h3]
  cases t with
  | none => exact ⟨s3, rfl, hinv3⟩
  | some f =>
    obtain ⟨hlive, hheld⟩ := htemp3 f rfl
    simp only [Heap.delete_of_some hlive, Option.map_some']
    exact ⟨_, rfl, inv_free_definition hinv3 f hheld⟩

theorem importAgentEntry_inv (env : Env) (jsonHelper : JsonHelper) (versionJsonPlatform : String)
    (acc : State × Bool) (jsonIteratorAgent : QJsonValue) (hinv : Inv acc.1) :
    ∃ acc', importAgentEntry env jsonHelper versionJsonPlatform acc jsonIteratorAgent = some acc' ∧
      Inv acc'.1 := by
  unfold importAgentEntry
  by_cases h1 : jsonIteratorAgent.isObject = true
  · rw [if_pos h1]
    simp only
    split_ifs
    · obtain ⟨s', hfold, hinv'⟩ := foldlM_option_invariant Inv
        (fun st jsonIteratorDefinition => importDefinitionEntry env jsonHelper st
          (QJsonObject.value jsonIteratorAgent.toObject "agentName").toQString jsonIteratorDefinition)
        (fun st x hst => importDefinitionEntry_inv env jsonHelper _ st x hst)
        (jsonArrayOfDefinitionsOf env jsonIteratorAgent.toObject versionJsonPlatform) acc.1 hinv
      exact ⟨(s', acc.2), by simp only [hfold, Option.map_some'], hinv'⟩
    · exact ⟨_, rfl, hinv⟩
  · rw [if_neg h1]
    exact ⟨acc, rfl, hinv⟩

theorem importAgentsListFromJson_inv (env : Env) (s : State) (jsonArrayOfAgents : QJsonArray)
    (versionJsonPlatform : String) (hinv : Inv s) :
    ∃ r, importAgentsListFromJson env s jsonArrayOfAgents versionJsonPlatform = some r ∧ Inv r.1 := by
  unfold importAgentsListFromJson
  cases env.jsonHelper with
  | none => exact ⟨(s, true), rfl, hinv⟩
  | some jsonHelper =>
    exact foldlM_option_invariant (fun acc : State × Bool => Inv acc.1)
      (importAgentEntry env jsonHelper versionJsonPlatform)
      (fun acc x hacc => importAgentEntry_inv env jsonHelper versionJsonPlatform acc x hacc)
      jsonArrayOfAgents (s, true) hinv

/-- Every call returns and keeps the invariant, `deleteAgentModel` being called with null or
with a pointer to a live record. -/
theorem call_inv (env : Env) (s : State) (c : Call) (hinv : Inv s)
    (hdel : ∀ p, c = Call.deleteAgentModel (some p) → (Heap.deref s.agents p).isSome) :
    ∃ s', call env s c = some s' ∧ Inv s' := by
  cases c with
  | onAgentEntered peerId agentName ipAddress hostname commandLine canBeFrozen loggerPort =>
    exact onAgentEntered_inv s peerId agentName ipAddress hostname commandLine canBeFrozen
      loggerPort hinv
  | onAgentExited peerId agentName => exact onAgentExited_inv s peerId agentName hinv
  | importAgentsListFromJson jsonArrayOfAgents versionJsonPlatform =>
    obtain ⟨r, hr, hinv'⟩ := importAgentsListFromJson_inv env s jsonArrayOfAgents
      versionJsonPlatform hinv
    exact ⟨r.1, by simp only [call, hr, Option.map_some'], hinv'⟩
  | deleteAgentModel agent =>
    exact deleteAgentModel_inv s agent hinv (fun p hp => hdel p (by rw [hp]))

theorem deleteAgentModel_some_live (s : State) (p : Nat) (s' : State)
    (h : deleteAgentModel s (some p) = some s') : (Heap.deref s.agents p).isSome := by
  unfold deleteAgentModel at h
  cases hd : Heap.deref s.agents p with
  | none => simp [hd] at h
  | some a => rfl

theorem run_inv (env : Env) (calls : List Call) :
    ∀ s s', Inv s → run env s calls = some s' → Inv s' := by
  induction calls with
  | nil =>
    intro s s' hinv hrun
    simp only [run, List.foldlM_nil, Option.pure_def, Option.some.injEq] at hrun
    exact hrun ▸ hinv
  | cons c rest ih =>
    intro s s' hinv hrun
    simp only [run, List.foldlM_cons] at hrun
    cases hc : call env s c with
    | none => simp [hc] at hrun
    | some s1 =>
      simp only [hc, Option.some_bind] at hrun
      have hdel : ∀ p, c = Call.deleteAgentModel (some p) → (Heap.deref s.agents p).isSome := by
        intro p hp
        subst hp
        exact deleteAgentModel_some_live s p s1 hc
      obtain ⟨s1', hc', hinv1⟩ := call_inv env s c hinv hdel
      have : s1' = s1 := Option.some.inj (hc'.symm.trans hc)
      subst this
      exact ih s1' s' hinv1 hrun

end Common

end Ingescape

namespace Ingescape

namespace Common

/-- C5: in the Common manager, after any sequence of `onAgentEntered`, `onAgentExited`,
`importAgentsListFromJson` and `deleteAgentModel` calls that starts from the empty directory,
no two live agent records have the same non-empty peer id, and `getAgentModelFromPeerId`
returns for every registered peer id a live record whose peer id it is; moreover every further
call returns, `deleteAgentModel` being called with null or with a pointer to a live record. -/
theorem peer_id_is_key (env : Env) (calls : List Call) (s : State)
    (hrun : run env {} calls = some s) :
    (∀ a1 a2 ag1 ag2, Heap.deref s.agents a1 = some ag1 → Heap.deref s.agents a2 = some ag2 →
      ag1.peerId = ag2.peerId → ag1.peerId ≠ "" → a1 = a2) ∧
    (∀ p a, getAgentModelFromPeerId s p = some a →
      ∃ ag, Heap.deref s.agents a = some ag ∧ ag.peerId = p) ∧
    (∀ c, (∀ p, c = Call.deleteAgentModel (some p) → (Heap.deref s.agents p).isSome) →
      ∃ s', call env s c = some s') := by
  have hinv := run_inv env calls {} s inv_empty hrun
  refine ⟨?_, ?_, ?_⟩
  · intro a1 a2 ag1 ag2 h1 h2 heq hne
    have k1 := hinv.keyed a1 ag1 h1 hne
    have k2 := hinv.keyed a2 ag2 h2 (heq ▸ hne)
    rw [heq, k2] at k1
    exact (Option.some.inj k1).symm
  · intro p a hget
    rw [common_getAgentModelFromPeerId_eq] at hget
    exact hinv.registered p a hget
  · intro c hdel
    obtain ⟨s', hs', _⟩ := call_inv env s c hinv hdel
    exact ⟨s', hs'⟩

/-- Witness of C5 on the sample sequence of calls: the imported file registers "peer-1" once,
and after the deletion of the camera two records are live, under "peer-1" and "peer-2". -/
theorem peer_id_is_key_witness :
    ∃ s, run rejectingEnv {} sampleCalls = some s ∧
      s.agents =
        [none,
         some { name := "camera", peerId := "peer-1", address := "10.0.0.7",
                hostname := "host-a", commandLine := "cam --run" },
         some { name := "screen", peerId := "peer-2", address := "10.0.0.9",
                hostname := "host-c", commandLine := "screen", isON := true }] ∧
      (∀ p a, getAgentModelFromPeerId s p = some a →
        ∃ ag, Heap.deref s.agents a = some ag ∧ ag.peerId = p) :=
  ⟨_, rfl, by decide, (peer_id_is_key rejectingEnv sampleCalls _ rfl).2.1⟩

end Common

end Ingescape

namespace Ingescape

/-- C12: `onLicenseCallback` with a controller sets `isLicenseValid` to false for every limit
value; it sets the error message to the text of the limit for the three known limits (three
pairwise different texts) and leaves it unchanged for any other value; all other properties
are unchanged.  With a null controller there is no controller to change. -/
theorem onLicenseCallback_invalidates_license :
    (∀ limit c, ∃ c', onLicenseCallback limit (some c) = some c' ∧ c'.isLicenseValid = false ∧
      c'.licensesPath = c.licensesPath ∧ c'.licenseId = c.licenseId ∧
      c'.licenseCustomer = c.licenseCustomer ∧
      (limit = igs_license_limit_t.IGS_LICENSE_TIMEOUT → c'.errorMessageWhenLicenseFailed =
        "IngeScape is stopped because demonstration mode timeout has been reached !") ∧
      (limit = igs_license_limit_t.IGS_LICENSE_TOO_MANY_AGENTS → c'.errorMessageWhenLicenseFailed =
        "IngeScape is stopped because too many agents are running on the platform compared to what the license allows !") ∧
      (limit = igs_license_limit_t.IGS_LICENSE_TOO_MANY_IOPS → c'.errorMessageWhenLicenseFailed =
        "IngeScape is stopped because too many IOPs have been created on the platform compared to what the license allows !") ∧
      (∀ value, limit = igs_license_limit_t.other value →
        c'.errorMessageWhenLicenseFailed = c.errorMessageWhenLicenseFailed)) ∧
    (∀ c c1 c2 c3,
      onLicenseCallback igs_license_limit_t.IGS_LICENSE_TIMEOUT (some c) = some c1 →
      onLicenseCallback igs_license_limit_t.IGS_LICENSE_TOO_MANY_AGENTS (some c) = some c2 →
      onLicenseCallback igs_license_limit_t.IGS_LICENSE_TOO_MANY_IOPS (some c) = some c3 →
      c1.errorMessageWhenLicenseFailed ≠ c2.errorMessageWhenLicenseFailed ∧
      c1.errorMessageWhenLicenseFailed ≠ c3.errorMessageWhenLicenseFailed ∧
      c2.errorMessageWhenLicenseFailed ≠ c3.errorMessageWhenLicenseFailed) ∧
    (∀ limit, onLicenseCallback limit none = none) := by
  refine ⟨?_, ?_, fun _ => rfl⟩
  · intro limit c
    cases limit <;>
      refine ⟨_, rfl, rfl, rfl, rfl, rfl, ?_, ?_, ?_, ?_⟩ <;> intros <;>
      first | rfl | contradiction
  · intro c c1 c2 c3 h1 h2 h3
    simp only [onLicenseCallback, Option.some.injEq] at h1 h2 h3
    subst h1 h2 h3
    simp only
    exact ⟨by decide, by decide, by decide⟩

/-- Witness of C12: a valid license meets the limit on the number of agents. -/
theorem onLicenseCallback_invalidates_license_witness :
    onLicenseCallback igs_license_limit_t.IGS_LICENSE_TOO_MANY_AGENTS
        (some { isLicenseValid := true, licenseId := "L-1" }) =
      some { isLicenseValid := false, licenseId := "L-1",
             errorMessageWhenLicenseFailed :=
               "IngeScape is stopped because too many agents are running on the platform compared to what the license allows !" } := by
  obtain ⟨c', hrun, h1, h2, h3, h4, _, h6, _⟩ := onLicenseCallback_invalidates_license.1
    igs_license_limit_t.IGS_LICENSE_TOO_MANY_AGENTS { isLicenseValid := true, licenseId := "L-1" }
  rw [hrun]
  have h6' := h6 rfl
  cases c'
  simp only at h1 h2 h3 h4 h6'
  subst h1 h2 h3 h4 h6'
  rfl

end Ingescape

namespace Ingescape

namespace IngeScapeUtils

theorem run_cons (s : UidState) (c : UidCall) (rest : List UidCall) :
    run s (c :: rest) = (step s c).bind (fun s' => run s' rest) := by
  simp only [run, List.foldlM_cons]
  rfl

theorem run_append (s : UidState) (pre post : List UidCall) :
    run s (pre ++ post) = (run s pre).bind (fun s' => run s' post) := by
  simp only [run, List.foldlM_append]
  rfl

theorem uidInv_initial : UidInv UidState.initial := by
  intro u hu
  simp [UidState.initial] at hu

theorem step_uidInv (s s' : UidState) (c : UidCall) (hinv : UidInv s)
    (hstep : step s c = some s') : UidInv s' := by
  cases c with
  | get =>
    simp only [step, getUIDforNewActionM] at hstep
    split_ifs at hstep with hlt
    simp only [Option.some.injEq] at hstep
    subst hstep
    intro u hu
    simp only [List.mem_cons] at hu
    rcases hu with hu | hu
    · simp [hu]
    · have := hinv u hu
      simp only
      omega
  | book uid =>
    simp only [step, bookUIDforActionM, Option.some.injEq] at hstep
    subst hstep
    intro u hu
    simp only [List.mem_cons] at hu
    simp only
    rcases hu with hu | hu
    · subst hu
      split_ifs <;> omega
    · have := hinv u hu
      split_ifs <;> omega
  | free uid =>
    simp only [step, freeUIDofActionM] at hstep
    intro u hu
    split_ifs at hstep with h1 h2
    · simp only [Option.some.injEq] at hstep
      subst hstep
      simp only [List.mem_filter, decide_eq_true_eq] at hu
      have := hinv u hu.1
      have hne := hu.2
      simp only
      omega
    · simp only [Option.some.injEq] at hstep
      subst hstep
      simp only [List.mem_filter, decide_eq_true_eq] at hu
      exact hinv u hu.1

theorem run_uidInv (calls : List UidCall) : ∀ (s s' : UidState), UidInv s →
    run s calls = some s' → UidInv s' := by
  induction calls with
  | nil =>
    intro s s' hinv hrun
    simp only [run, List.foldlM_nil] at hrun
    cases hrun
    exact hinv
  | cons c rest ih =>
    intro s s' hinv hrun
    rw [run_cons] at hrun
    cases hstep : step s c with
    | none => rw [hstep] at hrun; cases hrun
    | some s1 =>
      rw [hstep] at hrun
      exact ih s1 s' (step_uidInv s s1 c hinv hstep) hrun

/-- A sequence of calls without overflow of the counter returns. -/
theorem run_isSome (calls : List UidCall) : ∀ (s : UidState),
    INT_MIN + calls.length ≤ s.biggest → s.biggest + calls.length ≤ INT_MAX →
    (∀ u, UidCall.book u ∈ calls → u + calls.length ≤ INT_MAX) →
    ∃ s', run s calls = some s' := by
  induction calls with
  | nil => intro s _ _ _; exact ⟨s, rfl⟩
  | cons c rest ih =>
    intro s hlo hhi hbook
    simp only [List.length_cons, Nat.cast_add, Nat.cast_one] at hlo hhi hbook
    rw [run_cons]
    cases c with
    | get =>
      have hlt : s.biggest < INT_MAX := by omega
      simp only [step, getUIDforNewActionM, if_pos hlt, Option.some_bind]
      apply ih
      · simp only; omega
      · simp only; omega
      · intro u hu
        have := hbook u (List.mem_cons_of_mem _ hu)
        omega
    | book uid =>
      simp only [step, bookUIDforActionM, Option.some_bind]
      have h1 := hbook uid (List.mem_cons_self _ _)
      apply ih
      · simp only; split_ifs <;> omega
      · simp only; split_ifs <;> omega
      · intro u hu
        have := hbook u (List.mem_cons_of_mem _ hu)
        omega
    | free uid =>
      have hlt : INT_MIN < s.biggest := by omega
      simp only [step, freeUIDofActionM, if_pos hlt]
      by_cases h : uid = s.biggest
      · simp only [if_pos h, Option.some_bind]
        apply ih
        · simp only; omega
        · simp only; omega
        · intro u hu
          have := hbook u (List.mem_cons_of_mem _ hu)
          omega
      · simp only [if_neg h, Option.some_bind]
        apply ih
        · simp only; omega
        · simp only; omega
        · intro u hu
          have := hbook u (List.mem_cons_of_mem _ hu)
          omega

end IngeScapeUtils

end Ingescape

namespace Ingescape

namespace IngeScapeUtils

/-- Why the frees have to be of uids in use: `freeUIDofActionM(-1)` on the initial counter, where
no uid is in use, lowers the counter to -2, and the first uid returned is then -1. -/
theorem first_uid_after_stray_free :
    wellUsed UidState.initial [UidCall.free (-1)] = false ∧
    run UidState.initial [UidCall.free (-1)] = some { biggest := -2, inUse := [] } ∧
    getUIDforNewActionM (-2) = some (-1, -1) := by
  refine ⟨rfl, rfl, rfl⟩

/-- C15, counterexample: after `bookUIDforActionM(7)` on the initial counter, the first uid
that `getUIDforNewActionM` returns is 8, not 0. -/
theorem first_uid_after_booking_is_not_zero :
    wellUsed UidState.initial [UidCall.book 7] = true ∧
    run UidState.initial [UidCall.book 7] = some { biggest := 7, inUse := [7] } ∧
    getUIDforNewActionM 7 = some (8, 8) ∧ (8 : Int) ≠ 0 := by
  refine ⟨rfl, rfl, rfl, by decide⟩

/-- While no `getUIDforNewActionM` is called and only uids below -1 are booked, frees being of
uids in use, the counter keeps its initial value -1. -/
theorem run_keeps_initial_counter (pre : List UidCall) : ∀ (s s' : UidState),
    s.biggest = -1 → (∀ u ∈ s.inUse, u < -1) → wellUsed s pre = true →
    (∀ c ∈ pre, c ≠ UidCall.get) → (∀ u, UidCall.book u ∈ pre → u < -1) →
    run s pre = some s' → s'.biggest = -1 := by
  induction pre with
  | nil =>
    intro s s' hb _ _ _ _ hrun
    simp only [run, List.foldlM_nil] at hrun
    cases hrun
    exact hb
  | cons c rest ih =>
    intro s s' hb huse hused hget hbook hrun
    rw [run_cons] at hrun
    have hget' : ∀ c' ∈ rest, c' ≠ UidCall.get :=
      fun c' hc' => hget c' (List.mem_cons_of_mem _ hc')
    have hbook' : ∀ u, UidCall.book u ∈ rest → u < -1 :=
      fun u hu => hbook u (List.mem_cons_of_mem _ hu)
    cases c with
    | get => exact absurd rfl (hget _ (List.mem_cons_self _ _))
    | book u =>
      have hu : u < -1 := hbook u (List.mem_cons_self _ _)
      have hstep : step s (UidCall.book u) = some { biggest := -1, inUse := u :: s.inUse } := by
        have hnot : ¬ u > (-1 : Int) := by omega
        simp only [step, bookUIDforActionM, hb, if_neg hnot]
      rw [hstep] at hrun
      simp only [wellUsed, hstep, Bool.true_and] at hused
      refine ih _ s' rfl ?_ hused hget' hbook' hrun
      intro v hv
      rcases List.mem_cons.mp hv with h | h
      · rw [h]; exact hu
      · exact huse v h
    | free u =>
      simp only [wellUsed, Bool.and_eq_true, decide_eq_true_eq] at hused
      have hu : u < -1 := huse u hused.1
      have hne : u ≠ (-1 : Int) := by omega
      have hstep : step s (UidCall.free u) =
          some { biggest := -1, inUse := s.inUse.filter (fun v => v ≠ u) } := by
        simp only [step, freeUIDofActionM, hb, if_neg hne]
      rw [hstep] at hrun
      have hused' := hused.2
      rw [hstep] at hused'
      refine ih _ s' rfl ?_ hused' hget' hbook' hrun
      intro v hv
      exact huse v (List.mem_filter.mp hv).1

/-- C15, amended: in every state reached from the initial counter (-1) by a sequence of
`getUIDforNewActionM`, `bookUIDforActionM` and `freeUIDofActionM` calls, the uid returned by
`getUIDforNewActionM` is greater than every uid in use (returned or booked, and not freed
since): it differs from all of them and is greater than a booked uid still in use.  When the
frees are of uids in use, the first uid returned is 0 when no booking precedes it (also after
bookings of uids below -1).  The calls return as long as the counter cannot leave the range of
`int`. -/
theorem getUIDforNewActionM_fresh :
    (∀ (pre : List UidCall) (s : UidState) (biggest uid : Int),
      run UidState.initial pre = some s →
      getUIDforNewActionM s.biggest = some (biggest, uid) →
      uid ∉ s.inUse ∧ (∀ u ∈ s.inUse, u < uid) ∧ biggest = uid) ∧
    (∀ (pre : List UidCall) (s : UidState) (biggest uid : Int),
      wellUsed UidState.initial pre = true →
      (∀ c ∈ pre, c ≠ UidCall.get) → (∀ u, UidCall.book u ∈ pre → u < -1) →
      run UidState.initial pre = some s →
      getUIDforNewActionM s.biggest = some (biggest, uid) → uid = 0) ∧
    (∀ (calls : List UidCall), (calls.length : Int) < INT_MAX →
      (∀ u, UidCall.book u ∈ calls → u + calls.length ≤ INT_MAX) →
      ∃ s, run UidState.initial calls = some s) := by
  refine ⟨?_, ?_, ?_⟩
  · intro pre s biggest uid hrun hget
    have hinv := run_uidInv pre _ s uidInv_initial hrun
    simp only [getUIDforNewActionM] at hget
    split_ifs at hget with hlt
    simp only [Option.some.injEq, Prod.mk.injEq] at hget
    have hlt' : ∀ u ∈ s.inUse, u < uid := by
      intro u hu
      have := hinv u hu
      omega
    refine ⟨fun hmem => ?_, hlt', by omega⟩
    have := hlt' uid hmem
    omega
  · intro pre s biggest uid hused hnoget hbook hrun hget
    have hb : s.biggest = -1 := run_keeps_initial_counter pre UidState.initial s rfl
      (fun u hu => by cases hu) hused hnoget hbook hrun
    rw [hb] at hget
    simp only [getUIDforNewActionM] at hget
    split_ifs at hget
    simp only [Option.some.injEq, Prod.mk.injEq] at hget
    omega
  · intro calls hlen hbook
    apply run_isSome calls UidState.initial
    · simp only [UidState.initial, BIGGEST_UID_OF_ACTION_MODEL, INT_MIN, INT_MAX] at *
      omega
    · simp only [UidState.initial, BIGGEST_UID_OF_ACTION_MODEL, INT_MIN, INT_MAX] at *
      omega
    · exact hbook

/-- Witness of C15: after a fresh uid (0), a booking of 5 and the release of 0, the next fresh
uid is 6, with 5 in use; and after a booking of -5 and its release, the first fresh uid
is 0. -/
theorem getUIDforNewActionM_fresh_witness :
    (run UidState.initial [UidCall.get, UidCall.book 5, UidCall.free 0] =
      some { biggest := 5, inUse := [5] } ∧
    getUIDforNewActionM 5 = some (6, 6) ∧
    ((6 : Int) ∉ [(5 : Int)] ∧ (∀ u ∈ [(5 : Int)], u < 6) ∧ (6 : Int) = 6)) ∧
    (run UidState.initial [UidCall.book (-5), UidCall.free (-5)] =
      some { biggest := -1, inUse := [] } ∧
    getUIDforNewActionM (-1) = some (0, 0) ∧ (0 : Int) = 0) :=
  ⟨⟨by decide, by decide,
    getUIDforNewActionM_fresh.1 [UidCall.get, UidCall.book 5, UidCall.free 0]
      { biggest := 5, inUse := [5] } 6 6 (by decide) (by decide)⟩,
   ⟨by decide, by decide,
    getUIDforNewActionM_fresh.2.1 [UidCall.book (-5), UidCall.free (-5)]
      { biggest := -1, inUse := [] } 0 0 (by decide)
      (fun c hc => by
        simp only [List.mem_cons, List.mem_singleton, List.not_mem_nil, or_false] at hc
        rcases hc with h | h <;> subst h <;> decide)
      (fun u hu => by
        simp only [List.mem_cons, List.mem_singleton, List.not_mem_nil, or_false,
          UidCall.book.injEq] at hu
        rcases hu with h | h
        · subst h; decide
        · cases h)
      (by decide) (by decide)⟩⟩

end IngeScapeUtils

end Ingescape

namespace Ingescape

namespace Common

theorem qDeleteAll_spec (l : List Nat) : ∀ (h : Heap PublishedValueM), l.Nodup →
    (∀ q ∈ l, Heap.deref h q ≠ none) →
    ∃ h', qDeleteAll h l = some h' ∧
      ∀ q, Heap.deref h' q = if q ∈ l then none else Heap.deref h q := by
  induction l with
  | nil => intro h _ _; exact ⟨h, rfl, fun q => by simp⟩
  | cons x rest ih =>
    intro h hnd hlive
    have hx : (Heap.deref h x).isSome := by
      have := hlive x (List.mem_cons_self _ _)
      exact Option.isSome_iff_ne_none.mpr this
    have hnd' := List.nodup_cons.mp hnd
    obtain ⟨h', hrun, hderef⟩ := ih (Heap.free h x) hnd'.2 (by
      intro q hq
      rw [Heap.deref_free]
      have hne : q ≠ x := fun e => hnd'.1 (e ▸ hq)
      rw [if_neg hne]
      exact hlive q (List.mem_cons_of_mem _ hq))
    refine ⟨h', ?_, ?_⟩
    · simp only [qDeleteAll, List.foldlM_cons, Heap.delete_of_some hx]
      exact hrun
    · intro q
      rw [hderef q, Heap.deref_free]
      by_cases hq : q = x
      · subst hq
        simp
      · simp [hq]

theorem removeRows_drop (l : List Nat) (n : Nat) :
    removeRows l n (l.drop n).length = l.take n := by
  simp only [removeRows, List.length_drop]
  by_cases h : n ≤ l.length
  · have : n + (l.length - n) = l.length := by omega
    rw [this, List.drop_length, List.append_nil]
  · have h1 : l.length ≤ n + (l.length - n) := by omega
    rw [List.drop_eq_nil_of_le h1, List.append_nil]

/-- Closed form of the pruning step of `onValuePublished`. -/
theorem onValuePublished_spec
    (upd : AgentsGroupedByNameVM → PublishedValueM → AgentsGroupedByNameVM)
    (v : ValuesState) (p : Nat) (value : PublishedValueM) (hinv : HistoryInv v)
    (hp : Heap.deref v.values p = some value) (hnew : p ∉ v.publishedValues) :
    ∃ v', onValuePublished upd v (some p) = some v' ∧
      v'.publishedValues = historyAfter v.publishedValues p ∧
      (∀ q, Heap.deref v'.values q =
        if q ∈ deletedBy v.publishedValues p then none else Heap.deref v.values q) ∧
      v'.manager.hashFromNameToAgentsGrouped = v.manager.hashFromNameToAgentsGrouped ∧
      (∀ g, (Heap.deref v'.manager.groups g).isSome = (Heap.deref v.manager.groups g).isSome) := by
  have hnd : (p :: v.publishedValues).Nodup := List.nodup_cons.mpr ⟨hnew, hinv.nodup⟩
  have hlive : ∀ q ∈ p :: v.publishedValues, Heap.deref v.values q ≠ none := by
    intro q hq
    rcases List.mem_cons.mp hq with h | h
    · rw [h, hp]; simp
    · exact hinv.live q h
  -- the state after the pruning
  obtain ⟨v2, hv2, hpub, hval, hman⟩ : ∃ v2 : ValuesState,
      (if (p :: v.publishedValues).length > TOO_MANY_VALUES then
        match qDeleteAll v.values ((p :: v.publishedValues).drop numberOfKeptValues) with
        | none => none
        | some values => some { v with
            publishedValues := removeRows (p :: v.publishedValues) numberOfKeptValues
              ((p :: v.publishedValues).drop numberOfKeptValues).length, values := values }
      else some { v with publishedValues := p :: v.publishedValues }) = some v2 ∧
      v2.publishedValues = historyAfter v.publishedValues p ∧
      (∀ q, Heap.deref v2.values q =
        if q ∈ deletedBy v.publishedValues p then none else Heap.deref v.values q) ∧
      v2.manager = v.manager := by
    by_cases hbig : (p :: v.publishedValues).length > TOO_MANY_VALUES
    · obtain ⟨h', hdel, hderef⟩ := qDeleteAll_spec
        ((p :: v.publishedValues).drop numberOfKeptValues) v.values
        (List.Nodup.sublist (List.drop_sublist _ _) hnd)
        (fun q hq => hlive q (List.mem_of_mem_drop hq))
      rw [if_pos hbig, hdel]
      refine ⟨_, rfl, ?_, ?_, rfl⟩
      · simp only [historyAfter, if_pos hbig]
        exact removeRows_drop _ _
      · intro q
        simp only [deletedBy, if_pos hbig]
        exact hderef q
    · rw [if_neg hbig]
      refine ⟨_, rfl, ?_, ?_, rfl⟩
      · simp only [historyAfter, if_neg hbig]
      · intro q
        simp only [deletedBy, if_neg hbig, List.not_mem_nil, if_false]
  have hp2 : Heap.deref v2.values p = some value := by
    rw [hval p]
    have hnot : p ∉ deletedBy v.publishedValues p := by
      simp only [deletedBy]
      split_ifs with hbig
      · intro hmem
        have hidx : (p :: v.publishedValues).take numberOfKeptValues ++
            (p :: v.publishedValues).drop numberOfKeptValues = p :: v.publishedValues :=
          List.take_append_drop _ _
        have hnd2 := hnd
        rw [← hidx] at hnd2
        have hdisj := (List.nodup_append.mp hnd2).2.2
        exact hdisj (by simp [numberOfKeptValues]) hmem
      · simp
    rw [if_neg hnot, hp]
  have hunf : onValuePublished upd v (some p) =
      match Heap.deref v2.values p with
      | none => none
      | some value =>
        match getAgentsGroupedForName v2.manager value.agentName with
        | none => some v2
        | some agentsGroupedByName =>
          match Heap.deref v2.manager.groups agentsGroupedByName with
          | none => none
          | some g =>
            some { v2 with manager := { v2.manager with
              groups := Heap.store v2.manager.groups agentsGroupedByName (upd g value) } } := by
    simp only [onValuePublished]
    simp only [hv2]
  rw [hunf, hp2]
  simp only
  cases hg : getAgentsGroupedForName v2.manager value.agentName with
  | none =>
    simp only
    exact ⟨v2, rfl, hpub, hval, by rw [hman], fun g => by rw [hman]⟩
  | some g =>
    have hfind : QHash.find v.manager.hashFromNameToAgentsGrouped value.agentName = some g := by
      rw [hman] at hg
      simp only [getAgentsGroupedForName] at hg
      split_ifs at hg
      exact hg
    have hgl := hinv.groupsLive _ _ hfind
    obtain ⟨grp, hgrp⟩ := Option.ne_none_iff_exists'.mp hgl
    simp only [hman, hgrp]
    refine ⟨_, rfl, hpub, hval, rfl, ?_⟩
    intro g'
    simp only [Heap.deref_store]
    split_ifs with h1
    · rw [h1.1, hgrp]; rfl
    · rfl

end Common

end Ingescape

namespace Ingescape

namespace Common

theorem historyAfter_subset {l : List Nat} {p x : Nat} (hx : x ∈ historyAfter l p) :
    x ∈ p :: l := by
  simp only [historyAfter] at hx
  split_ifs at hx
  · exact List.mem_of_mem_take hx
  · exact hx

theorem deletedBy_subset {l : List Nat} {p x : Nat} (hx : x ∈ deletedBy l p) :
    x ∈ p :: l := by
  simp only [deletedBy] at hx
  split_ifs at hx
  · exact List.mem_of_mem_drop hx
  · simp at hx

theorem historyAfter_head (l : List Nat) (p : Nat) :
    historyAfter l p = p :: (historyAfter l p).tail := by
  simp only [historyAfter]
  split_ifs
  · show List.take (1599 + 1) (p :: l) = _
    rw [List.take_succ_cons]
    rfl
  · rfl

theorem historyAfter_length (l : List Nat) (p : Nat) :
    (historyAfter l p).length ≤ TOO_MANY_VALUES := by
  simp only [historyAfter]
  split_ifs with h
  · rw [List.length_take]
    simp only [numberOfKeptValues, TOO_MANY_VALUES]
    omega
  · simp only [not_lt] at h
    exact h

theorem historyAfter_disjoint {l : List Nat} {p x : Nat} (hnd : (p :: l).Nodup)
    (hx : x ∈ historyAfter l p) : x ∉ deletedBy l p := by
  simp only [historyAfter, deletedBy] at hx ⊢
  split_ifs at hx ⊢ with h
  · intro hmem
    have hnd2 := hnd
    rw [← List.take_append_drop numberOfKeptValues (p :: l)] at hnd2
    exact (List.nodup_append.mp hnd2).2.2 hx hmem
  · simp

theorem onValuePublished_inv
    (v v' : ValuesState) (p : Nat) (hinv : HistoryInv v) (hnew : p ∉ v.publishedValues)
    (hpub : v'.publishedValues = historyAfter v.publishedValues p)
    (hval : ∀ q, Heap.deref v'.values q =
        if q ∈ deletedBy v.publishedValues p then none else Heap.deref v.values q)
    (hp : Heap.deref v.values p ≠ none)
    (hhash : v'.manager.hashFromNameToAgentsGrouped = v.manager.hashFromNameToAgentsGrouped)
    (hgroups : ∀ g, (Heap.deref v'.manager.groups g).isSome =
      (Heap.deref v.manager.groups g).isSome) : HistoryInv v' := by
  have hnd : (p :: v.publishedValues).Nodup := List.nodup_cons.mpr ⟨hnew, hinv.nodup⟩
  refine ⟨?_, ?_, ?_, ?_⟩
  · intro q hq
    rw [hpub] at hq
    rw [hval q, if_neg (historyAfter_disjoint hnd hq)]
    rcases List.mem_cons.mp (historyAfter_subset hq) with h | h
    · rw [h]; exact hp
    · exact hinv.live q h
  · rw [hpub]
    simp only [historyAfter]
    split_ifs
    · exact List.Nodup.sublist (List.take_sublist _ _) hnd
    · exact hnd
  · rw [hpub]
    exact historyAfter_length _ _
  · intro name g hfind
    rw [hhash] at hfind
    have h1 := hinv.groupsLive name g hfind
    have h2 := hgroups g
    rw [Option.isSome_iff_ne_none.mpr h1] at h2
    exact Option.isSome_iff_ne_none.mp h2

/-- Every sequence of publications of distinct live values returns, keeps the consistency of
the history and leaves the last published value at the first position. -/
theorem publishAll_inv
    (upd : AgentsGroupedByNameVM → PublishedValueM → AgentsGroupedByNameVM)
    (calls : List (Option Nat)) : ∀ (v : ValuesState), HistoryInv v →
    (calls.filterMap id).Nodup →
    (∀ q, some q ∈ calls → Heap.deref v.values q ≠ none ∧ q ∉ v.publishedValues) →
    ∃ v', publishAll upd v calls = some v' ∧ HistoryInv v' ∧
      (∀ p, calls.getLast? = some (some p) → v'.publishedValues.head? = some p) := by
  induction calls with
  | nil =>
    intro v hinv _ _
    exact ⟨v, rfl, hinv, fun p h => by simp at h⟩
  | cons c rest ih =>
    intro v hinv hnd hlive
    -- the state after the first call
    obtain ⟨v1, hv1, hinv1, hhead1, hrest⟩ : ∃ v1, onValuePublished upd v c = some v1 ∧
        HistoryInv v1 ∧ (∀ p, c = some p → v1.publishedValues.head? = some p) ∧
        (∀ q, some q ∈ rest → Heap.deref v1.values q ≠ none ∧ q ∉ v1.publishedValues) := by
      cases c with
      | none =>
        refine ⟨v, rfl, hinv, (fun p h => by cases h), ?_⟩
        intro q hq
        exact hlive q (List.mem_cons_of_mem _ hq)
      | some p =>
        have hp := hlive p (List.mem_cons_self _ _)
        obtain ⟨value, hvalue⟩ := Option.ne_none_iff_exists'.mp hp.1
        obtain ⟨v1, hrun, hpub, hval, hhash, hgroups⟩ :=
          onValuePublished_spec upd v p value hinv hvalue hp.2
        refine ⟨v1, hrun, onValuePublished_inv v v1 p hinv hp.2 hpub hval hp.1 hhash hgroups,
          ?_, ?_⟩
        · intro p' hp'
          cases hp'
          rw [hpub, historyAfter_head]
          rfl
        · intro q hq
          have hq0 := hlive q (List.mem_cons_of_mem _ hq)
          have hne : q ≠ p := by
            intro e
            subst e
            simp only [List.filterMap_cons, id_eq] at hnd
            have := (List.nodup_cons.mp hnd).1
            apply this
            simp only [List.mem_filterMap, id_eq, exists_eq_right]
            exact hq
          have hnotin : q ∉ p :: v.publishedValues := by
            intro h
            rcases List.mem_cons.mp h with h | h
            · exact hne h
            · exact hq0.2 h
          refine ⟨?_, ?_⟩
          · rw [hval q, if_neg (fun h => hnotin (deletedBy_subset h))]
            exact hq0.1
          · rw [hpub]
            exact fun h => hnotin (historyAfter_subset h)
    have hnd1 : (rest.filterMap id).Nodup := by
      cases c with
      | none => simpa using hnd
      | some p =>
        simp only [List.filterMap_cons, id_eq] at hnd
        exact (List.nodup_cons.mp hnd).2
    obtain ⟨v2, hv2, hinv2, hhead2⟩ := ih v1 hinv1 hnd1 hrest
    refine ⟨v2, ?_, hinv2, ?_⟩
    · simp only [publishAll, List.foldlM_cons, hv1]
      exact hv2
    · intro p hlast
      cases rest with
      | nil =>
        simp only [List.getLast?_singleton, Option.some.injEq] at hlast
        simp only [publishAll, List.foldlM_nil] at hv2
        cases hv2
        exact hhead1 p hlast
      | cons d rest' =>
        rw [List.getLast?_cons_cons] at hlast
        exact hhead2 p hlast

end Common

end Ingescape

namespace Ingescape

namespace Common

/-- C14: starting from the empty history, after every sequence of `onValuePublished` calls
(null values included) that ends with the publication of a value `p`, each published value
being a live object published once, the calls return, the history holds at most
`TOO_MANY_VALUES` = 2000 entries and its first entry is `p`. -/
theorem onValuePublished_bounds_history
    (upd : AgentsGroupedByNameVM → PublishedValueM → AgentsGroupedByNameVM)
    (v0 : ValuesState) (pre : List (Option Nat)) (p : Nat)
    (hempty : v0.publishedValues = [])
    (hgroups : ∀ name g, QHash.find v0.manager.hashFromNameToAgentsGrouped name = some g →
      Heap.deref v0.manager.groups g ≠ none)
    (hnodup : ((pre ++ [some p]).filterMap id).Nodup)
    (hlive : ∀ q, some q ∈ pre ++ [some p] → Heap.deref v0.values q ≠ none) :
    ∃ v', publishAll upd v0 (pre ++ [some p]) = some v' ∧
      v'.publishedValues.length ≤ 2000 ∧ v'.publishedValues.head? = some p := by
  have hinv0 : HistoryInv v0 := by
    refine ⟨?_, ?_, ?_, hgroups⟩
    · intro q hq
      rw [hempty] at hq
      cases hq
    · rw [hempty]
      exact List.nodup_nil
    · rw [hempty]
      exact Nat.zero_le _
  obtain ⟨v', hrun, hinv, hhead⟩ := publishAll_inv upd (pre ++ [some p]) v0 hinv0 hnodup
    (fun q hq => ⟨hlive q hq, by rw [hempty]; exact List.not_mem_nil q⟩)
  exact ⟨v', hrun, hinv.bounded, hhead p (by simp)⟩

/-- Witness of C14: three values of agent `camera` and a null value. -/
theorem onValuePublished_bounds_history_witness :
    ∃ v', publishAll renameGroup (valuesReady 3) ([some 0, none, some 1] ++ [some 2]) = some v' ∧
      v'.publishedValues.length ≤ 2000 ∧ v'.publishedValues.head? = some 2 :=
  onValuePublished_bounds_history renameGroup (valuesReady 3) [some 0, none, some 1] 2 rfl
    (fun name g h => by cases h) (by decide)
    (fun q hq => by
      simp only [List.cons_append, List.nil_append, List.mem_cons, Option.some.injEq,
        List.mem_singleton, List.not_mem_nil, or_false] at hq
      rcases hq with h | h | h | h
      · subst h; decide
      · cases h
      · subst h; decide
      · subst h; decide)

end Common

end Ingescape

namespace Ingescape

theorem addMappingElement_again (hash : String → String → String → Nat) (table : MappingTable)
    (i a o : String) :
    addMappingElement hash (addMappingElement hash table i a o).1 i a o =
      addMappingElement hash table i a o ∨
    (table.findId (mapping_createMappingElement hash i a o).id = none ∧
      addMappingElement hash (addMappingElement hash table i a o).1 i a o =
        (table ++ [mapping_createMappingElement hash i a o],
          mapping_createMappingElement hash i a o)) := by
  cases hfind : table.findId (mapping_createMappingElement hash i a o).id with
  | some e =>
    left
    simp only [addMappingElement, hfind]
  | none =>
    right
    refine ⟨rfl, ?_⟩
    have h2 : MappingTable.findId (table ++ [mapping_createMappingElement hash i a o])
        (mapping_createMappingElement hash i a o).id =
        some (mapping_createMappingElement hash i a o) := by
      simp only [MappingTable.findId] at hfind ⊢
      rw [List.find?_append, hfind]
      simp
    simp only [addMappingElement, hfind, h2]

theorem addMappingElement_table_again (hash : String → String → String → Nat)
    (table : MappingTable) (i a o : String) :
    (addMappingElement hash (addMappingElement hash table i a o).1 i a o).1 =
      (addMappingElement hash table i a o).1 := by
  rcases addMappingElement_again hash table i a o with h | ⟨hnone, h⟩
  · rw [h]
  · rw [h]
    simp only [addMappingElement, hnone]

theorem addMappingElements_replicate (hash : String → String → String → Nat)
    (i a o : String) (n : Nat) : ∀ (table : MappingTable),
    addMappingElements hash table (List.replicate (n + 1) (i, a, o)) =
      (addMappingElement hash table i a o).1 := by
  induction n with
  | zero => intro table; rfl
  | succ k ih =>
    intro table
    rw [List.replicate_succ]
    simp only [addMappingElements, List.foldl_cons]
    have := ih (addMappingElement hash table i a o).1
    simp only [addMappingElements] at this
    rw [this, addMappingElement_table_again]

/-- C16: after every non-empty sequence of `addMappingElement` calls with one triple, starting
from the empty table, the table holds exactly one element, whose identifier is the hash of
the triple; from every table, repeating the call gives the table of the first call, and a
call on a table that holds the element returns it and leaves the table unchanged. -/
theorem addMappingElement_idempotent (hash : String → String → String → Nat)
    (i a o : String) (n : Nat) :
    addMappingElements hash [] (List.replicate (n + 1) (i, a, o)) =
      [mapping_createMappingElement hash i a o] ∧
    (addMappingElements hash [] (List.replicate (n + 1) (i, a, o))).length = 1 ∧
    (mapping_createMappingElement hash i a o).id = hash i a o % 2 ^ 64 ∧
    (∀ table : MappingTable,
      addMappingElements hash table (List.replicate (n + 1) (i, a, o)) =
        (addMappingElement hash table i a o).1) ∧
    (∀ (table : MappingTable) (e : mapping_element_t),
      table.findId (hash i a o % 2 ^ 64) = some e →
      addMappingElement hash table i a o = (table, e)) ∧
    addMappingElement hash [mapping_createMappingElement hash i a o] i a o =
      ([mapping_createMappingElement hash i a o], mapping_createMappingElement hash i a o) := by
  have h1 := addMappingElements_replicate hash i a o n []
  refine ⟨h1, by rw [h1]; rfl, rfl, addMappingElements_replicate hash i a o n, ?_, ?_⟩
  · intro table e he
    have he' : table.findId (mapping_createMappingElement hash i a o).id = some e := he
    simp only [addMappingElement, he']
  · simp [addMappingElement, MappingTable.findId]

/-- Witness of C16: three calls with the triple (`image`, `camera`, `frame`) and the hash
that adds the lengths of the names. -/
theorem addMappingElement_idempotent_witness :
    addMappingElements (fun i a o => i.length + a.length + o.length) []
        [("image", "camera", "frame"), ("image", "camera", "frame"), ("image", "camera", "frame")] =
      [{ id := 16, input_name := "image", agent_name := "camera", output_name := "frame" }] :=
  (addMappingElement_idempotent (fun i a o => i.length + a.length + o.length)
    "image" "camera" "frame" 2).1

end Ingescape

namespace Ingescape

/-- C13 fails on the code: the Editor `importAgentsListFromJson` applied to the empty directory
and an entry with a definition and an empty `clones` array sets the parsed definition itself
on the created agent and deletes it at the end of the entry: when the function returns, the
agent holds a definition that no longer exists. -/
theorem Editor.importAgentsListFromJson_keeps_deleted_definition :
    ∃ s', Editor.importAgentsListFromJson Editor.cameraEnv {} definitionWithoutClones =
        some (s', true) ∧
      s'.agents = [some { name := "camera", definition := some 0 }] ∧
      Heap.deref s'.definitions 0 = none :=
  ⟨_, rfl, by decide, by decide⟩

/-- The branch of the same function for an entry with clones makes a copy: the agent holds
the copy (object 1), which is live after the temporary definition (object 0) is deleted. -/
theorem Editor.importAgentsListFromJson_clone_holds_copy :
    ∃ s', Editor.importAgentsListFromJson Editor.cameraEnv {} definitionWithOneClone =
        some (s', true) ∧
      s'.agents = [some { name := "camera", peerId := "peer-1", address := "10.0.0.7",
                          hostname := "host-a", commandLine := "cam --run",
                          definition := some 1 }] ∧
      Heap.deref s'.definitions 0 = none ∧
      Heap.deref s'.definitions 1 =
        some { name := "camera", outputsList := [some { id := "image" }],
               outputsIdsList := ["image"] } :=
  ⟨_, rfl, by decide, by decide, by decide⟩

/-- The sibling function: the Common `importAgentsListFromJson` on the entry without clones
(read in the previous format) gives the agent a copy of the definition. -/
theorem Common.importAgentsListFromJson_copies_without_clones :
    ∃ s', Common.importAgentsListFromJson Common.cameraEnv {} definitionWithoutClones "0.9" =
        some (s', true) ∧
      s'.agents = [some { name := "camera", definition := some 1 }] ∧
      Heap.deref s'.definitions 0 = none ∧
      Heap.deref s'.definitions 1 =
        some { name := "camera", outputsList := [some { id := "image" }],
               outputsIdsList := ["image"] } :=
  ⟨_, rfl, by decide, by decide, by decide⟩

end Ingescape

namespace Ingescape

theorem mem_idsOfOutputs (outputs : List (Option OutputM)) (id : String) :
    id ∈ idsOfOutputs outputs ↔ ∃ o, some o ∈ outputs ∧ o.id = id := by
  simp only [idsOfOutputs, List.mem_filterMap, Option.map_eq_some']
  constructor
  · rintro ⟨x, hx, o, rfl, ho⟩
    exact ⟨o, hx, ho⟩
  · rintro ⟨o, ho, hid⟩
    exact ⟨some o, ho, o, rfl, hid⟩

namespace Editor

theorem mem_idsOfOutputs_filter (ids : List String) (outputs : List (Option OutputM))
    (id : String) :
    id ∈ idsOfOutputs (outputs.filter (outputNotIn ids)) ↔
      id ∈ idsOfOutputs outputs ∧ id ≠ "" ∧ id ∉ ids := by
  simp only [mem_idsOfOutputs, List.mem_filter, outputNotIn_iff]
  constructor
  · rintro ⟨o, ⟨ho, o', ho', hne, hnot⟩, rfl⟩
    cases ho'
    exact ⟨⟨o, ho, rfl⟩, hne, hnot⟩
  · rintro ⟨⟨o, ho, rfl⟩, hne, hnot⟩
    exact ⟨o, ⟨ho, o, rfl, hne, hnot⟩, rfl⟩

/-- C17: in the Editor `onDefinitionReceived` that replaces a previous definition, both
definitions having outputs with non-empty ids (listed in their `outputsIdsList`), the removed
and added lists that the signals carry have disjoint ids, and an id is an output id of the new
definition exactly when it is an output id of the previous definition that is not removed, or
an added id. -/
theorem onDefinitionReceived_diff_applies (env : Env) (jsonHelper : JsonHelper) (s : State)
    (peerId agentName definitionJSON : String) (agent : Nat) (a : AgentM) (newDef : DefinitionM)
    (previousDefinition : Nat) (prev : DefinitionM)
    (hh : env.jsonHelper = some jsonHelper) (hj : definitionJSON ≠ "")
    (hget : getAgentModelFromPeerId s peerId = some agent)
    (ha : Heap.deref s.agents agent = some a)
    (hparse : jsonHelper.createModelOfAgentDefinitionFromBytes definitionJSON = some newDef)
    (hsome : a.definition = some previousDefinition)
    (hprev : Heap.deref s.definitions previousDefinition = some prev)
    (hprevIds : prev.OutputsHaveIds) (hnewIds : newDef.OutputsHaveIds)
    (hprevList : prev.IdsListOutputs) (hnewList : newDef.IdsListOutputs) :
    ∃ s' removedOutputsList addedOutputsList,
      onDefinitionReceived env s peerId agentName definitionJSON = some s' ∧
      removedOutputsList = prev.outputsList.filter (outputNotIn newDef.outputsIdsList) ∧
      addedOutputsList = newDef.outputsList.filter (outputNotIn prev.outputsIdsList) ∧
      s'.log.map Prod.fst = s.log.map Prod.fst ++
        (if removedOutputsList = [] then []
         else [Signal.removeInputsToEditorForOutputs agentName removedOutputsList]) ++
        (if addedOutputsList = [] then []
         else [Signal.addInputsToEditorForOutputs agentName addedOutputsList]) ++
        [Signal.activeAgentDefined agent] ∧
      (∀ id, id ∈ idsOfOutputs removedOutputsList → id ∉ idsOfOutputs addedOutputsList) ∧
      (∀ id, id ∈ idsOfOutputs newDef.outputsList ↔
        (id ∈ idsOfOutputs prev.outputsList ∧ id ∉ idsOfOutputs removedOutputsList) ∨
          id ∈ idsOfOutputs addedOutputsList) := by
  obtain ⟨s', hrun, _, hlog⟩ := onDefinitionReceived_update env jsonHelper s peerId agentName
    definitionJSON agent a newDef previousDefinition prev hh hj hget ha hparse hsome hprev
  refine ⟨s', prev.outputsList.filter (outputNotIn newDef.outputsIdsList),
    newDef.outputsList.filter (outputNotIn prev.outputsIdsList), hrun, rfl, rfl, ?_, ?_, ?_⟩
  · rw [hlog]
    simp only [List.isEmpty_iff, List.map_append, List.map_cons, List.map_nil]
    congr 2
    · congr 1
      split_ifs <;> rfl
    · split_ifs <;> rfl
  · intro id hrem hadd
    rw [mem_idsOfOutputs_filter] at hrem hadd
    exact hadd.2.2 ((hprevList id).mpr hrem.1)
  · intro id
    have hne_new : id ∈ idsOfOutputs newDef.outputsList → id ≠ "" := by
      intro h
      obtain ⟨o, ho, rfl⟩ := (mem_idsOfOutputs _ _).mp h
      exact hnewIds o ho
    have hne_prev : id ∈ idsOfOutputs prev.outputsList → id ≠ "" := by
      intro h
      obtain ⟨o, ho, rfl⟩ := (mem_idsOfOutputs _ _).mp h
      exact hprevIds o ho
    simp only [mem_idsOfOutputs_filter]
    constructor
    · intro hnew
      by_cases hp : id ∈ idsOfOutputs prev.outputsList
      · left
        exact ⟨hp, fun h => h.2.2 ((hnewList id).mpr hnew)⟩
      · right
        exact ⟨hnew, hne_new hnew, fun h => hp ((hprevList id).mp h)⟩
    · rintro (⟨hp, hnot⟩ | ⟨hnew, _, _⟩)
      · by_contra hnew
        exact hnot ⟨hp, hne_prev hp, fun h => hnew ((hnewList id).mp h)⟩
      · exact hnew

/-- Witness of C17: the camera whose definition has the output "image" receives a definition
whose only output is "depth": "image" is removed, "depth" is added. -/
theorem onDefinitionReceived_diff_applies_witness :
    ∃ s', onDefinitionReceived depthEnv cameraState "peer-1" "camera" "{depth}" = some s' ∧
      s'.log.map Prod.fst =
        [Signal.removeInputsToEditorForOutputs "camera" [some { id := "image" }],
         Signal.addInputsToEditorForOutputs "camera" [some { id := "depth" }],
         Signal.activeAgentDefined 0] := by
  obtain ⟨s', removed, added, hrun, hrem, hadd, hsig, _⟩ :=
    onDefinitionReceived_diff_applies depthEnv depthHelper
      cameraState "peer-1" "camera" "{depth}" 0
      { name := "camera", peerId := "peer-1", address := "10.0.0.7", isON := true,
        definition := some 0, mapping := some 0 }
      { name := "camera", outputsList := [some { id := "depth" }], outputsIdsList := ["depth"] }
      0 { name := "camera", outputsList := [some { id := "image" }], outputsIdsList := ["image"] }
      rfl (by decide) (by decide) rfl rfl rfl rfl
      (fun o ho => by
        simp only [List.mem_singleton, Option.some.injEq] at ho
        subst ho
        decide)
      (fun o ho => by
        simp only [List.mem_singleton, Option.some.injEq] at ho
        subst ho
        decide)
      (fun _ => Iff.rfl) (fun _ => Iff.rfl)
  subst hrem hadd
  exact ⟨s', hrun, hsig.trans (by decide)⟩

end Editor

end Ingescape

namespace Ingescape

namespace Editor

/-- C18: in the Editor `onDefinitionReceived` that replaces a previous definition, the signals
emitted are the removal notification (when there is one), the add notification (when there is
one) and `activeAgentDefined`, in this order.  When the removal notification is emitted the
agent still has the previous definition, which exists; when the add notification is emitted the
agent has the new definition and the previous one still exists; when the function returns the
previous definition is deleted. -/
theorem onDefinitionReceived_deletes_after_notifications (env : Env) (jsonHelper : JsonHelper)
    (s : State) (peerId agentName definitionJSON : String) (agent : Nat) (a : AgentM)
    (newDef : DefinitionM) (previousDefinition : Nat) (prev : DefinitionM)
    (hh : env.jsonHelper = some jsonHelper) (hj : definitionJSON ≠ "")
    (hget : getAgentModelFromPeerId s peerId = some agent)
    (ha : Heap.deref s.agents agent = some a)
    (hparse : jsonHelper.createModelOfAgentDefinitionFromBytes definitionJSON = some newDef)
    (hsome : a.definition = some previousDefinition)
    (hprev : Heap.deref s.definitions previousDefinition = some prev) :
    ∃ s' emitted, onDefinitionReceived env s peerId agentName definitionJSON = some s' ∧
      s'.log = s.log ++ emitted ∧
      emitted.map Prod.fst =
        (if prev.outputsList.filter (outputNotIn newDef.outputsIdsList) = [] then []
         else [Signal.removeInputsToEditorForOutputs agentName
                (prev.outputsList.filter (outputNotIn newDef.outputsIdsList))]) ++
        (if newDef.outputsList.filter (outputNotIn prev.outputsIdsList) = [] then []
         else [Signal.addInputsToEditorForOutputs agentName
                (newDef.outputsList.filter (outputNotIn prev.outputsIdsList))]) ++
        [Signal.activeAgentDefined agent] ∧
      (∀ outputs dir, (Signal.removeInputsToEditorForOutputs agentName outputs, dir) ∈ emitted →
        Heap.deref dir.agents agent = some a ∧
        Heap.deref dir.definitions previousDefinition = some prev) ∧
      (∀ outputs dir, (Signal.addInputsToEditorForOutputs agentName outputs, dir) ∈ emitted →
        Heap.deref dir.agents agent =
          some { a with definition := some (Heap.fresh s.definitions) } ∧
        Heap.deref dir.definitions (Heap.fresh s.definitions) = some newDef ∧
        Heap.deref dir.definitions previousDefinition = some prev) ∧
      Heap.deref s'.agents agent = some { a with definition := some (Heap.fresh s.definitions) } ∧
      Heap.deref s'.definitions (Heap.fresh s.definitions) = some newDef ∧
      Heap.deref s'.definitions previousDefinition = none := by
  obtain ⟨s', hrun, hdir, hlog⟩ := onDefinitionReceived_update env jsonHelper s peerId agentName
    definitionJSON agent a newDef previousDefinition prev hh hj hget ha hparse hsome hprev
  have hprev1 := Heap.deref_alloc_of_some newDef hprev
  have hne : Heap.fresh s.definitions ≠ previousDefinition := by
    intro e
    rw [← e, Heap.deref_fresh] at hprev
    cases hprev
  have hagent : Heap.deref (Heap.store s.agents agent
      { a with definition := some (Heap.fresh s.definitions) }) agent =
      some { a with definition := some (Heap.fresh s.definitions) } := by
    rw [Heap.deref_store, if_pos ⟨rfl, Heap.deref_lt ha⟩]
  have hdefs : s'.definitions = Heap.free (Heap.alloc s.definitions newDef) previousDefinition :=
    congrArg Dir.definitions hdir
  have hagents : s'.agents = Heap.store s.agents agent
      { a with definition := some (Heap.fresh s.definitions) } := congrArg Dir.agents hdir
  rw [List.append_assoc, List.append_assoc] at hlog
  refine ⟨s', _, hrun, hlog, ?_, ?_, ?_, ?_, ?_, ?_⟩
  · simp only [List.isEmpty_iff, List.map_append, List.map_cons, List.map_nil,
      List.append_assoc]
    split_ifs <;> rfl
  · intro outputs dir hmem
    simp only [List.mem_append, List.mem_singleton, Prod.mk.injEq] at hmem
    rcases hmem with hmem | hmem | hmem
    · split_ifs at hmem
      · cases hmem
      · simp only [List.mem_singleton, Prod.mk.injEq] at hmem
        rw [hmem.2]
        exact ⟨ha, hprev1⟩
    · split_ifs at hmem
      · cases hmem
      · simp only [List.mem_singleton, Prod.mk.injEq] at hmem
        cases hmem.1
    · cases hmem.1
  · intro outputs dir hmem
    simp only [List.mem_append, List.mem_singleton, Prod.mk.injEq] at hmem
    rcases hmem with hmem | hmem | hmem
    · split_ifs at hmem
      · cases hmem
      · simp only [List.mem_singleton, Prod.mk.injEq] at hmem
        cases hmem.1
    · split_ifs at hmem
      · cases hmem
      · simp only [List.mem_singleton, Prod.mk.injEq] at hmem
        rw [hmem.2]
        exact ⟨hagent, Heap.deref_alloc_fresh _ _, hprev1⟩
    · cases hmem.1
  · rw [hagents]
    exact hagent
  · rw [hdefs, Heap.deref_free, if_neg hne]
    exact Heap.deref_alloc_fresh _ _
  · rw [hdefs, Heap.deref_free, if_pos rfl]

/-- Witness of C18: the camera whose definition (object 0) has the output "image" receives a
definition whose only output is "depth". -/
theorem onDefinitionReceived_deletes_after_notifications_witness :
    ∃ s', onDefinitionReceived depthEnv cameraState "peer-1" "camera" "{depth}" = some s' ∧
      s'.log.map (fun e => (e.1, (Heap.deref e.2.definitions 0).isSome)) =
        [(Signal.removeInputsToEditorForOutputs "camera" [some { id := "image" }], true),
         (Signal.addInputsToEditorForOutputs "camera" [some { id := "depth" }], true),
         (Signal.activeAgentDefined 0, false)] ∧
      Heap.deref s'.definitions 0 = none := by
  obtain ⟨s', emitted, hrun, _, _, _, _, _, _, hdel⟩ :=
    onDefinitionReceived_deletes_after_notifications depthEnv depthHelper
      cameraState "peer-1" "camera" "{depth}" 0
      { name := "camera", peerId := "peer-1", address := "10.0.0.7", isON := true,
        definition := some 0, mapping := some 0 }
      { name := "camera", outputsList := [some { id := "depth" }], outputsIdsList := ["depth"] }
      0 { name := "camera", outputsList := [some { id := "image" }], outputsIdsList := ["image"] }
      rfl (by decide) (by decide) rfl rfl rfl rfl
  refine ⟨s', hrun, ?_, hdel⟩
  have hs : onDefinitionReceived depthEnv cameraState "peer-1" "camera" "{depth}" = some _ := rfl
  rw [hs] at hrun
  cases hrun
  decide

end Editor

end Ingescape

namespace Ingescape.Mastic

theorem hasVariants_congr {h1 h2 : Heap DefinitionM} {l1 l2 : List (Option Nat)} {v : String}
    (hmem : ∀ o, o ∈ l2 ↔ o ∈ l1) (hv : ∀ p, versionOf h2 p = versionOf h1 p)
    (hm : ∀ p, md5Of h2 p = md5Of h1 p) : HasVariants h2 l2 v ↔ HasVariants h1 l1 v := by
  unfold HasVariants
  constructor
  · rintro ⟨q, r, hq, hr, hvq, hvr, hne⟩
    exact ⟨q, r, (hmem _).mp hq, (hmem _).mp hr, by rw [← hv]; exact hvq, by rw [← hv]; exact hvr,
      by rw [← hm, ← hm]; exact hne⟩
  · rintro ⟨q, r, hq, hr, hvq, hvr, hne⟩
    exact ⟨q, r, (hmem _).mpr hq, (hmem _).mpr hr, by rw [hv]; exact hvq, by rw [hv]; exact hvr,
      by rw [hm, hm]; exact hne⟩

/-- The flags depend on the heap and on the entries of the list only. -/
theorem updateDefinitionVariants_determined (s1 s2 : State) (definitionName : String)
    (hdefs : s2.definitions = s1.definitions)
    (hmem : ∀ o, o ∈ getAgentDefinitionsListFromName s2 definitionName ↔
      o ∈ getAgentDefinitionsListFromName s1 definitionName)
    (hlive : ∀ p, some p ∈ getAgentDefinitionsListFromName s1 definitionName →
      (Heap.deref s1.definitions p).isSome) :
    ∃ defs, _updateDefinitionVariants s1 definitionName = some { s1 with definitions := defs } ∧
      _updateDefinitionVariants s2 definitionName = some { s2 with definitions := defs } := by
  obtain ⟨defs1, hrun1, hlen1, hspec1⟩ := updateDefinitionVariants_spec s1 definitionName hlive
  obtain ⟨defs2, hrun2, hlen2, hspec2⟩ := updateDefinitionVariants_spec s2 definitionName
    (fun p hp => by rw [hdefs]; exact hlive p ((hmem _).mp hp))
  have heq : defs2 = defs1 := by
    apply Heap.ext_deref (by rw [hlen1, hlen2, hdefs])
    intro p
    cases hd : Heap.deref s1.definitions p with
    | none =>
      rw [(hspec1 p).1 hd, (hspec2 p).1 (by rw [hdefs]; exact hd)]
    | some d =>
      have h1 := (hspec1 p).2 d hd
      have h2 := (hspec2 p).2 d (by rw [hdefs]; exact hd)
      by_cases hc : some p ∈ getAgentDefinitionsListFromName s1 definitionName ∧ d.version ≠ ""
      · obtain ⟨b1, hb1, hiff1⟩ := h1.1 hc
        obtain ⟨b2, hb2, hiff2⟩ := h2.1 ⟨(hmem _).mpr hc.1, hc.2⟩
        have hvar : HasVariants s2.definitions (getAgentDefinitionsListFromName s2 definitionName)
            d.version ↔ HasVariants s1.definitions
              (getAgentDefinitionsListFromName s1 definitionName) d.version :=
          hasVariants_congr hmem (fun q => by rw [hdefs]) (fun q => by rw [hdefs])
        have hb : b2 = b1 := by
          apply Bool.eq_iff_iff.mpr
          rw [hiff1, hiff2, hvar]
        rw [hb1, hb2, hb]
      · rw [h1.2 hc, h2.2 (fun h => hc ⟨(hmem _).mp h.1, h.2⟩)]
  rw [heq] at hrun2
  exact ⟨defs1, hrun1, hrun2⟩

/-- A second run of `_updateDefinitionVariants` changes nothing. -/
theorem updateDefinitionVariants_again (s : State) (definitionName : String)
    (defs : Heap DefinitionM)
    (hlive : ∀ p, some p ∈ getAgentDefinitionsListFromName s definitionName →
      (Heap.deref s.definitions p).isSome)
    (hrun : _updateDefinitionVariants s definitionName = some { s with definitions := defs }) :
    _updateDefinitionVariants { s with definitions := defs } definitionName =
      some { s with definitions := defs } := by
  obtain ⟨defs1, hrun1, hlen1, hspec1⟩ := updateDefinitionVariants_spec s definitionName hlive
  have hd1 : defs = defs1 := by
    rw [hrun] at hrun1
    exact congrArg (fun t : State => t.definitions) (Option.some.inj hrun1)
  subst hd1
  have hL : getAgentDefinitionsListFromName { s with definitions := defs } definitionName =
      getAgentDefinitionsListFromName s definitionName := rfl
  -- version and hash of every object are kept by the first run
  have hkeep : ∀ p, versionOf defs p = versionOf s.definitions p ∧
      md5Of defs p = md5Of s.definitions p := by
    intro p
    unfold versionOf md5Of
    cases hd : Heap.deref s.definitions p with
    | none => rw [(hspec1 p).1 hd]; exact ⟨rfl, rfl⟩
    | some d =>
      have h1 := (hspec1 p).2 d hd
      by_cases hc : some p ∈ getAgentDefinitionsListFromName s definitionName ∧ d.version ≠ ""
      · obtain ⟨b1, hb1, _⟩ := h1.1 hc
        rw [hb1]; exact ⟨rfl, rfl⟩
      · rw [h1.2 hc]; exact ⟨rfl, rfl⟩
  have hlive2 : ∀ p, some p ∈ getAgentDefinitionsListFromName { s with definitions := defs }
      definitionName → (Heap.deref ({ s with definitions := defs } : State).definitions p).isSome := by
    intro p hp
    rw [hL] at hp
    have hl := hlive p hp
    obtain ⟨d, hd⟩ := Option.isSome_iff_exists.mp hl
    have h1 := (hspec1 p).2 d hd
    by_cases hc : some p ∈ getAgentDefinitionsListFromName s definitionName ∧ d.version ≠ ""
    · obtain ⟨b1, hb1, _⟩ := h1.1 hc
      show (Heap.deref defs p).isSome
      rw [hb1]; rfl
    · show (Heap.deref defs p).isSome
      rw [h1.2 hc]; rfl
  obtain ⟨defs2, hrun2, hlen2, hspec2⟩ :=
    updateDefinitionVariants_spec { s with definitions := defs } definitionName hlive2
  have heq : defs2 = defs := by
    apply Heap.ext_deref hlen2
    intro p
    cases hd' : Heap.deref defs p with
    | none => exact (hspec2 p).1 hd'
    | some d' =>
      have h2 := (hspec2 p).2 d' hd'
      rw [hL] at h2
      by_cases hc : some p ∈ getAgentDefinitionsListFromName s definitionName ∧ d'.version ≠ ""
      · obtain ⟨b2, hb2, hiff2⟩ := h2.1 hc
        -- the first run on the same object
        cases hd : Heap.deref s.definitions p with
        | none => rw [(hspec1 p).1 hd] at hd'; cases hd'
        | some d =>
          have hv : d'.version = d.version := by
            have := (hkeep p).1
            unfold versionOf at this
            rw [hd', hd] at this
            exact this
          obtain ⟨b1, hb1, hiff1⟩ := ((hspec1 p).2 d hd).1 ⟨hc.1, by rw [← hv]; exact hc.2⟩
          have hvar : HasVariants defs (getAgentDefinitionsListFromName s definitionName)
              d'.version ↔ HasVariants s.definitions
                (getAgentDefinitionsListFromName s definitionName) d.version := by
            rw [hv]
            exact hasVariants_congr (fun _ => Iff.rfl) (fun q => (hkeep q).1)
              (fun q => (hkeep q).2)
          have hb : b2 = b1 := by
            apply Bool.eq_iff_iff.mpr
            rw [hiff1, hiff2]
            exact hvar
          rw [hb1] at hd'
          have hd'' := Option.some.inj hd'
          rw [hb2, hb, ← hd'']
      · exact h2.2 hc
  rw [heq] at hrun2
  exact hrun2

end Ingescape.Mastic

namespace Ingescape.Mastic

/-- C19: for two managers with the same definitions whose lists for the name are permutations
of each other (the listed definitions being live), `_updateDefinitionVariants` returns for both
and leaves the same definitions, so each definition gets the same flag; and running it a second
time returns the same state. -/
theorem updateDefinitionVariants_order_independent (s1 s2 : State) (definitionName : String)
    (hdefs : s2.definitions = s1.definitions)
    (hperm : (getAgentDefinitionsListFromName s2 definitionName).Perm
      (getAgentDefinitionsListFromName s1 definitionName))
    (hlive : ∀ p, some p ∈ getAgentDefinitionsListFromName s1 definitionName →
      (Heap.deref s1.definitions p).isSome) :
    ∃ defs, _updateDefinitionVariants s1 definitionName = some { s1 with definitions := defs } ∧
      _updateDefinitionVariants s2 definitionName = some { s2 with definitions := defs } ∧
      _updateDefinitionVariants { s1 with definitions := defs } definitionName =
        some { s1 with definitions := defs } := by
  obtain ⟨defs, hrun1, hrun2⟩ := updateDefinitionVariants_determined s1 s2 definitionName hdefs
    (fun _ => hperm.mem_iff) hlive
  exact ⟨defs, hrun1, hrun2, updateDefinitionVariants_again s1 definitionName defs hlive hrun1⟩

/-- Witness of C19: the three sample definitions listed as 0, 1, 2 and as 2, 0, 1. -/
theorem updateDefinitionVariants_order_independent_witness :
    ∃ defs, _updateDefinitionVariants sampleState "sensor" =
        some { sampleState with definitions := defs } ∧
      _updateDefinitionVariants permutedState "sensor" =
        some { permutedState with definitions := defs } ∧
      _updateDefinitionVariants { sampleState with definitions := defs } "sensor" =
        some { sampleState with definitions := defs } :=
  updateDefinitionVariants_order_independent sampleState permutedState "sensor" rfl
    (by
      have h1 : getAgentDefinitionsListFromName sampleState "sensor" = [some 0, some 1, some 2] := by
        decide
      have h2 : getAgentDefinitionsListFromName permutedState "sensor" = [some 2, some 0, some 1] := by
        decide
      rw [h1, h2]
      decide)
    (by
      intro p hp
      have hl : getAgentDefinitionsListFromName sampleState "sensor" = [some 0, some 1, some 2] := by
        decide
      rw [hl] at hp
      simp only [List.mem_cons, Option.some.injEq, List.mem_singleton, List.not_mem_nil,
        or_false] at hp
      rcases hp with h | h | h <;> subst h <;> decide)

end Ingescape.Mastic

namespace Ingescape.Mastic

theorem hasVariants_free {h : Heap DefinitionM} {l : List (Option Nat)} {v : String} {p : Nat}
    (hp : some p ∉ l) : HasVariants (Heap.free h p) l v ↔ HasVariants h l v := by
  have hkeep : ∀ q, some q ∈ l → versionOf (Heap.free h p) q = versionOf h q ∧
      md5Of (Heap.free h p) q = md5Of h q := by
    intro q hq
    have hne : q ≠ p := fun e => hp (e ▸ hq)
    unfold versionOf md5Of
    rw [Heap.deref_free, if_neg hne]
    exact ⟨rfl, rfl⟩
  unfold HasVariants
  constructor
  · rintro ⟨q, r, hq, hr, hvq, hvr, hne⟩
    refine ⟨q, r, hq, hr, ?_, ?_, ?_⟩
    · rw [← (hkeep q hq).1]; exact hvq
    · rw [← (hkeep r hr).1]; exact hvr
    · rw [← (hkeep q hq).2, ← (hkeep r hr).2]; exact hne
  · rintro ⟨q, r, hq, hr, hvq, hvr, hne⟩
    refine ⟨q, r, hq, hr, ?_, ?_, ?_⟩
    · rw [(hkeep q hq).1]; exact hvq
    · rw [(hkeep r hr).1]; exact hvr
    · rw [(hkeep q hq).2, (hkeep r hr).2]; exact hne

/-- C20: `deleteAgentDefinition(d)` on a definition `d` of a manager whose list for the name of
`d` holds live definitions, each once.  The call returns; `d` is deleted and no longer in the
list, which is the previous list without `d`; every remaining definition with a non-empty
version keeps its properties, with a flag that is true exactly when two remaining definitions
carry its version with different hashes; in particular, when the remaining definitions of a
non-empty version all have the same hash, none of them is flagged. -/
theorem deleteAgentDefinition_updates_variants (s : State) (p : Nat) (d : DefinitionM)
    (hd : Heap.deref s.definitions p = some d)
    (hlive : ∀ q, some q ∈ getAgentDefinitionsListFromName s d.name →
      (Heap.deref s.definitions q).isSome)
    (hnodup : (getAgentDefinitionsListFromName s d.name).Nodup) :
    ∃ s', deleteAgentDefinition s (some p) = some s' ∧
      getAgentDefinitionsListFromName s' d.name =
        (getAgentDefinitionsListFromName s d.name).erase (some p) ∧
      some p ∉ getAgentDefinitionsListFromName s' d.name ∧
      Heap.deref s'.definitions p = none ∧
      (∀ q dq, some q ∈ getAgentDefinitionsListFromName s' d.name →
        Heap.deref s.definitions q = some dq → dq.version ≠ "" →
        ∃ b, Heap.deref s'.definitions q = some { dq with isVariant := b } ∧
          (b = true ↔ HasVariants s.definitions (getAgentDefinitionsListFromName s' d.name)
            dq.version)) ∧
      (∀ version, version ≠ "" →
        (∀ q r, some q ∈ getAgentDefinitionsListFromName s' d.name →
          some r ∈ getAgentDefinitionsListFromName s' d.name →
          versionOf s.definitions q = version → versionOf s.definitions r = version →
          md5Of s.definitions q = md5Of s.definitions r) →
        ∀ q dq, some q ∈ getAgentDefinitionsListFromName s' d.name →
          Heap.deref s.definitions q = some dq → dq.version = version →
          Heap.deref s'.definitions q = some { dq with isVariant := false }) := by
  obtain ⟨L, hL⟩ : ∃ L, L = getAgentDefinitionsListFromName s d.name := ⟨_, rfl⟩
  obtain ⟨s2, hs2⟩ : ∃ s2 : State, s2 = { s with
      mapFromNameToAgentDefinitionsList :=
        QHash.insert s.mapFromNameToAgentDefinitionsList d.name (L.erase (some p))
      definitions := Heap.free s.definitions p } := ⟨_, rfl⟩
  have hunf : deleteAgentDefinition s (some p) = _updateDefinitionVariants s2 d.name := by
    simp only [deleteAgentDefinition, hd, Heap.delete, hs2, hL]
  have hL2 : getAgentDefinitionsListFromName s2 d.name = L.erase (some p) := by
    rw [getAgentDefinitionsListFromName_eq, hs2]
    simp only [QHash.find_insert, if_true, Option.getD_some]
  have hnd : L.Nodup := hL ▸ hnodup
  have hmem : ∀ o, o ∈ L.erase (some p) ↔ o ≠ some p ∧ o ∈ L := fun o => hnd.mem_erase_iff
  have hpnot : some p ∉ L.erase (some p) := fun h => ((hmem _).mp h).1 rfl
  have hdefs2 : s2.definitions = Heap.free s.definitions p := by rw [hs2]
  have hlive2 : ∀ q, some q ∈ getAgentDefinitionsListFromName s2 d.name →
      (Heap.deref s2.definitions q).isSome := by
    intro q hq
    rw [hL2] at hq
    have h1 := (hmem _).mp hq
    have hne : q ≠ p := fun e => h1.1 (by rw [e])
    rw [hdefs2, Heap.deref_free, if_neg hne]
    exact hlive q (hL ▸ h1.2)
  obtain ⟨defs, hrun, hlen, hspec⟩ := updateDefinitionVariants_spec s2 d.name hlive2
  have hL3 : getAgentDefinitionsListFromName { s2 with definitions := defs } d.name =
      L.erase (some p) := hL2
  have hflag : ∀ q dq, some q ∈ L.erase (some p) →
      Heap.deref s.definitions q = some dq → dq.version ≠ "" →
      ∃ b, Heap.deref defs q = some { dq with isVariant := b } ∧
        (b = true ↔ HasVariants s.definitions (L.erase (some p)) dq.version) := by
    intro q dq hq hdq hv
    have hne : q ≠ p := fun e => ((hmem _).mp hq).1 (by rw [e])
    have hdq2 : Heap.deref s2.definitions q = some dq := by
      rw [hdefs2, Heap.deref_free, if_neg hne]
      exact hdq
    obtain ⟨b, hb, hiff⟩ := ((hspec q).2 dq hdq2).1 ⟨by rw [hL2]; exact hq, hv⟩
    refine ⟨b, hb, ?_⟩
    rw [hiff, hL2, hdefs2]
    exact hasVariants_free hpnot
  refine ⟨{ s2 with definitions := defs }, hunf.trans hrun, ?_, ?_, ?_, ?_, ?_⟩
  · rw [hL3, hL]
  · rw [hL3]; exact hpnot
  · have hnone : Heap.deref s2.definitions p = none := by
      rw [hdefs2, Heap.deref_free, if_pos rfl]
    exact (hspec p).1 hnone
  · intro q dq hq hdq hv
    rw [hL3] at hq ⊢
    exact hflag q dq hq hdq hv
  · intro version hversion hsame q dq hq hdq hv
    rw [hL3] at hq hsame
    obtain ⟨b, hb, hiff⟩ := hflag q dq hq hdq (by rw [hv]; exact hversion)
    have hfalse : b = false := by
      cases b with
      | false => rfl
      | true =>
        exfalso
        obtain ⟨q1, r1, hq1, hr1, hvq, hvr, hne⟩ := hiff.mp rfl
        exact hne (hsame q1 r1 hq1 hr1 (by rw [hvq, hv]) (by rw [hvr, hv]))
    rw [hb, hfalse]

end Ingescape.Mastic

namespace Ingescape.Mastic

/-- Witness of C20: definition 1, the only one of version "1.0" with the hash "bb", is deleted
from the flagged sample: definition 0 is no longer flagged. -/
theorem deleteAgentDefinition_updates_variants_witness :
    ∃ s', deleteAgentDefinition flaggedState (some 1) = some s' ∧
      s'.definitions =
        [some { name := "sensor", version := "1.0", md5Hash := "aa", isVariant := false },
         none,
         some { name := "sensor", version := "2.0", md5Hash := "aa" }] ∧
      getAgentDefinitionsListFromName s' "sensor" = [some 0, some 2] := by
  obtain ⟨s', hrun, _⟩ := deleteAgentDefinition_updates_variants flaggedState 1
    { name := "sensor", version := "1.0", md5Hash := "bb", isVariant := true } rfl
    (by
      intro q hq
      have hl : getAgentDefinitionsListFromName flaggedState "sensor" =
          [some 0, some 1, some 2] := by decide
      rw [hl] at hq
      simp only [List.mem_cons, Option.some.injEq, List.mem_singleton, List.not_mem_nil,
        or_false] at hq
      rcases hq with h | h | h <;> subst h <;> decide)
    (by
      have hl : getAgentDefinitionsListFromName flaggedState "sensor" =
          [some 0, some 1, some 2] := by decide
      rw [hl]
      decide)
  have hs : deleteAgentDefinition flaggedState (some 1) = some _ := rfl
  rw [hs] at hrun
  cases hrun
  exact ⟨_, rfl, by decide, by decide⟩

end Ingescape.Mastic

namespace Ingescape

namespace Common

/-- The groups after `createAgentModel` with a non-empty name. -/
theorem createAgentModel_groups (s : State) (agentName : String) (definition : Option Nat)
    (peerId ipAddress hostname commandLine : String) (isON : Bool) (hname : agentName ≠ "")
    (hg : ∀ n g, QHash.find s.hashFromNameToAgentsGrouped n = some g →
      (Heap.deref s.groups g).isSome) :
    ∃ s', createAgentModel s agentName definition peerId ipAddress hostname commandLine isON =
        some (s', some (Heap.fresh s.agents)) ∧
      (∀ g, QHash.find s.hashFromNameToAgentsGrouped agentName = some g →
        ∃ vm, Heap.deref s.groups g = some vm ∧
          s'.groups = Heap.store s.groups g
            { vm with models := vm.models ++ [Heap.fresh s.agents] } ∧
          s'.hashFromNameToAgentsGrouped = s.hashFromNameToAgentsGrouped ∧
          s'.allAgentsGroupsByName = s.allAgentsGroupsByName) ∧
      (QHash.find s.hashFromNameToAgentsGrouped agentName = none →
        s'.groups = Heap.alloc s.groups { name := agentName, models := [Heap.fresh s.agents] } ∧
        s'.hashFromNameToAgentsGrouped =
          QHash.insert s.hashFromNameToAgentsGrouped agentName (Heap.fresh s.groups) ∧
        s'.allAgentsGroupsByName = s.allAgentsGroupsByName ++ [Heap.fresh s.groups]) := by
  have hrec : (match definition with
      | some d => ({ name := agentName, peerId := peerId, address := ipAddress, hostname := hostname,
                     commandLine := commandLine, isON := isON, definition := some d } : AgentM)
      | none => { name := agentName, peerId := peerId, address := ipAddress, hostname := hostname,
                  commandLine := commandLine, isON := isON }) =
      { name := agentName, peerId := peerId, address := ipAddress, hostname := hostname,
        commandLine := commandLine, isON := isON, definition := definition } := by
    cases definition <;> rfl
  obtain ⟨s3, hs3, h3a, h3g, h3n, h3l⟩ : ∃ s3 : State,
      createAgentModel s agentName definition peerId ipAddress hostname commandLine isON =
        (match getAgentsGroupedForName s3 agentName with
          | some agentsGroupedByName =>
            (addNewAgentModel s3 agentsGroupedByName (Heap.fresh s.agents)).map
              (fun s4 => (s4, some (Heap.fresh s.agents)))
          | none =>
            (_createAgentsGroupedByName s3 (some (Heap.fresh s.agents))).map
              (fun s4 => (s4, some (Heap.fresh s.agents)))) ∧
      s3.agents = Heap.alloc s.agents
        { name := agentName, peerId := peerId, address := ipAddress, hostname := hostname,
          commandLine := commandLine, isON := isON, definition := definition } ∧
      s3.groups = s.groups ∧
      s3.hashFromNameToAgentsGrouped = s.hashFromNameToAgentsGrouped ∧
      s3.allAgentsGroupsByName = s.allAgentsGroupsByName := by
    unfold createAgentModel
    rw [if_pos hname]
    simp only [hrec]
    refine ⟨_, rfl, ?_, ?_, ?_, ?_⟩ <;>
      by_cases hp : peerId = "" <;> simp [emit, hp]
  rw [hs3, common_getAgentsGroupedForName_eq, h3n]
  cases hgrp : QHash.find s.hashFromNameToAgentsGrouped agentName with
  | some g =>
    obtain ⟨vm, hvm, hadd⟩ := addNewAgentModel_spec s3 g (Heap.fresh s.agents)
      (by rw [h3g]; exact hg agentName g hgrp)
    simp only [hadd, Option.map_some']
    refine ⟨_, rfl, ?_, (fun h => by cases h)⟩
    intro g' hg'
    cases hg'
    rw [h3g] at hvm
    exact ⟨vm, hvm, by simp only [h3g], h3n, h3l⟩
  | none =>
    have ha3 : Heap.deref s3.agents (Heap.fresh s.agents) = some
        { name := agentName, peerId := peerId, address := ipAddress, hostname := hostname,
          commandLine := commandLine, isON := isON, definition := definition } := by
      rw [h3a, Heap.deref_alloc_fresh]
    obtain ⟨s4, hcr, _, _, _, _, h4g, h4n, h4l⟩ :=
      createAgentsGroupedByName_spec s3 (Heap.fresh s.agents) _ ha3 hname
    simp only [hcr, Option.map_some']
    refine ⟨_, rfl, (fun g h => by cases h), fun _ => ?_⟩
    refine ⟨by rw [h4g, h3g], by rw [h4n, h3n, h3g], by rw [h4l, h3l, h3g]⟩

theorem groupsInv_empty : GroupsInv {} := by
  refine ⟨?_, ?_, List.nodup_nil, ?_⟩
  · intro n g h
    cases h
  · intro g h
    cases h
  · intro g h
    simp [Heap.deref] at h

theorem GroupsInv.live {s : State} (inv : GroupsInv s) :
    ∀ n g, QHash.find s.hashFromNameToAgentsGrouped n = some g →
      (Heap.deref s.groups g).isSome := by
  intro n g h
  obtain ⟨_, vm, hvm, _⟩ := inv.hashed n g h
  rw [hvm]; rfl

/-- The consistency of the groups is kept when an agent joins the group of its name. -/
theorem groupsInv_join (s s' : State) (g : Nat) (vm : AgentsGroupedByNameVM) (models : List Nat)
    (inv : GroupsInv s) (hvm : Heap.deref s.groups g = some vm)
    (hgroups : s'.groups = Heap.store s.groups g { vm with models := models })
    (hhash : s'.hashFromNameToAgentsGrouped = s.hashFromNameToAgentsGrouped)
    (hlist : s'.allAgentsGroupsByName = s.allAgentsGroupsByName) : GroupsInv s' := by
  have hname : ∀ q x, Heap.deref s.groups q = some x →
      ∃ y, Heap.deref s'.groups q = some y ∧ y.name = x.name := by
    intro q x hx
    rw [hgroups, Heap.deref_store]
    split_ifs with h1
    · refine ⟨_, rfl, ?_⟩
      rw [h1.1, hvm] at hx
      cases hx
      rfl
    · exact ⟨x, hx, rfl⟩
  refine ⟨?_, ?_, ?_, ?_⟩
  · intro n q h
    rw [hhash] at h
    obtain ⟨hq, x, hx, hn⟩ := inv.hashed n q h
    obtain ⟨y, hy, hyn⟩ := hname q x hx
    exact ⟨by rw [hlist]; exact hq, y, hy, hyn.trans hn⟩
  · intro q hq
    rw [hlist] at hq
    obtain ⟨x, hx, hf⟩ := inv.listed q hq
    obtain ⟨y, hy, hyn⟩ := hname q x hx
    exact ⟨y, hy, by rw [hhash, hyn]; exact hf⟩
  · rw [hlist]; exact inv.nodup
  · intro q hq
    rw [hlist]
    apply inv.liveListed
    rw [hgroups, Heap.deref_store] at hq
    split_ifs at hq with h1
    · rw [h1.1, hvm]; rfl
    · exact hq

/-- The consistency of the groups is kept when a group is created for a name without group. -/
theorem groupsInv_new (s s' : State) (name : String) (models : List Nat)
    (inv : GroupsInv s) (hnone : QHash.find s.hashFromNameToAgentsGrouped name = none)
    (hgroups : s'.groups = Heap.alloc s.groups { name := name, models := models })
    (hhash : s'.hashFromNameToAgentsGrouped =
      QHash.insert s.hashFromNameToAgentsGrouped name (Heap.fresh s.groups))
    (hlist : s'.allAgentsGroupsByName = s.allAgentsGroupsByName ++ [Heap.fresh s.groups]) :
    GroupsInv s' := by
  have hfresh : Heap.fresh s.groups ∉ s.allAgentsGroupsByName := by
    intro h
    obtain ⟨x, hx, _⟩ := inv.listed _ h
    rw [Heap.deref_fresh] at hx
    cases hx
  refine ⟨?_, ?_, ?_, ?_⟩
  · intro n q h
    rw [hhash, QHash.find_insert] at h
    rw [hlist, hgroups]
    split_ifs at h with hn
    · cases h
      exact ⟨by simp, _, Heap.deref_alloc_fresh _ _, hn.symm⟩
    · obtain ⟨hq, x, hx, hxn⟩ := inv.hashed n q h
      exact ⟨List.mem_append_left _ hq, x, Heap.deref_alloc_of_some _ hx, hxn⟩
  · intro q hq
    rw [hlist] at hq
    rw [hgroups, hhash]
    rcases List.mem_append.mp hq with h | h
    · obtain ⟨x, hx, hf⟩ := inv.listed q h
      refine ⟨x, Heap.deref_alloc_of_some _ hx, ?_⟩
      rw [QHash.find_insert]
      have hne : x.name ≠ name := by
        intro e
        rw [e, hnone] at hf
        cases hf
      rw [if_neg hne]
      exact hf
    · rw [List.mem_singleton] at h
      subst h
      refine ⟨_, Heap.deref_alloc_fresh _ _, ?_⟩
      rw [QHash.find_insert, if_pos rfl]
  · rw [hlist]
    apply List.Nodup.append inv.nodup (List.nodup_singleton _)
    intro q hq hq'
    rw [List.mem_singleton] at hq'
    subst hq'
    exact hfresh hq
  · intro q hq
    rw [hlist]
    rw [hgroups, Heap.deref_alloc] at hq
    split_ifs at hq with h1
    · rw [h1]; simp
    · exact List.mem_append_left _ (inv.liveListed q hq)

end Common

end Ingescape

namespace Ingescape

namespace Common

/-- What `deleteAgentsGroupedByName` does on a live group with a non-empty name. -/
theorem deleteAgentsGroupedByName_inv (clear : State → Nat → Option State) (s : State)
    (g : Nat) (vm : AgentsGroupedByNameVM) (inv : GroupsInv s)
    (hvm : Heap.deref s.groups g = some vm) (hname : vm.name ≠ "")
    (hclear : ClearsGroup clear s g) :
    ∃ s', deleteAgentsGroupedByName clear s (some g) = some s' ∧ GroupsInv s' ∧
      s'.hashFromNameToAgentsGrouped = QHash.remove s.hashFromNameToAgentsGrouped vm.name ∧
      s'.allAgentsGroupsByName = s.allAgentsGroupsByName.erase g ∧
      Heap.deref s'.groups g = none := by
  obtain ⟨s1, hs1, hhash1, hlist1, hnames⟩ := hclear
  have hkeep : ∀ q x, Heap.deref s.groups q = some x →
      ∃ y, Heap.deref s1.groups q = some y ∧ y.name = x.name := by
    intro q x hx
    have := hnames q
    rw [hx] at this
    cases hy : Heap.deref s1.groups q with
    | none => rw [hy] at this; cases this
    | some y =>
      rw [hy] at this
      exact ⟨y, rfl, Option.some.inj this⟩
  have hback : ∀ q, (Heap.deref s1.groups q).isSome → (Heap.deref s.groups q).isSome := by
    intro q hq
    have := hnames q
    cases hx : Heap.deref s.groups q with
    | none =>
      rw [hx] at this
      obtain ⟨y, hy⟩ := Option.isSome_iff_exists.mp hq
      rw [hy] at this
      cases this
    | some x => rfl
  obtain ⟨vm1, hvm1, hvm1n⟩ := hkeep g vm hvm
  have hglisted : QHash.find s.hashFromNameToAgentsGrouped vm.name = some g := by
    obtain ⟨x, hx, hf⟩ := inv.listed g (inv.liveListed g (by rw [hvm]; rfl))
    rw [hvm] at hx
    cases hx
    exact hf
  refine ⟨{ emit { s1 with
      hashFromNameToAgentsGrouped := QHash.remove s1.hashFromNameToAgentsGrouped vm1.name
      allAgentsGroupsByName := s1.allAgentsGroupsByName.erase g }
      (Signal.agentsGroupedByNameWillBeDeleted g) with groups := Heap.free s1.groups g },
    ?_, ?_, ?_, ?_, ?_⟩
  · simp only [deleteAgentsGroupedByName, hvm, if_pos hname, hs1, hvm1, emit, Heap.delete,
      Option.map_some']
  · refine ⟨?_, ?_, ?_, ?_⟩
    · intro n q h
      simp only [emit, hhash1, hvm1n, QHash.find_remove] at h
      split_ifs at h with hn
      obtain ⟨hq, x, hx, hxn⟩ := inv.hashed n q h
      have hne : q ≠ g := by
        intro e
        rw [e, hvm] at hx
        cases hx
        exact hn hxn.symm
      obtain ⟨y, hy, hyn⟩ := hkeep q x hx
      refine ⟨?_, y, ?_, hyn.trans hxn⟩
      · simp only [emit, hlist1]
        exact (List.mem_erase_of_ne hne).mpr hq
      · simp only [emit, Heap.deref_free, if_neg hne]
        exact hy
    · intro q hq
      simp only [emit, hlist1] at hq
      have hq' := (inv.nodup.mem_erase_iff).mp hq
      obtain ⟨x, hx, hf⟩ := inv.listed q hq'.2
      obtain ⟨y, hy, hyn⟩ := hkeep q x hx
      refine ⟨y, ?_, ?_⟩
      · simp only [emit, Heap.deref_free, if_neg hq'.1]
        exact hy
      · simp only [emit, hhash1, hvm1n, QHash.find_remove]
        have hne : y.name ≠ vm.name := by
          intro e
          rw [hyn] at e
          rw [e, hglisted] at hf
          exact hq'.1 (Option.some.inj hf).symm
        rw [if_neg hne, hyn]
        exact hf
    · simp only [emit, hlist1]
      exact inv.nodup.erase g
    · intro q hq
      simp only [emit, Heap.deref_free] at hq
      split_ifs at hq with hqg
      · cases hq
      · simp only [emit, hlist1]
        exact (List.mem_erase_of_ne hqg).mpr (inv.liveListed q (hback q hq))
  · simp only [emit, hhash1, hvm1n]
  · simp only [emit, hlist1]
  · simp only [emit, Heap.deref_free, if_pos]

theorem forgetModels_clears (s : State) (g : Nat) (hg : (Heap.deref s.groups g).isSome) :
    ClearsGroup forgetModels s g := by
  obtain ⟨vm, hvm⟩ := Option.isSome_iff_exists.mp hg
  refine ⟨{ s with groups := Heap.store s.groups g { vm with models := [] } },
    by simp only [forgetModels, hvm], rfl, rfl, ?_⟩
  intro q
  simp only [Heap.deref_store]
  split_ifs with h1
  · rw [h1.1, hvm]; rfl
  · rfl

end Common

end Ingescape

namespace Ingescape

namespace Common

/-- The agent created by `createAgentModel` with a non-empty name is in the group registered
under its name, which is the previous group of that name when there is one and a new group
otherwise; the consistency of the groups is kept. -/
theorem createAgentModel_joins_group (s : State) (inv : GroupsInv s) (agentName : String)
    (definition : Option Nat) (peerId ipAddress hostname commandLine : String) (isON : Bool)
    (hname : agentName ≠ "") :
    ∃ s' g vm, createAgentModel s agentName definition peerId ipAddress hostname commandLine isON =
        some (s', some (Heap.fresh s.agents)) ∧ GroupsInv s' ∧
      s'.agents.length = s.agents.length + 1 ∧
      getAgentsGroupedForName s' agentName = some g ∧
      Heap.deref s'.groups g = some vm ∧ vm.name = agentName ∧
      (∀ g0 vm0, getAgentsGroupedForName s agentName = some g0 →
        Heap.deref s.groups g0 = some vm0 →
        g = g0 ∧ vm.models = vm0.models ++ [Heap.fresh s.agents]) ∧
      (getAgentsGroupedForName s agentName = none →
        g = Heap.fresh s.groups ∧ vm.models = [Heap.fresh s.agents]) := by
  obtain ⟨s', hrun, hsome, hnone⟩ := createAgentModel_groups s agentName definition peerId
    ipAddress hostname commandLine isON hname inv.live
  obtain ⟨s'', hrun', hagents, _⟩ := createAgentModel_spec s agentName definition peerId
    ipAddress hostname commandLine isON hname inv.live
  have hsame : s'' = s' := by
    rw [hrun] at hrun'
    exact (congrArg Prod.fst (Option.some.inj hrun')).symm
  subst hsame
  have hlen : s''.agents.length = s.agents.length + 1 := by
    rw [hagents]
    simp [Heap.alloc]
  simp only [common_getAgentsGroupedForName_eq]
  cases hfind : QHash.find s.hashFromNameToAgentsGrouped agentName with
  | some g0 =>
    obtain ⟨vm0, hvm0, hgroups, hhash, hlist⟩ := hsome g0 hfind
    have hvmn : vm0.name = agentName := by
      obtain ⟨_, x, hx, hxn⟩ := inv.hashed agentName g0 hfind
      rw [hvm0] at hx
      cases hx
      exact hxn
    refine ⟨s'', g0, { vm0 with models := vm0.models ++ [Heap.fresh s.agents] }, hrun,
      groupsInv_join s s'' g0 vm0 _ inv hvm0 hgroups hhash hlist, hlen, ?_, ?_, hvmn, ?_,
      (fun h => by cases h)⟩
    · rw [hhash]; exact hfind
    · rw [hgroups, Heap.deref_store, if_pos ⟨rfl, Heap.deref_lt hvm0⟩]
    · intro g1 vm1 hg1 hvm1
      cases hg1
      rw [hvm0] at hvm1
      cases hvm1
      exact ⟨rfl, rfl⟩
  | none =>
    obtain ⟨hgroups, hhash, hlist⟩ := hnone hfind
    refine ⟨s'', Heap.fresh s.groups, { name := agentName, models := [Heap.fresh s.agents] },
      hrun, groupsInv_new s s'' agentName _ inv hfind hgroups hhash hlist, hlen, ?_, ?_, rfl,
      (fun g0 vm0 h => by cases h), fun _ => ⟨rfl, rfl⟩⟩
    · rw [hhash, QHash.find_insert, if_pos rfl]
    · rw [hgroups, Heap.deref_alloc_fresh]

end Common

end Ingescape

namespace Ingescape

namespace Common

/-- C11: on a Common manager whose groups are consistent (as in the empty manager).
`createAgentModel` with a non-empty name returns the new agent, which is in the group
registered under its name: the previous group of that name, or a new group when there was
none.  Two agents created with one name share one group.  `deleteAgentsGroupedByName` of a
live group with a non-empty name unregisters and deletes it.  After each of these calls the
groups are consistent: the hash of names and the list hold the same groups, one per name.
With an empty name `createAgentModel` returns null and the manager is unchanged. -/
theorem createAgentModel_groups_by_name (clear : State → Nat → Option State) (s : State)
    (inv : GroupsInv s) :
    GroupsInv {} ∧
    (∀ t : State, GroupsInv t →
      (∀ g, g ∈ t.allAgentsGroupsByName ↔
        ∃ n, QHash.find t.hashFromNameToAgentsGrouped n = some g) ∧
      t.allAgentsGroupsByName.Nodup ∧
      (∀ g1 g2 vm1 vm2, g1 ∈ t.allAgentsGroupsByName → g2 ∈ t.allAgentsGroupsByName →
        Heap.deref t.groups g1 = some vm1 → Heap.deref t.groups g2 = some vm2 →
        vm1.name = vm2.name → g1 = g2)) ∧
    (∀ agentName definition peerId ipAddress hostname commandLine isON, agentName ≠ "" →
      ∃ s' g vm,
        createAgentModel s agentName definition peerId ipAddress hostname commandLine isON =
          some (s', some (Heap.fresh s.agents)) ∧ GroupsInv s' ∧
        getAgentsGroupedForName s' agentName = some g ∧
        Heap.deref s'.groups g = some vm ∧ vm.name = agentName ∧
        Heap.fresh s.agents ∈ vm.models ∧
        (∀ g0, getAgentsGroupedForName s agentName = some g0 → g = g0) ∧
        (getAgentsGroupedForName s agentName = none →
          g = Heap.fresh s.groups ∧ vm.models = [Heap.fresh s.agents])) ∧
    (∀ agentName definition1 definition2 peerId1 peerId2 ipAddress hostname commandLine isON,
      agentName ≠ "" →
      ∃ s1 s2 agent1 agent2 g vm,
        createAgentModel s agentName definition1 peerId1 ipAddress hostname commandLine isON =
          some (s1, some agent1) ∧
        createAgentModel s1 agentName definition2 peerId2 ipAddress hostname commandLine isON =
          some (s2, some agent2) ∧
        agent1 ≠ agent2 ∧ GroupsInv s2 ∧
        getAgentsGroupedForName s2 agentName = some g ∧
        Heap.deref s2.groups g = some vm ∧ agent1 ∈ vm.models ∧ agent2 ∈ vm.models) ∧
    (∀ g vm, Heap.deref s.groups g = some vm → vm.name ≠ "" → ClearsGroup clear s g →
      ∃ s', deleteAgentsGroupedByName clear s (some g) = some s' ∧ GroupsInv s' ∧
        getAgentsGroupedForName s' vm.name = none ∧ g ∉ s'.allAgentsGroupsByName ∧
        Heap.deref s'.groups g = none) ∧
    (∀ definition peerId ipAddress hostname commandLine isON,
      createAgentModel s "" definition peerId ipAddress hostname commandLine isON =
        some (s, none)) := by
  refine ⟨groupsInv_empty, ?_, ?_, ?_, ?_, ?_⟩
  · intro t ht
    refine ⟨?_, ht.nodup, ?_⟩
    · intro g
      constructor
      · intro hg
        obtain ⟨vm, _, hf⟩ := ht.listed g hg
        exact ⟨vm.name, hf⟩
      · rintro ⟨n, hn⟩
        exact (ht.hashed n g hn).1
    · intro g1 g2 vm1 vm2 h1 h2 hv1 hv2 hname
      obtain ⟨x1, hx1, hf1⟩ := ht.listed g1 h1
      obtain ⟨x2, hx2, hf2⟩ := ht.listed g2 h2
      rw [hv1] at hx1
      rw [hv2] at hx2
      cases hx1
      cases hx2
      rw [hname, hf2] at hf1
      exact (Option.some.inj hf1).symm
  · intro agentName definition peerId ipAddress hostname commandLine isON hname
    obtain ⟨s', g, vm, hrun, hinv, _, hg, hvm, hvmn, hold, hnew⟩ :=
      createAgentModel_joins_group s inv agentName definition peerId ipAddress hostname
        commandLine isON hname
    refine ⟨s', g, vm, hrun, hinv, hg, hvm, hvmn, ?_, ?_, hnew⟩
    · cases hprev : getAgentsGroupedForName s agentName with
      | none =>
        rw [(hnew hprev).2]
        exact List.mem_singleton.mpr rfl
      | some g0 =>
        have hfind : QHash.find s.hashFromNameToAgentsGrouped agentName = some g0 := by
          rw [common_getAgentsGroupedForName_eq] at hprev
          exact hprev
        obtain ⟨_, vm0, hvm0, _⟩ := inv.hashed agentName g0 hfind
        rw [(hold g0 vm0 hprev hvm0).2]
        simp
    · intro g0 hprev
      have hfind : QHash.find s.hashFromNameToAgentsGrouped agentName = some g0 := by
        rw [common_getAgentsGroupedForName_eq] at hprev
        exact hprev
      obtain ⟨_, vm0, hvm0, _⟩ := inv.hashed agentName g0 hfind
      exact (hold g0 vm0 hprev hvm0).1
  · intro agentName definition1 definition2 peerId1 peerId2 ipAddress hostname commandLine isON
      hname
    obtain ⟨s1, g1, vm1, hrun1, hinv1, hlen1, hg1, hvm1, _, hold1, hnew1⟩ :=
      createAgentModel_joins_group s inv agentName definition1 peerId1 ipAddress hostname
        commandLine isON hname
    obtain ⟨s2, g2, vm2, hrun2, hinv2, _, hg2, hvm2, _, hold2, _⟩ :=
      createAgentModel_joins_group s1 hinv1 agentName definition2 peerId2 ipAddress hostname
        commandLine isON hname
    have h12 := hold2 g1 vm1 hg1 hvm1
    have hin1 : Heap.fresh s.agents ∈ vm1.models := by
      cases hprev : getAgentsGroupedForName s agentName with
      | none =>
        rw [(hnew1 hprev).2]
        exact List.mem_singleton.mpr rfl
      | some g0 =>
        have hfind : QHash.find s.hashFromNameToAgentsGrouped agentName = some g0 := by
          rw [common_getAgentsGroupedForName_eq] at hprev
          exact hprev
        obtain ⟨_, vm0, hvm0, _⟩ := inv.hashed agentName g0 hfind
        rw [(hold1 g0 vm0 hprev hvm0).2]
        simp
    refine ⟨s1, s2, Heap.fresh s.agents, Heap.fresh s1.agents, g2, vm2, hrun1, hrun2, ?_, hinv2,
      hg2, hvm2, ?_, ?_⟩
    · simp only [Heap.fresh, hlen1]
      omega
    · rw [h12.2]
      exact List.mem_append_left _ hin1
    · rw [h12.2]
      simp
  · intro g vm hvm hname hclear
    obtain ⟨s', hrun, hinv, hhash, hlist, hdel⟩ :=
      deleteAgentsGroupedByName_inv clear s g vm inv hvm hname hclear
    refine ⟨s', hrun, hinv, ?_, ?_, hdel⟩
    · rw [common_getAgentsGroupedForName_eq, hhash, QHash.find_remove, if_pos rfl]
    · rw [hlist]
      exact fun h => ((inv.nodup.mem_erase_iff).mp h).1 rfl
  · intro definition peerId ipAddress hostname commandLine isON
    simp [createAgentModel]

/-- Witness of C11: two cameras with different peer ids are created on the empty manager; they
share the group 0, registered under "camera". -/
theorem createAgentModel_groups_by_name_witness :
    ∃ s1 s2 agent1 agent2 g vm,
      createAgentModel {} "camera" none "peer-1" "10.0.0.7" "host-a" "cam --run" true =
        some (s1, some agent1) ∧
      createAgentModel s1 "camera" none "peer-2" "10.0.0.7" "host-a" "cam --run" true =
        some (s2, some agent2) ∧
      agent1 ≠ agent2 ∧ GroupsInv s2 ∧
      getAgentsGroupedForName s2 "camera" = some g ∧
      Heap.deref s2.groups g = some vm ∧ agent1 ∈ vm.models ∧ agent2 ∈ vm.models :=
  (createAgentModel_groups_by_name forgetModels {} groupsInv_empty).2.2.2.1
    "camera" none none "peer-1" "peer-2" "10.0.0.7" "host-a" "cam --run" true (by decide)

end Common

end Ingescape

namespace Ingescape

namespace Common

theorem historyOf_deref (n p : Nat) (hp : p ≤ n) :
    Heap.deref (historyOf n).values p = some { agentName := "camera" } := by
  have hlt : p < n + 1 := by omega
  simp [historyOf, Heap.deref, List.getElem?_replicate, hlt]

theorem historyOf_length (n : Nat) : (historyOf n).publishedValues.length = n := by
  simp [historyOf]

theorem historyOf_not_mem (n : Nat) : n ∉ (historyOf n).publishedValues := by
  simp [historyOf]

theorem historyOf_inv (n : Nat) (hn : n ≤ TOO_MANY_VALUES) : HistoryInv (historyOf n) := by
  refine ⟨?_, ?_, ?_, ?_⟩
  · intro p hp
    have hlt : p < n := by
      simpa [historyOf] using hp
    rw [historyOf_deref n p (by omega)]
    simp
  · simp only [historyOf]
    exact List.nodup_reverse.mpr (List.nodup_range n)
  · rw [historyOf_length]
    exact hn
  · intro name g h
    cases h

/-- C22: a call of `onValuePublished` with a live value that is not in the history, on a
history of live values listed once.  When the history with the new value exceeds 2000 entries,
the history afterwards is the first 1600 entries of the new value followed by the previous
history (the most recent values, newest first), the entries after them are deleted and no
other value is; otherwise the history is the new value followed by the previous history and no
value is deleted. -/
theorem onValuePublished_keeps_newest
    (upd : AgentsGroupedByNameVM → PublishedValueM → AgentsGroupedByNameVM)
    (v : ValuesState) (p : Nat) (value : PublishedValueM) (hinv : HistoryInv v)
    (hp : Heap.deref v.values p = some value) (hnew : p ∉ v.publishedValues) :
    ∃ v', onValuePublished upd v (some p) = some v' ∧
      ((p :: v.publishedValues).length > 2000 →
        v'.publishedValues = (p :: v.publishedValues).take 1600 ∧
        v'.publishedValues.length = 1600 ∧
        p :: v.publishedValues = v'.publishedValues ++ (p :: v.publishedValues).drop 1600 ∧
        (∀ q, q ∈ (p :: v.publishedValues).drop 1600 → Heap.deref v'.values q = none) ∧
        (∀ q, q ∉ (p :: v.publishedValues).drop 1600 →
          Heap.deref v'.values q = Heap.deref v.values q)) ∧
      (¬ (p :: v.publishedValues).length > 2000 →
        v'.publishedValues = p :: v.publishedValues ∧
        ∀ q, Heap.deref v'.values q = Heap.deref v.values q) := by
  obtain ⟨v', hrun, hpub, hval, _, _⟩ := onValuePublished_spec upd v p value hinv hp hnew
  refine ⟨v', hrun, ?_, ?_⟩
  · intro hbig
    have hbig' : (p :: v.publishedValues).length > TOO_MANY_VALUES := hbig
    have h1 : v'.publishedValues = (p :: v.publishedValues).take 1600 := by
      rw [hpub]
      simp only [historyAfter, if_pos hbig']
      rfl
    refine ⟨h1, ?_, ?_, ?_, ?_⟩
    · rw [h1, List.length_take]
      omega
    · rw [h1, List.take_append_drop]
    · intro q hq
      rw [hval q]
      simp only [deletedBy, if_pos hbig']
      exact if_pos hq
    · intro q hq
      rw [hval q]
      simp only [deletedBy, if_pos hbig']
      exact if_neg hq
  · intro hsmall
    have hsmall' : ¬ (p :: v.publishedValues).length > TOO_MANY_VALUES := hsmall
    refine ⟨?_, ?_⟩
    · rw [hpub]
      simp only [historyAfter, if_neg hsmall']
    · intro q
      rw [hval q]
      simp only [deletedBy, if_neg hsmall', List.not_mem_nil, if_false]

/-- Witness of C22: the value 2000 is published on a history of 2000 values. -/
theorem onValuePublished_keeps_newest_witness :
    ∃ v', onValuePublished renameGroup (historyOf 2000) (some 2000) = some v' ∧
      v'.publishedValues = (2000 :: (historyOf 2000).publishedValues).take 1600 ∧
      v'.publishedValues.length = 1600 ∧
      2000 :: (historyOf 2000).publishedValues =
        v'.publishedValues ++ (2000 :: (historyOf 2000).publishedValues).drop 1600 := by
  obtain ⟨v', hrun, hbig, _⟩ := onValuePublished_keeps_newest renameGroup (historyOf 2000) 2000
    { agentName := "camera" } (historyOf_inv 2000 (Nat.le_refl _))
    (historyOf_deref 2000 2000 (Nat.le_refl _)) (historyOf_not_mem 2000)
  obtain ⟨h1, h2, h3, _⟩ := hbig (by
    rw [List.length_cons, historyOf_length]
    exact Nat.lt_succ_self _)
  exact ⟨v', hrun, h1, h2, h3⟩

end Common

end Ingescape

namespace Ingescape

namespace IngeScapeUtils

theorem getUIDforNewActionM_then_free (biggest : Int) (hmin : INT_MIN ≤ biggest)
    (hmax : biggest < INT_MAX) :
    getUIDforNewActionM biggest = some (biggest + 1, biggest + 1) ∧
    freeUIDofActionM (biggest + 1) (biggest + 1) = some biggest := by
  refine ⟨by simp only [getUIDforNewActionM, if_pos hmax], ?_⟩
  have hb : INT_MIN < biggest + 1 := by omega
  simp only [freeUIDofActionM, if_true, if_pos hb]
  simp

/-- C23: for every value of the counter of the models of action in the range of `int` and
below `INT_MAX` (where the increment is defined), `getUIDforNewActionM` followed by
`freeUIDofActionM` of the returned uid restores the counter, and the next
`getUIDforNewActionM` returns the same uid.  `freeUIDofActionM` of a uid other than the counter
leaves the counter unchanged.  A call on one of the two counters leaves the other counter
unchanged. -/
theorem getUIDforNewActionM_then_free_restores :
    (∀ c : Statics, INT_MIN ≤ c.actionModel → c.actionModel < INT_MAX →
      ∃ c1 c2 uid, c.call StaticsCall.getUIDforNewActionM = some (c1, some uid) ∧
        uid = c.actionModel + 1 ∧
        c1.call (StaticsCall.freeUIDofActionM uid) = some (c2, none) ∧ c2 = c ∧
        c2.call StaticsCall.getUIDforNewActionM = some (c1, some uid)) ∧
    (∀ (c : Statics) (uid : Int), uid ≠ c.actionModel →
      c.call (StaticsCall.freeUIDofActionM uid) = some (c, none)) ∧
    (∀ (c c' : Statics) (call : StaticsCall) (r : Option Int), c.call call = some (c', r) →
      (call.onActionModel = true → c'.actionInMappingViewModel = c.actionInMappingViewModel) ∧
      (call.onActionModel = false → c'.actionModel = c.actionModel)) := by
  refine ⟨?_, ?_, ?_⟩
  · intro c hmin hmax
    obtain ⟨hget, hfree⟩ := getUIDforNewActionM_then_free c.actionModel hmin hmax
    refine ⟨{ c with actionModel := c.actionModel + 1 }, c, c.actionModel + 1, ?_, rfl, ?_, rfl, ?_⟩
    · simp only [Statics.call, hget, Option.map_some']
    · simp only [Statics.call, hfree, Option.map_some']
    · simp only [Statics.call, hget, Option.map_some']
  · intro c uid hne
    simp only [Statics.call, freeUIDofActionM, if_neg hne, Option.map_some']
  · intro c c' call r hcall
    cases call with
    | getUIDforNewActionM =>
      simp only [Statics.call, Option.map_eq_some'] at hcall
      obtain ⟨x, _, hx⟩ := hcall
      cases hx
      exact ⟨fun _ => rfl, fun h => by cases h⟩
    | freeUIDofActionM uid =>
      simp only [Statics.call, Option.map_eq_some'] at hcall
      obtain ⟨x, _, hx⟩ := hcall
      cases hx
      exact ⟨fun _ => rfl, fun h => by cases h⟩
    | bookUIDforActionM uid =>
      simp only [Statics.call, Option.some.injEq] at hcall
      cases hcall
      exact ⟨fun _ => rfl, fun h => by cases h⟩
    | getUIDforNewActionInMappingVM =>
      simp only [Statics.call, Option.map_eq_some'] at hcall
      obtain ⟨x, _, hx⟩ := hcall
      cases hx
      exact ⟨(fun h => by cases h), fun _ => rfl⟩
    | freeUIDofActionInMappingVM uid =>
      simp only [Statics.call, Option.map_eq_some'] at hcall
      obtain ⟨x, _, hx⟩ := hcall
      cases hx
      exact ⟨(fun h => by cases h), fun _ => rfl⟩
    | bookUIDforActionInMappingVM uid =>
      simp only [Statics.call, Option.some.injEq] at hcall
      cases hcall
      exact ⟨(fun h => by cases h), fun _ => rfl⟩

/-- Witness of C23: on the initial counters, the uid 0 is taken, freed and taken again. -/
theorem getUIDforNewActionM_then_free_restores_witness :
    ∃ c1 c2 uid, Statics.call {} StaticsCall.getUIDforNewActionM = some (c1, some uid) ∧
      uid = (-1 : Int) + 1 ∧
      c1.call (StaticsCall.freeUIDofActionM uid) = some (c2, none) ∧ c2 = {} ∧
      c2.call StaticsCall.getUIDforNewActionM = some (c1, some uid) :=
  getUIDforNewActionM_then_free_restores.1 {} (by decide) (by decide)

end IngeScapeUtils

end Ingescape

namespace Ingescape

namespace ValuesHistoryController

theorem asciiCaseInsensitiveLE_trans (a b c : String) (hab : asciiCaseInsensitiveLE a b = true)
    (hbc : asciiCaseInsensitiveLE b c = true) : asciiCaseInsensitiveLE a c = true := by
  simp only [asciiCaseInsensitiveLE, decide_eq_true_eq] at hab hbc ⊢
  exact le_trans hab hbc

theorem asciiCaseInsensitiveLE_total (a b : String) :
    asciiCaseInsensitiveLE a b = true ∨ asciiCaseInsensitiveLE b a = true := by
  simp only [asciiCaseInsensitiveLE, decide_eq_true_eq]
  exact le_total _ _

theorem sorted_sort (le : String → String → Bool)
    (htrans : ∀ a b c, le a b = true → le b c = true → le a c = true)
    (htotal : ∀ a b, le a b = true ∨ le b a = true) (l : List String) :
    (sort le l).Sorted (fun a b => le a b = true) := by
  haveI : IsTrans String (fun a b => le a b = true) := ⟨htrans⟩
  haveI : IsTotal String (fun a b => le a b = true) := ⟨htotal⟩
  exact List.sorted_insertionSort _ l

theorem sorted_erase (le : String → String → Bool) (l : List String) (a : String)
    (h : l.Sorted (fun a b => le a b = true)) : (l.erase a).Sorted (fun a b => le a b = true) :=
  List.Pairwise.sublist (List.erase_sublist a l) h

/-- Every call keeps the two lists of names sorted. -/
theorem call_sorted (le : String → String → Bool)
    (htrans : ∀ a b c, le a b = true → le b c = true → le a c = true)
    (htotal : ∀ a b, le a b = true ∨ le b a = true) (c : ValuesHistoryController) (x : Call)
    (hall : c.allAgentNamesList.Sorted (fun a b => le a b = true))
    (hsel : c.selectedAgentNamesList.Sorted (fun a b => le a b = true)) :
    (call le c x).allAgentNamesList.Sorted (fun a b => le a b = true) ∧
    (call le c x).selectedAgentNamesList.Sorted (fun a b => le a b = true) := by
  cases x with
  | showValuesOfAgent agentName => exact ⟨hall, sorted_sort le htrans htotal _⟩
  | hideValuesOfAgent agentName => exact ⟨hall, sorted_erase le _ _ hsel⟩
  | showValuesOfAllAgents => exact ⟨hall, hall⟩
  | hideValuesOfAllAgents => exact ⟨hall, List.sorted_nil⟩
  | onAgentInMappingAdded agentName =>
    exact ⟨sorted_sort le htrans htotal _, sorted_sort le htrans htotal _⟩
  | onAgentInMappingRemoved agentName =>
    simp only [call, onAgentInMappingRemoved]
    split_ifs
    · exact ⟨sorted_erase le _ _ hall, sorted_erase le _ _ hsel⟩
    · exact ⟨sorted_erase le _ _ hall, hsel⟩
  | filterValuesToShowOnlyAgent agentName => exact ⟨hall, sorted_sort le htrans htotal _⟩

theorem run_sorted (le : String → String → Bool)
    (htrans : ∀ a b c, le a b = true → le b c = true → le a c = true)
    (htotal : ∀ a b, le a b = true ∨ le b a = true) (calls : List Call) :
    ∀ c : ValuesHistoryController, c.allAgentNamesList.Sorted (fun a b => le a b = true) →
      c.selectedAgentNamesList.Sorted (fun a b => le a b = true) →
      (run le c calls).allAgentNamesList.Sorted (fun a b => le a b = true) ∧
      (run le c calls).selectedAgentNamesList.Sorted (fun a b => le a b = true) := by
  induction calls with
  | nil => intro c hall hsel; exact ⟨hall, hsel⟩
  | cons x rest ih =>
    intro c hall hsel
    obtain ⟨h1, h2⟩ := call_sorted le htrans htotal c x hall hsel
    exact ih (call le c x) h1 h2

/-- C25: starting from the empty lists, after every sequence of `showValuesOfAgent`,
`hideValuesOfAgent`, `showValuesOfAllAgents`, `hideValuesOfAllAgents`,
`onAgentInMappingAdded`, `onAgentInMappingRemoved` and `filterValuesToShowOnlyAgent`, the list
of all agent names and the list of selected agent names are sorted for the case-insensitive
comparison `le` of the sort (a transitive and total comparison). -/
theorem agent_names_lists_stay_sorted (le : String → String → Bool)
    (htrans : ∀ a b c, le a b = true → le b c = true → le a c = true)
    (htotal : ∀ a b, le a b = true ∨ le b a = true) (calls : List Call) :
    (run le {} calls).allAgentNamesList.Sorted (fun a b => le a b = true) ∧
    (run le {} calls).selectedAgentNamesList.Sorted (fun a b => le a b = true) :=
  run_sorted le htrans htotal calls {} List.sorted_nil List.sorted_nil

/-- Witness of C25: three agents enter the mapping, one is hidden, one is removed, one is shown
again. -/
theorem agent_names_lists_stay_sorted_witness :
    (run asciiCaseInsensitiveLE {}
      [Call.onAgentInMappingAdded "lidar", Call.onAgentInMappingAdded "Camera",
       Call.onAgentInMappingAdded "arm", Call.hideValuesOfAgent "Camera",
       Call.onAgentInMappingRemoved "arm", Call.showValuesOfAgent "Camera"]).allAgentNamesList.Sorted
        (fun a b => asciiCaseInsensitiveLE a b = true) ∧
    (run asciiCaseInsensitiveLE {}
      [Call.onAgentInMappingAdded "lidar", Call.onAgentInMappingAdded "Camera",
       Call.onAgentInMappingAdded "arm", Call.hideValuesOfAgent "Camera",
       Call.onAgentInMappingRemoved "arm", Call.showValuesOfAgent "Camera"]).selectedAgentNamesList.Sorted
        (fun a b => asciiCaseInsensitiveLE a b = true) :=
  agent_names_lists_stay_sorted asciiCaseInsensitiveLE asciiCaseInsensitiveLE_trans
    asciiCaseInsensitiveLE_total _

/-- The lists of the witness of C25. -/
theorem run_sample_lists :
    run asciiCaseInsensitiveLE {}
      [Call.onAgentInMappingAdded "lidar", Call.onAgentInMappingAdded "Camera",
       Call.onAgentInMappingAdded "arm", Call.hideValuesOfAgent "Camera",
       Call.onAgentInMappingRemoved "arm", Call.showValuesOfAgent "Camera"] =
      { allAgentNamesList := ["Camera", "lidar"], selectedAgentNamesList := ["Camera", "lidar"],
        filteredValuesSelectedAgentNamesList := ["Camera", "lidar"] } := by
  decide

end ValuesHistoryController

end Ingescape

namespace Ingescape

namespace ValuesHistoryController

/-- C24 fails on the code: after `showValuesOfAgent("camera")` twice on the empty lists,
`hideValuesOfAgent("camera")` removes one of the two entries and `areShownValuesOfAgent`
still returns true; the same after `onAgentInMappingAdded("camera")` and
`showValuesOfAgent("camera")`. -/
theorem hideValuesOfAgent_leaves_second_entry :
    (hideValuesOfAgent
      (showValuesOfAgent asciiCaseInsensitiveLE
        (showValuesOfAgent asciiCaseInsensitiveLE {} "camera") "camera")
      "camera").selectedAgentNamesList = ["camera"] ∧
    areShownValuesOfAgent
      (hideValuesOfAgent
        (showValuesOfAgent asciiCaseInsensitiveLE
          (showValuesOfAgent asciiCaseInsensitiveLE {} "camera") "camera")
        "camera") "camera" = true ∧
    areShownValuesOfAgent
      (hideValuesOfAgent
        (showValuesOfAgent asciiCaseInsensitiveLE
          (onAgentInMappingAdded asciiCaseInsensitiveLE {} "camera") "camera")
        "camera") "camera" = true := by
  decide

/-- When the name is selected at most once, `hideValuesOfAgent` hides it. -/
theorem hideValuesOfAgent_hides_single_entry (c : ValuesHistoryController) (agentName : String)
    (hone : c.selectedAgentNamesList.count agentName ≤ 1) :
    areShownValuesOfAgent (hideValuesOfAgent c agentName) agentName = false := by
  simp only [areShownValuesOfAgent, hideValuesOfAgent, _updateFilters]
  rw [Bool.eq_false_iff]
  intro h
  have hmem : agentName ∈ c.selectedAgentNamesList.erase agentName := by
    simpa using h
  have hcount : 0 < (c.selectedAgentNamesList.erase agentName).count agentName :=
    List.count_pos_iff.mpr hmem
  rw [List.count_erase_self] at hcount
  omega

end ValuesHistoryController

end Ingescape

namespace Ingescape

namespace Common

theorem importDefinitionEntry_congr (env : Env) (jsonHelper : JsonHelper) (s : State)
    (agentName : String) (x y : QJsonValue)
    (hd : QJsonObject.value x.toObject "definition" = QJsonObject.value y.toObject "definition")
    (hc : QJsonObject.value x.toObject "clones" = QJsonObject.value y.toObject "clones") :
    importDefinitionEntry env jsonHelper s agentName x =
      importDefinitionEntry env jsonHelper s agentName y := by
  unfold importDefinitionEntry
  simp only [hd, hc]

/-- The conversion of the code for an entry of the previous format. -/
theorem jsonArrayOfDefinitionsOf_legacy (env : Env) (legacy : QJsonObject)
    (versionJsonPlatform : String) (hv : versionJsonPlatform ≠ env.VERSION_JSON_PLATFORM)
    (hentry : LegacyEntry legacy) :
    ∃ x, jsonArrayOfDefinitionsOf env legacy versionJsonPlatform = [x] ∧
      QJsonObject.value x.toObject "definition" = QJsonObject.value legacy "definition" ∧
      QJsonObject.value x.toObject "clones" = QJsonObject.value legacy "clones" := by
  obtain ⟨_, hdef, hclones⟩ := hentry
  unfold jsonArrayOfDefinitionsOf
  rw [if_neg hv]
  simp only
  rw [if_pos ⟨hdef, hclones⟩]
  refine ⟨_, rfl, ?_, ?_⟩
  · cases hd : QJsonObject.value legacy "definition" <;>
      cases hc : QJsonObject.value legacy "clones" <;>
      simp [hd, hc, QJsonValue.isObject, QJsonValue.isNull, QJsonValue.isArray] at hdef hclones <;>
      simp [QJsonObject.insert, QJsonObject.value, QJsonValue.toObject]
  · cases hd : QJsonObject.value legacy "definition" <;>
      cases hc : QJsonObject.value legacy "clones" <;>
      simp [hd, hc, QJsonValue.isObject, QJsonValue.isNull, QJsonValue.isArray] at hdef hclones <;>
      simp [QJsonObject.insert, QJsonObject.value, QJsonValue.toObject]

/-- One entry of the previous format is imported as its entry of the current format. -/
theorem importAgentEntry_legacy (env : Env) (jsonHelper : JsonHelper) (legacy : QJsonObject)
    (versionJsonPlatform : String) (acc : State × Bool)
    (hv : versionJsonPlatform ≠ env.VERSION_JSON_PLATFORM) (hentry : LegacyEntry legacy) :
    importAgentEntry env jsonHelper versionJsonPlatform acc (QJsonValue.object legacy) =
      importAgentEntry env jsonHelper env.VERSION_JSON_PLATFORM acc (currentFormatOf legacy) := by
  obtain ⟨x, hx, hxd, hxc⟩ := jsonArrayOfDefinitionsOf_legacy env legacy versionJsonPlatform hv hentry
  have hname := hentry.1
  have hnew : jsonArrayOfDefinitionsOf env (currentFormatOf legacy).toObject
      env.VERSION_JSON_PLATFORM =
      [QJsonValue.object [("definition", QJsonObject.value legacy "definition"),
                          ("clones", QJsonObject.value legacy "clones")]] := by
    simp [jsonArrayOfDefinitionsOf, currentFormatOf, QJsonValue.toObject, QJsonObject.value,
      QJsonValue.isArray, QJsonValue.toArray]
  have hnameNew : QJsonObject.value (currentFormatOf legacy).toObject "agentName" =
      QJsonObject.value legacy "agentName" := by
    simp [currentFormatOf, QJsonValue.toObject, QJsonObject.value]
  have hobj : (currentFormatOf legacy).isObject = true := rfl
  have hobj1 : (QJsonValue.object legacy).isObject = true := rfl
  have hto : (QJsonValue.object legacy).toObject = legacy := rfl
  unfold importAgentEntry
  rw [if_pos hobj1, if_pos hobj]
  simp only [hto, hx, hnew, hnameNew, hname, List.isEmpty_cons, Bool.false_eq_true, not_false_eq_true,
    and_self, if_true, List.foldlM_cons, List.foldlM_nil]
  rw [importDefinitionEntry_congr env jsonHelper acc.1 _ x
    (QJsonValue.object [("definition", QJsonObject.value legacy "definition"),
                        ("clones", QJsonObject.value legacy "clones")])
    (by rw [hxd]; simp [QJsonValue.toObject, QJsonObject.value])
    (by rw [hxc]; simp [QJsonValue.toObject, QJsonObject.value])]

end Common

end Ingescape

namespace Ingescape

namespace Common

theorem importAgentsListFromJson_legacy (env : Env) (s : State) (entries : List QJsonObject)
    (versionJsonPlatform : String) (hv : versionJsonPlatform ≠ env.VERSION_JSON_PLATFORM)
    (hentries : ∀ e ∈ entries, LegacyEntry e) :
    importAgentsListFromJson env s (entries.map QJsonValue.object) versionJsonPlatform =
      importAgentsListFromJson env s (entries.map currentFormatOf) env.VERSION_JSON_PLATFORM := by
  unfold importAgentsListFromJson
  cases env.jsonHelper with
  | none => rfl
  | some jsonHelper =>
    simp only
    have hfold : ∀ (l : List QJsonObject), (∀ e ∈ l, LegacyEntry e) → ∀ acc : State × Bool,
        (l.map QJsonValue.object).foldlM (importAgentEntry env jsonHelper versionJsonPlatform) acc =
          (l.map currentFormatOf).foldlM
            (importAgentEntry env jsonHelper env.VERSION_JSON_PLATFORM) acc := by
      intro l
      induction l with
      | nil => intro _ acc; rfl
      | cons e rest ih =>
        intro hl acc
        simp only [List.map_cons, List.foldlM_cons]
        rw [importAgentEntry_legacy env jsonHelper e versionJsonPlatform acc hv
          (hl e (List.mem_cons_self _ _))]
        cases importAgentEntry env jsonHelper env.VERSION_JSON_PLATFORM acc (currentFormatOf e) with
        | none => rfl
        | some acc1 =>
          exact ih (fun e' he' => hl e' (List.mem_cons_of_mem _ he')) acc1
    exact hfold entries hentries (s, true)

theorem importAgentEntry_broken (env : Env) (jsonHelper : JsonHelper) (broken : QJsonObject)
    (versionJsonPlatform : String) (acc : State × Bool)
    (hv : versionJsonPlatform ≠ env.VERSION_JSON_PLATFORM) (hbroken : BrokenLegacyEntry broken) :
    importAgentEntry env jsonHelper versionJsonPlatform acc (QJsonValue.object broken) =
      some (acc.1, false) := by
  have hempty : jsonArrayOfDefinitionsOf env broken versionJsonPlatform = [] := by
    unfold jsonArrayOfDefinitionsOf
    rw [if_neg hv]
    simp only
    rw [if_neg]
    rintro ⟨hdef, hclones⟩
    rcases hbroken with h | ⟨h1, h2⟩
    · rw [h] at hclones
      cases hclones
    · rcases hdef with hdef | hdef
      · rw [h1] at hdef
        cases hdef
      · rw [h2] at hdef
        cases hdef
  have hobj1 : (QJsonValue.object broken).isObject = true := rfl
  have hto : (QJsonValue.object broken).toObject = broken := rfl
  unfold importAgentEntry
  rw [if_pos hobj1]
  simp only [hto, hempty, List.isEmpty_nil, not_true_eq_false, and_false, if_false]

/-- The result `success` of the import never goes back to true. -/
theorem importAgentEntry_success (env : Env) (jsonHelper : JsonHelper)
    (versionJsonPlatform : String) (acc r : State × Bool) (x : QJsonValue)
    (hrun : importAgentEntry env jsonHelper versionJsonPlatform acc x = some r)
    (hacc : acc.2 = false) : r.2 = false := by
  unfold importAgentEntry at hrun
  by_cases h1 : x.isObject = true
  · rw [if_pos h1] at hrun
    simp only at hrun
    by_cases h2 : (QJsonObject.value x.toObject "agentName").isString = true ∧
        ¬ (jsonArrayOfDefinitionsOf env x.toObject versionJsonPlatform).isEmpty = true
    · rw [if_pos h2] at hrun
      simp only [Option.map_eq_some'] at hrun
      obtain ⟨st, _, hst⟩ := hrun
      rw [← hst]
      exact hacc
    · rw [if_neg h2] at hrun
      cases hrun
      rfl
  · rw [if_neg h1] at hrun
    cases hrun
    exact hacc

theorem importAgentEntries_success (env : Env) (jsonHelper : JsonHelper)
    (versionJsonPlatform : String) (l : List QJsonValue) : ∀ (acc r : State × Bool),
    l.foldlM (importAgentEntry env jsonHelper versionJsonPlatform) acc = some r →
    acc.2 = false → r.2 = false := by
  induction l with
  | nil =>
    intro acc r hrun hacc
    simp only [List.foldlM_nil] at hrun
    cases hrun
    exact hacc
  | cons x rest ih =>
    intro acc r hrun hacc
    simp only [List.foldlM_cons] at hrun
    cases hstep : importAgentEntry env jsonHelper versionJsonPlatform acc x with
    | none => rw [hstep] at hrun; cases hrun
    | some acc1 =>
      rw [hstep] at hrun
      exact ih acc1 r hrun (importAgentEntry_success env jsonHelper versionJsonPlatform acc acc1 x
        hstep hacc)

end Common

end Ingescape

namespace Ingescape

namespace Common

/-- C21, counterexample: on a manager without JSON helper, the import of a list of the previous
format whose only entry has a `clones` that is not an array returns true. -/
theorem importAgentsListFromJson_without_helper_returns_true :
    BrokenLegacyEntry brokenLegacyEntry ∧
    "0.9" ≠ noHelperEnv.VERSION_JSON_PLATFORM ∧
    importAgentsListFromJson noHelperEnv {} [QJsonValue.object brokenLegacyEntry] "0.9" =
      some ({}, true) :=
  ⟨Or.inl (by decide), by decide, rfl⟩

/-- C21, amended: the Common `importAgentsListFromJson` with a platform version different from
the current one, on entries that have a string `agentName`, a `definition` that is an object or
null and a `clones` array, gives the state and the result of the import, with the current
version, of the entries `{agentName, definitions: [{definition, clones}]}`, and returns on a
consistent directory.  An entry of the previous format whose `clones` is not an array, or whose
`definition` is neither an object nor null, leaves the directory unchanged and, when the
manager has a JSON helper, sets the result to false, which is then the result of the import;
without JSON helper the import reads no entry, changes nothing and returns true. -/
theorem importAgentsListFromJson_converts_previous_format (env : Env) (s : State)
    (versionJsonPlatform : String) (hv : versionJsonPlatform ≠ env.VERSION_JSON_PLATFORM) :
    (∀ entries : List QJsonObject, (∀ e ∈ entries, LegacyEntry e) →
      importAgentsListFromJson env s (entries.map QJsonValue.object) versionJsonPlatform =
        importAgentsListFromJson env s (entries.map currentFormatOf)
          env.VERSION_JSON_PLATFORM ∧
      (Inv s → ∃ r, importAgentsListFromJson env s (entries.map QJsonValue.object)
        versionJsonPlatform = some r)) ∧
    (∀ (jsonHelper : JsonHelper) (acc : State × Bool) (broken : QJsonObject),
      BrokenLegacyEntry broken →
      importAgentEntry env jsonHelper versionJsonPlatform acc (QJsonValue.object broken) =
        some (acc.1, false)) ∧
    (∀ (broken : QJsonObject), env.jsonHelper ≠ none → BrokenLegacyEntry broken →
      importAgentsListFromJson env s [QJsonValue.object broken] versionJsonPlatform =
        some (s, false)) ∧
    (∀ (pre post : List QJsonValue) (broken : QJsonObject) (r : State × Bool),
      env.jsonHelper ≠ none → BrokenLegacyEntry broken →
      importAgentsListFromJson env s (pre ++ QJsonValue.object broken :: post)
        versionJsonPlatform = some r → r.2 = false) ∧
    (env.jsonHelper = none → ∀ jsonArrayOfAgents : QJsonArray,
      importAgentsListFromJson env s jsonArrayOfAgents versionJsonPlatform = some (s, true)) := by
  refine ⟨?_, ?_, ?_, ?_, ?_⟩
  · intro entries hentries
    refine ⟨importAgentsListFromJson_legacy env s entries versionJsonPlatform hv hentries, ?_⟩
    intro hinv
    obtain ⟨r, hr, _⟩ := importAgentsListFromJson_inv env s (entries.map QJsonValue.object)
      versionJsonPlatform hinv
    exact ⟨r, hr⟩
  · intro jsonHelper acc broken hbroken
    exact importAgentEntry_broken env jsonHelper broken versionJsonPlatform acc hv hbroken
  · intro broken hhelper hbroken
    unfold importAgentsListFromJson
    cases hh : env.jsonHelper with
    | none => exact absurd hh hhelper
    | some jsonHelper =>
      simp only [List.foldlM_cons, List.foldlM_nil,
        importAgentEntry_broken env jsonHelper broken versionJsonPlatform (s, true) hv hbroken]
      rfl
  · intro pre post broken r hhelper hbroken hrun
    unfold importAgentsListFromJson at hrun
    cases hh : env.jsonHelper with
    | none => exact absurd hh hhelper
    | some jsonHelper =>
      rw [hh] at hrun
      simp only [List.foldlM_append, List.foldlM_cons] at hrun
      cases hpre : pre.foldlM (importAgentEntry env jsonHelper versionJsonPlatform) (s, true) with
      | none => rw [hpre] at hrun; cases hrun
      | some acc =>
        rw [hpre] at hrun
        simp only [Option.some_bind, Option.bind_eq_bind,
          importAgentEntry_broken env jsonHelper broken versionJsonPlatform acc hv hbroken]
          at hrun
        exact importAgentEntries_success env jsonHelper versionJsonPlatform post (acc.1, false) r
          hrun rfl
  · intro hnone jsonArrayOfAgents
    simp only [importAgentsListFromJson, hnone]

/-- Witness of C21: a list of the previous format with the camera (a definition and one clone)
and an agent without definition and without clone, read with the version "0.9" when the current
version is "1.0". -/
theorem importAgentsListFromJson_converts_previous_format_witness :
    importAgentsListFromJson cameraEnv {} (legacyAgentsList.map QJsonValue.object) "0.9" =
      importAgentsListFromJson cameraEnv {} (legacyAgentsList.map currentFormatOf) "1.0" ∧
    ∃ r, importAgentsListFromJson cameraEnv {} (legacyAgentsList.map QJsonValue.object) "0.9" =
      some r := by
  obtain ⟨h1, h2⟩ := (importAgentsListFromJson_converts_previous_format cameraEnv {} "0.9"
    (by decide)).1 legacyAgentsList (by
      intro e he
      simp only [legacyAgentsList, List.mem_cons, List.mem_singleton, List.not_mem_nil,
        or_false] at he
      rcases he with h | h
      · subst h
        exact ⟨by decide, Or.inl (by decide), by decide⟩
      · subst h
        exact ⟨by decide, Or.inr (by decide), by decide⟩)
  exact ⟨h1, _, rfl⟩

end Common

end Ingescape

namespace Ingescape

/-- C3 fails on the code: in the MASTIC manager, after the camera with the peer id "peer-1"
entered and its model was deleted with `deleteAgentModel`, the peer id is still registered and
points to the deleted agent; `onAgentEntered` for "peer-1" then sets the status through the
deleted agent (no defined result): no live record is registered under the peer id and none is
created. -/
theorem Mastic.mastic_onAgentEntered_writes_deleted_agent :
    ∃ s, Mastic.afterDeleteAgentModel = some s ∧
      s.agents = [none] ∧ s.mapFromPeerIdToAgentM = [("peer-1", 0)] ∧
      Mastic.getAgentModelFromPeerId s "peer-1" = some 0 ∧ Heap.deref s.agents 0 = none ∧
      Mastic.onAgentEntered s "peer-1" "camera" "10.0.0.7" 4242 "host-a" "/opt/cam" false =
        none :=
  ⟨_, rfl, by decide, by decide, by decide, by decide, by decide⟩

/-- The sibling functions: in the Common manager `deleteAgentModel` removes the peer id, and
`onAgentEntered` for "peer-1" then creates one new record, ON and registered under the peer
id. -/
theorem Common.common_onAgentEntered_after_deleteAgentModel :
    ∃ s s', Common.afterDeleteAgentModel = some s ∧
      Common.getAgentModelFromPeerId s "peer-1" = none ∧
      Common.onAgentEntered s "peer-1" "camera" "10.0.0.7" "host-a" "cam --run" false "" =
        some s' ∧
      s'.agents =
        [none,
         some { name := "camera", peerId := "peer-1", address := "10.0.0.7",
                hostname := "host-a", commandLine := "cam --run", isON := true }] ∧
      Common.getAgentModelFromPeerId s' "peer-1" = some 1 :=
  ⟨_, _, rfl, by decide, rfl, by decide, by decide⟩

/-- C4 fails on the code: in the MASTIC manager, after the camera with the peer id "peer-1"
entered and its model was deleted with `deleteAgentModel`, the peer id is still registered and
points to the deleted agent; `onAgentExited` for "peer-1" then sets the status through the
deleted agent (no defined result), and `getAgentModelFromPeerId` returns a pointer without
record. -/
theorem Mastic.mastic_onAgentExited_writes_deleted_agent :
    ∃ s, Mastic.afterDeleteAgentModel = some s ∧
      Mastic.getAgentModelFromPeerId s "peer-1" = some 0 ∧ Heap.deref s.agents 0 = none ∧
      Heap.count s.agents = 0 ∧
      Mastic.onAgentExited s "peer-1" "camera" = none :=
  ⟨_, rfl, by decide, by decide, by decide, by decide⟩

/-- The sibling function: in the Common manager, after `deleteAgentModel` the peer id is no
longer registered and `onAgentExited` leaves the state unchanged. -/
theorem Common.common_onAgentExited_after_deleteAgentModel :
    ∃ s, Common.afterDeleteAgentModel = some s ∧
      Common.getAgentModelFromPeerId s "peer-1" = none ∧
      Common.onAgentExited s "peer-1" "camera" = some s :=
  ⟨_, rfl, by decide, by decide⟩

/-- The state left by the Editor import of an agent with a definition and no clone keeps the
registered pointers live: the agent that holds the deleted definition has no peer id and is not
registered. -/
theorem Editor.live_after_import_without_clones :
    ∃ s', Editor.importAgentsListFromJson Editor.cameraEnv {} definitionWithoutClones =
        some (s', true) ∧ Editor.Live s' := by
  refine ⟨_, rfl, ?_, ?_⟩
  · intro p a h
    cases h
  · intro n g h
    cases h

end Ingescape
